import Mathlib

/-! # Callback ordering engine of `callback.go`

A shallow embedding of the named-callback ordering code (`getRIndex`,
`sortProcessors` with its inner closure `sortCallbackProcessor`, and the
registration methods of `callbackProcessor`), followed by theorems about it.

Modelling conventions:

* a hook function pointer `*func(scope *Scope)` is represented by its identity,
  a natural number; the nil pointer is `none`;
* `getRIndex` returns `Option Nat`, `none` standing for the sentinel `-1`;
* the entries `cps []*callbackProcessor` are pointers, and the closure writes
  `cp.before` through them, so the resolver state carries the current entry
  values next to `sortedNames`, and an entry is referred to by its index;
* the closure `sortCallbackProcessor` is recursive without a syntactic bound,
  so the embedding takes a fuel argument and returns `none` when it runs out;
  `sortProcessors` supplies `sortFuel`, which is proved to be enough;
* an out-of-range slice index (a Go panic) is `none`.
-/

namespace Gorm

/-- The struct `callbackProcessor` (the back pointer `callback` is left out). -/
structure callbackProcessor where
  name : String
  before : String
  after : String
  replace : Bool
  remove : Bool
  typ : String
  processor : Option Nat
deriving DecidableEq

/-- The entry created by `addProcessor(typ)`: every field but `typ` is zero. -/
def addProcessor (typ : String) : callbackProcessor :=
  { name := "", before := "", after := "", replace := false, remove := false,
    typ := typ, processor := none }

/-- Field update of `cp.Before(name)`. -/
def callbackProcessor.Before (cp : callbackProcessor) (name : String) : callbackProcessor :=
  { cp with before := name }

/-- Field update of `cp.After(name)`. -/
def callbackProcessor.After (cp : callbackProcessor) (name : String) : callbackProcessor :=
  { cp with after := name }

/-- Field updates of `cp.Register(name, fc)`; `fc` is the identity of `&fc`. -/
def callbackProcessor.Register (cp : callbackProcessor) (name : String) (fc : Nat) :
    callbackProcessor :=
  { cp with name := name, processor := some fc }

/-- Field updates of `cp.Remove(name)`. -/
def callbackProcessor.Remove (cp : callbackProcessor) (name : String) : callbackProcessor :=
  { cp with name := name, remove := true }

/-- Field updates of `cp.Replace(name, fc)`. -/
def callbackProcessor.Replace (cp : callbackProcessor) (name : String) (fc : Nat) :
    callbackProcessor :=
  { cp with name := name, processor := some fc, replace := true }

/-- The loop of `getRIndex`: `i` counts down from `len(strs)`; the element
looked at is `strs[i-1]`. -/
def getRIndexLoop (strs : List String) (str : String) : Nat → Option Nat
  | 0 => none
  | i + 1 => if strs[i]? = some str then some i else getRIndexLoop strs str i

/-- The function `getRIndex`: the last index of `str` in `strs`. -/
def getRIndex (strs : List String) (str : String) : Option Nat :=
  getRIndexLoop strs str strs.length

/-- The variables the closure `sortCallbackProcessor` works on: the entries
behind the pointers of `cps`, and `sortedNames`. -/
structure SortState where
  cps : List callbackProcessor
  sortedNames : List String
deriving DecidableEq

/-- The expression `append(s[:index], append([]string{name}, s[index:]...)...)`. -/
def insertAt (s : List String) (index : Nat) (name : String) : List String :=
  s.take index ++ name :: s.drop index

/-- The block `if len(c.before) > 0 { ... }` of the closure; `recur` is the
closure itself, applied to an index of `cps`. -/
def beforeStep (names : List String) (recur : Nat → SortState → Option SortState)
    (c : callbackProcessor) (st : SortState) : Option SortState :=
  if c.before ≠ "" then
    match getRIndex st.sortedNames c.before with
    | some index => some { st with sortedNames := insertAt st.sortedNames index c.name }
    | none =>
      match getRIndex names c.before with
      | some index => recur index { st with sortedNames := st.sortedNames ++ [c.name] }
      | none => some { st with sortedNames := st.sortedNames ++ [c.name] }
  else some st

/-- The block `if len(c.after) > 0 { ... }` of the closure. -/
def afterStep (names : List String) (recur : Nat → SortState → Option SortState)
    (c : callbackProcessor) (st : SortState) : Option SortState :=
  if c.after ≠ "" then
    match getRIndex st.sortedNames c.after with
    | some index => some { st with sortedNames := insertAt st.sortedNames (index + 1) c.name }
    | none =>
      match getRIndex names c.after with
      | some index =>
        match st.cps[index]? with
        | none => none
        | some cp =>
          recur index
            { st with cps := if cp.before = "" then st.cps.set index { cp with before := c.name }
                             else st.cps }
      | none => some { st with sortedNames := st.sortedNames ++ [c.name] }
  else some st

/-- The last block of the closure: append the name if it is still missing. -/
def finalStep (c : callbackProcessor) (st : SortState) : SortState :=
  if (getRIndex st.sortedNames c.name).isNone then
    { st with sortedNames := st.sortedNames ++ [c.name] }
  else st

/-- The closure `sortCallbackProcessor`, called on the entry `cps[ci]`.  The
fields of `c` are read when the call starts: `name` and `after` are never
written, and `before` is read by the closure before its first recursive call. -/
def sortCallbackProcessor (names : List String) : Nat → Nat → SortState → Option SortState
  | 0, _, _ => none
  | fuel + 1, ci, st =>
    match st.cps[ci]? with
    | none => none
    | some c =>
      if (getRIndex st.sortedNames c.name).isSome then some st
      else
        (beforeStep names (sortCallbackProcessor names fuel) c st).bind fun st1 =>
        (afterStep names (sortCallbackProcessor names fuel) c st1).bind fun st2 =>
        some (finalStep c st2)

/-- The loop `for _, cp := range cps { sortCallbackProcessor(cp) }`, over the
indices still to visit. -/
def sortLoop (names : List String) (fuel : Nat) : List Nat → SortState → Option SortState
  | [], st => some st
  | ci :: rest, st => (sortCallbackProcessor names fuel ci st).bind (sortLoop names fuel rest)

/-- The loop building `sortedFuncs` from `sortedNames`. -/
def sortedFuncs (names : List String) (cps : List callbackProcessor) :
    List String → Option (List (Option Nat))
  | [] => some []
  | name :: rest =>
    match getRIndex names name with
    | none => none
    | some index =>
      match cps[index]? with
      | none => none
      | some cp =>
        (sortedFuncs names cps rest).map fun fs =>
          if !cp.remove then cp.processor :: fs else fs

/-- The loop building `funcs`: the entries whose name is not in `sortedNames`. -/
def funcs (sortedNames : List String) : List callbackProcessor → List (Option Nat)
  | [] => []
  | cp :: rest =>
    if (getRIndex sortedNames cp.name).isNone && !cp.remove then
      cp.processor :: funcs sortedNames rest
    else funcs sortedNames rest

/-- The slice `names` built by the first loop of `sortProcessors`. -/
def namesOf (cps : List callbackProcessor) : List String :=
  cps.map (·.name)

/-- Fuel handed to every call of the main loop. -/
def sortFuel (cps : List callbackProcessor) : Nat :=
  2 * cps.length + 3

/-- The state of `sortProcessors` when its main loop has finished. -/
def sortProcessorsState (cps : List callbackProcessor) : Option SortState :=
  sortLoop (namesOf cps) (sortFuel cps) (List.range cps.length) { cps := cps, sortedNames := [] }

/-- The function `sortProcessors`: the returned table. -/
def sortProcessors (cps : List callbackProcessor) : Option (List (Option Nat)) :=
  (sortProcessorsState cps).bind fun st =>
    (sortedFuncs (namesOf cps) st.cps st.sortedNames).map fun fs => fs ++ funcs st.sortedNames st.cps

/-- The value of `sortedNames` when the main loop has finished. -/
def resolvedOrder (cps : List callbackProcessor) : Option (List String) :=
  (sortProcessorsState cps).map (·.sortedNames)

/-- A registered entry `Create().Register(name, fc)`. -/
def reg (name : String) (fc : Nat) : callbackProcessor :=
  (addProcessor "create").Register name fc

/-- A registered entry `Create().Before(b).Register(name, fc)`. -/
def regBefore (b name : String) (fc : Nat) : callbackProcessor :=
  ((addProcessor "create").Before b).Register name fc

/-- A registered entry `Create().After(a).Register(name, fc)`. -/
def regAfter (a name : String) (fc : Nat) : callbackProcessor :=
  ((addProcessor "create").After a).Register name fc

/-! ## Specification-side definitions -/

/-- The latest entry carrying `name`: the entry at the last index of `name`. -/
def latestEntry (cps : List callbackProcessor) (name : String) : Option callbackProcessor :=
  (getRIndex (namesOf cps) name).bind fun index => cps[index]?

/-- The slot a name contributes to the hook table: the function of its latest
entry, unless that entry is a removal. -/
def hookSlot (cps : List callbackProcessor) (name : String) : Option (Option Nat) :=
  (latestEntry cps name).bind fun cp => if cp.remove then none else some cp.processor

/-- The hook table as the projection of a name order. -/
def hookTable (cps : List callbackProcessor) (order : List String) : List (Option Nat) :=
  order.filterMap (hookSlot cps)

/-- An entry with its `before` field blanked: what the resolver never writes. -/
def forgetBefore (cp : callbackProcessor) : callbackProcessor :=
  { cp with before := "" }

/-- How a later resolver state `b` relates to the state `a` a call of the
closure started from: entries differ at most in `before`, the names already
placed keep their order and multiplicity (only names absent from `a` are
inserted), and every inserted name is a name of the list. -/
structure Grows (names : List String) (a b : SortState) : Prop where
  same : b.cps.map forgetBefore = a.cps.map forgetBefore
  filt : b.sortedNames.filter (fun n => decide (n ∈ a.sortedNames)) = a.sortedNames
  sub : ∀ n, n ∈ b.sortedNames → n ∈ a.sortedNames ∨ n ∈ names

/-- Number of distinct names of the list that are not yet in `sortedNames`. -/
def unplaced (names sortedNames : List String) : Nat :=
  (names.toFinset \ sortedNames.toFinset).card

/-- The quantity that decreases along nested calls of the closure: it bounds
the nesting depth of a call on the entry `c` from the state `st`. -/
def callMeasure (names : List String) (st : SortState) (c : callbackProcessor) : Nat :=
  2 * unplaced names st.sortedNames + (if c.before = "" then 1 else 0)
    + (if c.name = "" then 1 else 0)

/-- No graft can fire on this list: every entry that an `after` constraint
points to (the latest entry of that name) already has a `before`. -/
def graftFree (cps : List callbackProcessor) : Bool :=
  cps.all fun c =>
    c.after = "" ||
      (match latestEntry cps c.after with
       | some cp => cp.before != ""
       | none => true)

/-- A constraint value `x` of the entry at index `i` looks backward: it is
unset, or names no entry at all, or names an entry registered before `i`. -/
def looksBackward (names : List String) (i : Nat) (x : String) : Bool :=
  decide (x = "") || !decide (x ∈ names) || decide (x ∈ names.take i)

/-- Every `before` and `after` of the list looks backward. -/
def backwardOnly (cps : List callbackProcessor) : Bool :=
  (List.range cps.length).all fun i =>
    match cps[i]? with
    | some c => looksBackward (namesOf cps) i c.before && looksBackward (namesOf cps) i c.after
    | none => true

/-- Two resolver states that agree on `sortedNames` and on every entry except
possibly the one at index `j`. -/
structure AgreeOff (j : Nat) (s s' : SortState) : Prop where
  sorted : s'.sortedNames = s.sortedNames
  len : s'.cps.length = s.cps.length
  entry : ∀ i, i ≠ j → s'.cps[i]? = s.cps[i]?

/-- The run on `cps` (state `s`) against the run on `cps` with one more entry
named `h` appended at index `m` (state `s'`); `l` is the index of the latest
entry named `h` in `cps`.  The two states agree on `sortedNames` and on every
entry but the one at `l`; the appended entry stands in for the one at `l` as
the recursion target of `h`, and carries the same `before` as long as `h` is not
placed. -/
structure Shadow (h : String) (l m : Nat) (s s' : SortState) : Prop where
  sorted : s'.sortedNames = s.sortedNames
  len : s.cps.length = m
  len' : s'.cps.length = m + 1
  entry : ∀ i, i ≠ l → i < m → s'.cps[i]? = s.cps[i]?
  old : ∃ c, s.cps[l]? = some c ∧ c.name = h ∧ c.after = ""
  old' : ∃ c, s'.cps[l]? = some c ∧ c.name = h ∧ c.before = "" ∧ c.after = ""
  new' : ∃ c, s'.cps[m]? = some c ∧ c.name = h ∧ c.after = ""
  link : h ∉ s.sortedNames → ∀ c c', s.cps[l]? = some c → s'.cps[m]? = some c' →
    c.before = c'.before

/-- While `h` is not placed, the latest entry named `h` has no `before`. -/
def TopInv (h : String) (l : Nat) (s : SortState) : Prop :=
  h ∉ s.sortedNames → ∀ c, s.cps[l]? = some c → c.before = ""

/-- Pairs of indices the two runs call the closure on: the same entry, or the
latest entry named `h` against the appended one. -/
def ShadowIdx (l m : Nat) (ci ci' : Nat) : Prop :=
  (ci = ci' ∧ ci ≠ l ∧ ci < m) ∨ (ci = l ∧ ci' = m)

/-- The three entries `E(after Y)`, `Y(before Z)`, `Z(after E)`. -/
def cyclicAfter : List callbackProcessor :=
  [regAfter "Y" "E" 1, regBefore "Z" "Y" 2, regAfter "E" "Z" 3]

/-- The three entries `A`, `B`, `X(before A, after B)`. -/
def bothConstraints : List callbackProcessor :=
  [reg "A" 1, reg "B" 2, (((addProcessor "create").Before "A").After "B").Register "X" 3]

/-! ## The struct `callback` and its methods -/

/-- The struct `callback`: the five hook lists and the registry `processors`. -/
structure callback where
  creates : List (Option Nat)
  updates : List (Option Nat)
  deletes : List (Option Nat)
  queries : List (Option Nat)
  rowQueries : List (Option Nat)
  processors : List callbackProcessor
deriving DecidableEq

/-- The variable `DefaultCallback`: no hooks, an empty registry. -/
def DefaultCallback : callback :=
  { creates := [], updates := [], deletes := [], queries := [], rowQueries := [],
    processors := [] }

/-- The method `c.addProcessor(typ)`: a fresh entry is appended to `c.processors`;
the returned pointer is the index of that entry. -/
def callback.addProcessor (c : callback) (typ : String) : callback × Nat :=
  ({ c with processors := c.processors ++ [Gorm.addProcessor typ] }, c.processors.length)

/-- The method `c.clone()`: the struct literal leaves `rowQueries` out, so it is
nil in the clone.  The registry is copied as a value; the source copies the
slice header, so the two callbacks go on sharing the entries behind it. -/
def callback.clone (c : callback) : callback :=
  { creates := c.creates, updates := c.updates, deletes := c.deletes, queries := c.queries,
    rowQueries := [], processors := c.processors }

/-- The method `c.Create()`. -/
def callback.Create (c : callback) : callback × Nat := c.addProcessor "create"

/-- The method `c.Update()`. -/
def callback.Update (c : callback) : callback × Nat := c.addProcessor "update"

/-- The method `c.Delete()`. -/
def callback.Delete (c : callback) : callback × Nat := c.addProcessor "delete"

/-- The method `c.Query()`. -/
def callback.Query (c : callback) : callback × Nat := c.addProcessor "query"

/-- The method `c.RowQuery()`. -/
def callback.RowQuery (c : callback) : callback × Nat := c.addProcessor "row_query"

/-- A write through the entry pointer `cp`: the entry at index `cp` of the
registry is replaced by `f` of it. -/
def callback.onEntry (c : callback) (cp : Nat) (f : callbackProcessor → callbackProcessor) :
    callback :=
  match c.processors[cp]? with
  | some e => { c with processors := c.processors.set cp (f e) }
  | none => c

/-- The entries of `news`, in order, put back in the places of the entries of
type `typ`: the slice handed to `sortProcessors` holds pointers into
`c.processors`, so what the closure writes shows in the registry. -/
def writeBack (typ : String) : List callbackProcessor → List callbackProcessor →
    List callbackProcessor
  | [], _ => []
  | p :: ps, news =>
    if p.typ = typ then
      match news with
      | n :: ns => n :: writeBack typ ps ns
      | [] => p :: writeBack typ ps []
    else p :: writeBack typ ps news

/-- One line `c.xs = sortProcessors(xs)` of `sort`, for the entries whose `typ`
is `typ`: the table, and the registry as the run leaves it. -/
def sortCategory (typ : String) (processors : List callbackProcessor) :
    Option (List (Option Nat) × List callbackProcessor) :=
  (sortProcessorsState (processors.filter fun p => p.typ = typ)).bind fun st =>
    (sortProcessors (processors.filter fun p => p.typ = typ)).map fun table =>
      (table, writeBack typ processors st.cps)

/-- The method `c.sort()`.  The five slices are cut from `c.processors` by
`typ`; a run writes only to entries of its own slice, so cutting each slice when
its run starts gives the slices the source cuts beforehand. -/
def callback.sort (c : callback) : Option callback :=
  (sortCategory "create" c.processors).bind fun r1 =>
  (sortCategory "update" r1.2).bind fun r2 =>
  (sortCategory "delete" r2.2).bind fun r3 =>
  (sortCategory "query" r3.2).bind fun r4 =>
  (sortCategory "row_query" r4.2).bind fun r5 =>
    some { creates := r1.1, updates := r2.1, deletes := r3.1, queries := r4.1,
           rowQueries := r5.1, processors := r5.2 }

/-- The method `cp.Before(name)` on the entry behind the pointer `cp`. -/
def callback.Before (c : callback) (cp : Nat) (name : String) : callback :=
  c.onEntry cp fun e => e.Before name

/-- The method `cp.After(name)` on the entry behind the pointer `cp`. -/
def callback.After (c : callback) (cp : Nat) (name : String) : callback :=
  c.onEntry cp fun e => e.After name

/-- The method `cp.Register(name, fc)`: the field writes, then `cp.callback.sort()`. -/
def callback.Register (c : callback) (cp : Nat) (name : String) (fc : Nat) : Option callback :=
  (c.onEntry cp fun e => e.Register name fc).sort

/-- The method `cp.Remove(name)`: the field writes, then `cp.callback.sort()`. -/
def callback.Remove (c : callback) (cp : Nat) (name : String) : Option callback :=
  (c.onEntry cp fun e => e.Remove name).sort

/-- The method `cp.Replace(name, fc)`: the field writes, then `cp.callback.sort()`. -/
def callback.Replace (c : callback) (cp : Nat) (name : String) (fc : Nat) : Option callback :=
  (c.onEntry cp fun e => e.Replace name fc).sort

/-- The hook list of a category, by the `typ` string of its entries. -/
def callback.hooks (c : callback) (typ : String) : List (Option Nat) :=
  if typ = "create" then c.creates
  else if typ = "update" then c.updates
  else if typ = "delete" then c.deletes
  else if typ = "query" then c.queries
  else if typ = "row_query" then c.rowQueries
  else []

/-- The five `typ` strings `sort` switches on. -/
def categories : List String :=
  ["create", "update", "delete", "query", "row_query"]

/-- The entries of the registry whose `typ` is `typ`, in registration order. -/
def ofTyp (typ : String) (processors : List callbackProcessor) : List callbackProcessor :=
  processors.filter fun p => p.typ = typ

/-- The hook lists of `c'` are what `sortProcessors` returns on the entries of
`c1`, category by category, and the entries of `c'` are those of `c1` up to
`before`. -/
def SortedFrom (c1 c' : callback) : Prop :=
  (∀ typ, typ ∈ categories → sortProcessors (ofTyp typ c1.processors) = some (c'.hooks typ)) ∧
    c'.processors.map forgetBefore = c1.processors.map forgetBefore

/-- Every category other than `typ0` whose hook list in `c` is the resolution of
its entries as they stand in `c` has the same hook list in `c'`. -/
def FramedOff (typ0 : String) (c c' : callback) : Prop :=
  ∀ typ, typ ≠ typ0 → sortProcessors (ofTyp typ c.processors) = some (c.hooks typ) →
    c'.hooks typ = c.hooks typ

/-- In `c'` the hook list of every category whose entries in `c1` are
`graftFree` or `backwardOnly` is the resolution of the entries as they stand in
`c'`. -/
def SettledIn (c1 c' : callback) : Prop :=
  ∀ typ, typ ∈ categories →
    (graftFree (ofTyp typ c1.processors) = true ∨ backwardOnly (ofTyp typ c1.processors) = true) →
    ofTyp typ c'.processors = ofTyp typ c1.processors ∧
      sortProcessors (ofTyp typ c'.processors) = some (c'.hooks typ)

/-- The call chain `c.addProcessor(typ).Before(b).After(a).Register(name, fc)`;
an empty `b` or `a` stands for a chain without that call. -/
def callback.register (c : callback) (typ b a name : String) (fc : Nat) : Option callback :=
  let r := c.addProcessor typ
  let c1 := if b = "" then r.1 else r.1.Before r.2 b
  let c2 := if a = "" then c1 else c1.After r.2 a
  c2.Register r.2 name fc

/-- The registrations `Update().After("Y").Register("E", 1)`,
`Update().Before("Z").Register("Y", 2)`, `Update().After("E").Register("Z", 3)`
on `DefaultCallback`. -/
def cyclicUpdates : Option callback :=
  ((DefaultCallback.register "update" "" "Y" "E" 1).bind fun c =>
    c.register "update" "Z" "" "Y" 2).bind fun c => c.register "update" "" "E" "Z" 3

/-- What a run may have done to the entries `a` when it leaves them as `b`:
nothing but `before` differs, and a `before` that differs was empty and now
holds the name of an entry whose `after` names this entry. -/
structure GraftOnly (a b : List callbackProcessor) : Prop where
  same : b.map forgetBefore = a.map forgetBefore
  before : ∀ (i : Nat) (e e' : callbackProcessor), a[i]? = some e → b[i]? = some e' →
    e'.before = e.before ∨
      (e.before = "" ∧ ∃ c, c ∈ a ∧ c.after = e.name ∧ c.after ≠ "" ∧ e'.before = c.name)

/-! ## The calls of a resolution

The closure once more, returning next to its result the calls it made: the
computation is that of `sortCallbackProcessor` (see `sortCallbackProcessorLog_fst`),
the record is what a statement about "every call of the run" quantifies over. -/

/-- One call of the closure: `nested` tells a call made by the closure itself
from a call made by the main loop; `ci` is the index of the entry the closure is
called on, `st` the resolver state when the call starts. -/
structure CallEvent where
  nested : Bool
  ci : Nat
  st : SortState
deriving DecidableEq

/-- The block `if len(c.before) > 0 { ... }` with the calls it makes. -/
def beforeStepLog (names : List String)
    (recur : Nat → SortState → Option (SortState × List CallEvent))
    (c : callbackProcessor) (st : SortState) : Option (SortState × List CallEvent) :=
  if c.before ≠ "" then
    match getRIndex st.sortedNames c.before with
    | some index => some ({ st with sortedNames := insertAt st.sortedNames index c.name }, [])
    | none =>
      match getRIndex names c.before with
      | some index => recur index { st with sortedNames := st.sortedNames ++ [c.name] }
      | none => some ({ st with sortedNames := st.sortedNames ++ [c.name] }, [])
  else some (st, [])

/-- The block `if len(c.after) > 0 { ... }` with the calls it makes. -/
def afterStepLog (names : List String)
    (recur : Nat → SortState → Option (SortState × List CallEvent))
    (c : callbackProcessor) (st : SortState) : Option (SortState × List CallEvent) :=
  if c.after ≠ "" then
    match getRIndex st.sortedNames c.after with
    | some index =>
      some ({ st with sortedNames := insertAt st.sortedNames (index + 1) c.name }, [])
    | none =>
      match getRIndex names c.after with
      | some index =>
        match st.cps[index]? with
        | none => none
        | some cp =>
          recur index
            { st with cps := if cp.before = "" then st.cps.set index { cp with before := c.name }
                             else st.cps }
      | none => some ({ st with sortedNames := st.sortedNames ++ [c.name] }, [])
  else some (st, [])

/-- The closure `sortCallbackProcessor` with the calls it makes, its own call
first, then those of the before block, then those of the after block. -/
def sortCallbackProcessorLog (names : List String) :
    Nat → Bool → Nat → SortState → Option (SortState × List CallEvent)
  | 0, _, _, _ => none
  | fuel + 1, nested, ci, st =>
    match st.cps[ci]? with
    | none => none
    | some c =>
      if (getRIndex st.sortedNames c.name).isSome then
        some (st, [{ nested := nested, ci := ci, st := st }])
      else
        (beforeStepLog names (sortCallbackProcessorLog names fuel true) c st).bind fun r1 =>
        (afterStepLog names (sortCallbackProcessorLog names fuel true) c r1.1).bind fun r2 =>
        some (finalStep c r2.1, { nested := nested, ci := ci, st := st } :: (r1.2 ++ r2.2))

/-- The main loop with the calls made, those of the loop itself marked as not
nested. -/
def sortLoopLog (names : List String) (fuel : Nat) :
    List Nat → SortState → Option (SortState × List CallEvent)
  | [], st => some (st, [])
  | ci :: rest, st =>
    (sortCallbackProcessorLog names fuel false ci st).bind fun r1 =>
    (sortLoopLog names fuel rest r1.1).map fun r2 => (r2.1, r1.2 ++ r2.2)

/-- The state of `sortProcessors` when its main loop has finished, with every
call of the closure made on the way. -/
def sortProcessorsLog (cps : List callbackProcessor) : Option (SortState × List CallEvent) :=
  sortLoopLog (namesOf cps) (sortFuel cps) (List.range cps.length)
    { cps := cps, sortedNames := [] }

/-- The calls of the resolution of `cps`. -/
def callsOf (cps : List callbackProcessor) : List CallEvent :=
  match sortProcessorsLog cps with
  | some r => r.2
  | none => []

/-- The name `n` occurs once in `order`, with an occurrence of `X` behind it. -/
def PlacedBefore (n X : String) (order : List String) : Prop :=
  ∃ m1 m2, order = m1 ++ n :: m2 ∧ n ∉ m1 ∧ n ∉ m2 ∧ X ∈ m2

/-- The call `ev` is a call on the entry `c`, not yet placed, with no `after`
and with a `before` naming `X`, which is placed when the call starts. -/
def BeforeCall (ev : CallEvent) (c : callbackProcessor) (X : String) : Prop :=
  ev.st.cps[ev.ci]? = some c ∧ c.name ∉ ev.st.sortedNames ∧ c.after = "" ∧ c.before = X ∧
    X ≠ "" ∧ X ∈ ev.st.sortedNames

/-- The call `ev` pulls the name `h` in: it is a nested call on an entry named
`h` made while `h` is not yet placed. -/
def CallEvent.pulls (ev : CallEvent) (h : String) : Bool :=
  ev.nested &&
    (match ev.st.cps[ev.ci]? with
     | some c => decide (c.name = h)
     | none => false) &&
    !decide (h ∈ ev.st.sortedNames)

/-- No call of the resolution of `cps` pulls `h` in: the name `h` is placed by
the main loop, never through the `before` or `after` of another entry. -/
def neverPulled (cps : List callbackProcessor) (h : String) : Bool :=
  (callsOf cps).all fun ev => !ev.pulls h

/-- Two resolver states that agree on `sortedNames` and on every entry except
possibly the one at index `j`, which one of them may lack. -/
structure Agree (j : Nat) (s s' : SortState) : Prop where
  sorted : s'.sortedNames = s.sortedNames
  entry : ∀ i, i ≠ j → s'.cps[i]? = s.cps[i]?

/-- The registrations `Create().Register("H", 1)`,
`Create().After("C").Register("A", 2)`, `Create().After("A").Register("B", 3)`,
`Create().Before("B").Register("C", 4)` on `DefaultCallback`; the `sort()` of the
third one leaves `A.before = "B"`. -/
def graftedCreates : Option callback :=
  (((DefaultCallback.register "create" "" "" "H" 1).bind fun c =>
    c.register "create" "" "C" "A" 2).bind fun c =>
    c.register "create" "" "A" "B" 3).bind fun c => c.register "create" "B" "" "C" 4

/-- The lists of names of two runs: `names'` looks every name but `h` up where
`names` does, and looks `h` up at the index `j`, which no other name of `names`
is looked up at. -/
structure Detour (names names' : List String) (h : String) (j : Nat) : Prop where
  other : ∀ x, x ≠ h → getRIndex names' x = getRIndex names x
  apart : ∀ x idx, x ≠ h → getRIndex names x = some idx → idx ≠ j
  self : getRIndex names' h = some j
  known : h ∈ names

/-- What two runs call the closure on: the same index, other than `j`; or, once
`h` is placed, an entry named `h` in the first run and `j` in the second. -/
def Twin (h : String) (j : Nat) (ci ci' : Nat) (s : SortState) : Prop :=
  (ci' = ci ∧ ci ≠ j) ∨
    (h ∈ s.sortedNames ∧ (∃ c, s.cps[ci]? = some c ∧ c.name = h) ∧ ci' = j)

/-! ## Naming: `toDBName` and its cache

`schema/naming.go`.  The package variable `smap` is passed as a state; a
`sync.Map` used from one goroutine is a finite map, kept here as an association
list whose first binding of a key is the live one.  `commonInitialismsReplacer`
is built by `strings.NewReplacer` and `NameReplacer` is an interface value: both
are functions on strings here.  The string `value` is read as its characters,
which for ASCII text are the bytes the source indexes. -/

/-- The Go struct `NamingStrategy`; a nil `NameReplacer` is `none`. -/
structure NamingStrategy where
  TablePrefix : String
  SingularTable : Bool
  NameReplacer : Option (String → String)

/-- The contents of the package variable `smap`. -/
abbrev Smap := List (String × String)

/-- Go `smap.Load(key)`. -/
def Smap.Load (m : Smap) (key : String) : Option String := List.lookup key m

/-- Go `smap.Store(key, value)`. -/
def Smap.Store (m : Smap) (key value : String) : Smap := (key, value) :: m

/-- Go `reset`: `smap = sync.Map{}`. -/
def reset : Smap := []

/-- Go `b <= 'Z' && b >= 'A'`. -/
def isUpper (b : Char) : Bool := decide (b ≤ 'Z') && decide (b ≥ 'A')

/-- Go `b >= '0' && b <= '9'`. -/
def isNumber (b : Char) : Bool := decide (b ≥ '0') && decide (b ≤ '9')

/-- Go `v + 32`. -/
def plus32 (v : Char) : Char := Char.ofNat (v.toNat + 32)

/-- The builder and the two flags the loop of `toDBName` carries from one
iteration to the next (`nextCase` and `nextNumber` are recomputed each time). -/
structure SnakeState where
  buf : List Char
  lastCase : Bool
  curCase : Bool
deriving DecidableEq

/-- One iteration of `for i, v := range value[:len(value)-1]`; `i + 1` and, when
`i > 0`, `i - 1` are within `value`. -/
def snakeStep (value : List Char) (i : Nat) (v : Char) (s : SnakeState) : SnakeState :=
  let nextCase := isUpper (value.getD (i + 1) ' ')
  let nextNumber := isNumber (value.getD (i + 1) ' ')
  let buf :=
    if s.curCase then
      if s.lastCase && (nextCase || nextNumber) then s.buf ++ [plus32 v]
      else
        (if i > 0 && value.getD (i - 1) ' ' != '_' && value.getD (i + 1) ' ' != '_'
          then s.buf ++ ['_'] else s.buf) ++ [plus32 v]
    else s.buf ++ [v]
  { buf := buf, lastCase := s.curCase, curCase := nextCase }

/-- The loop of `toDBName`, with the number of iterations left and the index
`i` of the next one. -/
def snakeLoop (value : List Char) : Nat → Nat → SnakeState → SnakeState
  | 0, _, s => s
  | n + 1, i, s => snakeLoop value n (i + 1) (snakeStep value i (value.getD i ' ') s)

/-- The part of `toDBName` from `curCase = value[0] <= 'Z' && ...` to
`ret := buf.String()`; `none` is the index panic of `value[0]` on an empty
`value`. -/
def snakeCase (value : List Char) : Option (List Char) :=
  match value with
  | [] => none
  | c0 :: _ =>
    let s := snakeLoop value (value.length - 1) 0
      { buf := [], lastCase := false, curCase := isUpper c0 }
    let last := value.getD (value.length - 1) ' '
    some (if s.curCase then
        (if !s.lastCase && value.length > 1 then s.buf ++ ['_'] else s.buf) ++ [plus32 last]
      else s.buf ++ [last])

/-- Go `NamingStrategy.toDBName`, returning the string and the new contents of
`smap`.  The cache is read under the name passed in and written under the name
after `NameReplacer`, as the source reassigns `name` in between. -/
def NamingStrategy.toDBName (commonInitialismsReplacer : String → String)
    (ns : NamingStrategy) (smap : Smap) (name : String) : Option (String × Smap) :=
  if name = "" then some ("", smap)
  else
    match smap.Load name with
    | some v => some (v, smap)
    | none =>
      let name1 := match ns.NameReplacer with
        | some r => r name
        | none => name
      (snakeCase (commonInitialismsReplacer name1).toList).map fun ret =>
        (String.mk ret, smap.Store name1 (String.mk ret))

/-- What `strings.NewReplacer("Foo", "Bar", "Bar", "Baz").Replace` returns on the
names `Foo` and `Bar` and on a name that contains neither. -/
def fooBarReplacer (s : String) : String :=
  if s = "Foo" then "Bar" else if s = "Bar" then "Baz" else s

/-- The strategy `NamingStrategy{}`. -/
def plainStrategy : NamingStrategy :=
  { TablePrefix := "", SingularTable := false, NameReplacer := none }

/-- The strategy `NamingStrategy{NameReplacer: strings.NewReplacer("Foo", "Bar", "Bar", "Baz")}`. -/
def replacingStrategy : NamingStrategy :=
  { TablePrefix := "", SingularTable := false, NameReplacer := some fooBarReplacer }

/-! ## Facts about `getRIndex` -/

theorem getRIndexLoop_some {strs : List String} {str : String} :
    ∀ {n i : Nat}, getRIndexLoop strs str n = some i →
      i < n ∧ strs[i]? = some str ∧ ∀ j, i < j → j < n → strs[j]? ≠ some str := by
  intro n
  induction n with
  | zero => intro i h; simp [getRIndexLoop] at h
  | succ k ih =>
    intro i h
    unfold getRIndexLoop at h
    split at h
    · rename_i hk
      have hi : k = i := by simpa using h
      subst hi
      refine ⟨Nat.lt_succ_self _, hk, ?_⟩
      intro j h1 h2
      omega
    · rename_i hk
      obtain ⟨h1, h2, h3⟩ := ih h
      refine ⟨Nat.lt_succ_of_lt h1, h2, ?_⟩
      intro j hj1 hj2
      rcases Nat.lt_succ_iff_lt_or_eq.mp hj2 with hlt | heq
      · exact h3 j hj1 hlt
      · subst heq; exact hk

theorem getRIndexLoop_none {strs : List String} {str : String} :
    ∀ {n : Nat}, getRIndexLoop strs str n = none ↔ ∀ j, j < n → strs[j]? ≠ some str := by
  intro n
  induction n with
  | zero => simp [getRIndexLoop]
  | succ k ih =>
    unfold getRIndexLoop
    constructor
    · intro h
      split at h
      · simp at h
      · rename_i hk
        intro j hj
        rcases Nat.lt_succ_iff_lt_or_eq.mp hj with hlt | heq
        · exact (ih.mp h) j hlt
        · subst heq; exact hk
    · intro h
      have hk : ¬ strs[k]? = some str := h k (Nat.lt_succ_self _)
      rw [if_neg hk]
      exact ih.mpr (fun j hj => h j (Nat.lt_succ_of_lt hj))

theorem getRIndex_eq_none {strs : List String} {str : String} :
    getRIndex strs str = none ↔ str ∉ strs := by
  unfold getRIndex
  rw [getRIndexLoop_none, List.mem_iff_getElem?]
  constructor
  · rintro h ⟨j, hj⟩
    have hlt : j < strs.length := by
      by_contra hge
      rw [List.getElem?_eq_none (by omega)] at hj
      simp at hj
    exact h j hlt hj
  · intro h j _ hj
    exact h ⟨j, hj⟩

theorem getRIndex_isSome {strs : List String} {str : String} :
    (getRIndex strs str).isSome = true ↔ str ∈ strs := by
  rw [← not_iff_not, ← getRIndex_eq_none]
  cases getRIndex strs str <;> simp

theorem getRIndex_isNone {strs : List String} {str : String} :
    (getRIndex strs str).isNone = true ↔ str ∉ strs := by
  rw [← getRIndex_eq_none]
  cases getRIndex strs str <;> simp

theorem getRIndex_some {strs : List String} {str : String} {i : Nat}
    (h : getRIndex strs str = some i) :
    i < strs.length ∧ strs[i]? = some str ∧ ∀ j, i < j → strs[j]? ≠ some str := by
  obtain ⟨h1, h2, h3⟩ := getRIndexLoop_some h
  refine ⟨h1, h2, ?_⟩
  intro j hj hs
  by_cases hlt : j < strs.length
  · exact h3 j hj hlt hs
  · rw [List.getElem?_eq_none (by omega)] at hs
    simp at hs

theorem getRIndex_mem {strs : List String} {str : String} {i : Nat}
    (h : getRIndex strs str = some i) : str ∈ strs :=
  List.mem_iff_getElem?.mpr ⟨i, (getRIndex_some h).2.1⟩

theorem getRIndex_of_mem {strs : List String} {str : String} (h : str ∈ strs) :
    ∃ i, getRIndex strs str = some i := by
  cases hg : getRIndex strs str with
  | none => exact absurd h (getRIndex_eq_none.mp hg)
  | some i => exact ⟨i, rfl⟩

/-- The last index is determined by its two properties. -/
theorem getRIndex_unique {strs : List String} {str : String} {i : Nat}
    (h1 : strs[i]? = some str) (h2 : ∀ j, i < j → strs[j]? ≠ some str) :
    getRIndex strs str = some i := by
  obtain ⟨k, hk⟩ := getRIndex_of_mem (List.mem_iff_getElem?.mpr ⟨i, h1⟩)
  obtain ⟨_, hk2, hk3⟩ := getRIndex_some hk
  rcases Nat.lt_trichotomy i k with hlt | heq | hgt
  · exact absurd hk2 (h2 k hlt)
  · rw [hk, heq]
  · exact absurd h1 (hk3 i hgt)

/-! ## The relation `Grows` -/

theorem forgetBefore_eq {c c' : callbackProcessor} (h : forgetBefore c' = forgetBefore c) :
    c'.name = c.name ∧ c'.after = c.after ∧ c'.replace = c.replace ∧ c'.remove = c.remove ∧
      c'.typ = c.typ ∧ c'.processor = c.processor := by
  have h1 := congrArg callbackProcessor.name h
  have h2 := congrArg callbackProcessor.after h
  have h3 := congrArg callbackProcessor.replace h
  have h4 := congrArg callbackProcessor.remove h
  have h5 := congrArg callbackProcessor.typ h
  have h6 := congrArg callbackProcessor.processor h
  exact ⟨h1, h2, h3, h4, h5, h6⟩

theorem namesOf_forget (cps : List callbackProcessor) :
    namesOf (cps.map forgetBefore) = namesOf cps := by
  simp [namesOf, forgetBefore, Function.comp_def]

theorem namesOf_eq_of_same {a b : List callbackProcessor}
    (h : b.map forgetBefore = a.map forgetBefore) : namesOf b = namesOf a := by
  rw [← namesOf_forget b, h, namesOf_forget]

theorem length_eq_of_same {a b : List callbackProcessor}
    (h : b.map forgetBefore = a.map forgetBefore) : b.length = a.length := by
  simpa using congrArg List.length h

theorem Grows.refl (names : List String) (a : SortState) : Grows names a a where
  same := rfl
  filt := by simp
  sub := fun _ h => Or.inl h

theorem Grows.subset {names : List String} {a b : SortState} (h : Grows names a b) :
    ∀ n, n ∈ a.sortedNames → n ∈ b.sortedNames := by
  intro n hn
  rw [← h.filt] at hn
  exact (List.mem_filter.mp hn).1

theorem Grows.names_eq {names : List String} {a b : SortState} (h : Grows names a b) :
    namesOf b.cps = namesOf a.cps :=
  namesOf_eq_of_same h.same

theorem Grows.trans {names : List String} {a b c : SortState}
    (h1 : Grows names a b) (h2 : Grows names b c) : Grows names a c where
  same := h2.same.trans h1.same
  filt := by
    have hpq : ∀ n, (decide (n ∈ a.sortedNames) && decide (n ∈ b.sortedNames))
        = decide (n ∈ a.sortedNames) := by
      intro n
      by_cases hn : n ∈ a.sortedNames
      · simp [hn, h1.subset n hn]
      · simp [hn]
    have := congrArg (List.filter (fun n => decide (n ∈ a.sortedNames))) h2.filt
    rw [List.filter_filter] at this
    simp only [hpq] at this
    rw [this, h1.filt]
  sub := by
    intro n hn
    rcases h2.sub n hn with h | h
    · exact h1.sub n h
    · exact Or.inr h

theorem filter_insertAt_of_not (p : String → Bool) (s : List String) (k : Nat) (n : String)
    (hn : p n = false) : (insertAt s k n).filter p = s.filter p := by
  unfold insertAt
  rw [List.filter_append, List.filter_cons_of_neg (by simp [hn]), ← List.filter_append,
    List.take_append_drop]

theorem mem_insertAt {s : List String} {k : Nat} {n x : String} :
    x ∈ insertAt s k n ↔ x = n ∨ x ∈ s := by
  unfold insertAt
  constructor
  · intro h
    rcases List.mem_append.mp h with h | h
    · exact Or.inr (List.mem_of_mem_take h)
    · rcases List.mem_cons.mp h with h | h
      · exact Or.inl h
      · exact Or.inr (List.mem_of_mem_drop h)
  · intro h
    rcases h with h | h
    · subst h; simp
    · rw [← List.take_append_drop k s] at h
      rcases List.mem_append.mp h with h | h
      · exact List.mem_append_left _ h
      · exact List.mem_append_right _ (List.mem_cons_of_mem _ h)

theorem insertAt_length (s : List String) (n : String) :
    insertAt s s.length n = s ++ [n] := by
  simp [insertAt]

theorem Grows.ins {names : List String} {a b : SortState} (h : Grows names a b)
    {n : String} (hn : n ∉ a.sortedNames) (hm : n ∈ names) (k : Nat) :
    Grows names a { b with sortedNames := insertAt b.sortedNames k n } where
  same := h.same
  filt := by
    show (insertAt b.sortedNames k n).filter _ = _
    rw [filter_insertAt_of_not _ _ _ _ (by simp [hn]), h.filt]
  sub := by
    intro x hx
    rcases mem_insertAt.mp hx with hx | hx
    · subst hx; exact Or.inr hm
    · exact h.sub x hx

theorem Grows.app {names : List String} {a b : SortState} (h : Grows names a b)
    {n : String} (hn : n ∉ a.sortedNames) (hm : n ∈ names) :
    Grows names a { b with sortedNames := b.sortedNames ++ [n] } := by
  have := h.ins hn hm b.sortedNames.length
  rwa [insertAt_length] at this

theorem map_forget_set (cps : List callbackProcessor) (index : Nat) (cp : callbackProcessor)
    (x : String) (h : cps[index]? = some cp) :
    (cps.set index { cp with before := x }).map forgetBefore = cps.map forgetBefore := by
  apply List.ext_getElem?
  intro j
  rw [List.getElem?_map, List.getElem?_map, List.getElem?_set]
  by_cases hj : index = j
  · subst hj
    have hlt : index < cps.length := by
      by_contra hge
      rw [List.getElem?_eq_none (by omega)] at h
      simp at h
    simp [hlt, h, forgetBefore]
  · simp [hj]

theorem Grows.graft {names : List String} {a b : SortState} (h : Grows names a b)
    {index : Nat} {cp : callbackProcessor} (hcp : b.cps[index]? = some cp) (x : String) :
    Grows names a
      { b with cps := if cp.before = "" then b.cps.set index { cp with before := x }
                      else b.cps } where
  same := by
    show List.map forgetBefore (if cp.before = "" then _ else _) = _
    split
    · rw [map_forget_set _ _ _ _ hcp, h.same]
    · exact h.same
  filt := h.filt
  sub := h.sub

/-! ## Every call of the closure only grows the state -/

theorem beforeStep_grows {names : List String} {recur : Nat → SortState → Option SortState}
    (hrec : ∀ i s s', namesOf s.cps = names → recur i s = some s' → Grows names s s')
    {a st st1 : SortState} {c : callbackProcessor} (hab : Grows names a st)
    (hna : namesOf a.cps = names) (hn : c.name ∉ a.sortedNames) (hm : c.name ∈ names)
    (h : beforeStep names recur c st = some st1) : Grows names a st1 := by
  unfold beforeStep at h
  split at h
  · split at h
    · cases h
      exact hab.ins hn hm _
    · split at h
      · exact (hab.app hn hm).trans
          (hrec _ _ _ (by rw [← hna]; exact hab.names_eq) h)
      · cases h
        exact hab.app hn hm
  · cases h
    exact hab

theorem afterStep_grows {names : List String} {recur : Nat → SortState → Option SortState}
    (hrec : ∀ i s s', namesOf s.cps = names → recur i s = some s' → Grows names s s')
    {a st st1 : SortState} {c : callbackProcessor} (hab : Grows names a st)
    (hna : namesOf a.cps = names) (hn : c.name ∉ a.sortedNames) (hm : c.name ∈ names)
    (h : afterStep names recur c st = some st1) : Grows names a st1 := by
  unfold afterStep at h
  split at h
  · split at h
    · cases h
      exact hab.ins hn hm _
    · split at h
      · split at h
        · cases h
        · rename_i cp hcp
          have hg := hab.graft hcp c.name
          exact hg.trans (hrec _ _ _ (by rw [← hna]; exact hg.names_eq) h)
      · cases h
        exact hab.app hn hm
  · cases h
    exact hab

theorem finalStep_grows {names : List String} {a st : SortState} {c : callbackProcessor}
    (hab : Grows names a st) (hn : c.name ∉ a.sortedNames) (hm : c.name ∈ names) :
    Grows names a (finalStep c st) := by
  unfold finalStep
  split
  · exact hab.app hn hm
  · exact hab

theorem finalStep_mem (c : callbackProcessor) (st : SortState) :
    c.name ∈ (finalStep c st).sortedNames := by
  unfold finalStep
  split
  · simp
  · rename_i h
    cases hg : getRIndex st.sortedNames c.name with
    | none => simp [hg] at h
    | some i => exact getRIndex_mem hg

theorem name_mem_namesOf {cps : List callbackProcessor} {ci : Nat} {c : callbackProcessor}
    (h : cps[ci]? = some c) : c.name ∈ namesOf cps := by
  unfold namesOf
  exact List.mem_map.mpr ⟨c, List.mem_iff_getElem?.mpr ⟨ci, h⟩, rfl⟩

theorem sortCallbackProcessor_grows (names : List String) :
    ∀ (fuel ci : Nat) (st st' : SortState), namesOf st.cps = names →
      sortCallbackProcessor names fuel ci st = some st' → Grows names st st' := by
  intro fuel
  induction fuel with
  | zero => intro ci st st' _ h; simp [sortCallbackProcessor] at h
  | succ k ih =>
    intro ci st st' hna h
    unfold sortCallbackProcessor at h
    split at h
    · cases h
    · rename_i c hc
      split at h
      · cases h
        exact Grows.refl _ _
      · rename_i hp
        have hn : c.name ∉ st.sortedNames := fun hmem => hp (getRIndex_isSome.mpr hmem)
        have hm : c.name ∈ names := hna ▸ name_mem_namesOf hc
        cases h1 : beforeStep names (sortCallbackProcessor names k) c st with
        | none => simp [h1] at h
        | some st1 =>
          cases h2 : afterStep names (sortCallbackProcessor names k) c st1 with
          | none => simp [h1, h2] at h
          | some st2 =>
            simp [h1, h2] at h
            subst h
            have g1 := beforeStep_grows (ih · · ·) (Grows.refl names st) hna hn hm h1
            have g2 := afterStep_grows (ih · · ·) g1 hna hn hm h2
            exact finalStep_grows g2 hn hm

/-- A call that returns has placed the name of its entry. -/
theorem sortCallbackProcessor_placed (names : List String) :
    ∀ (fuel ci : Nat) (st st' : SortState) (c : callbackProcessor), namesOf st.cps = names →
      st.cps[ci]? = some c → sortCallbackProcessor names fuel ci st = some st' →
      c.name ∈ st'.sortedNames := by
  intro fuel ci st st' c hna hc h
  cases fuel with
  | zero => simp [sortCallbackProcessor] at h
  | succ k =>
    unfold sortCallbackProcessor at h
    rw [hc] at h
    simp only at h
    split at h
    · rename_i hp
      cases h
      exact getRIndex_isSome.mp hp
    · cases h1 : beforeStep names (sortCallbackProcessor names k) c st with
      | none => simp [h1] at h
      | some st1 =>
        cases h2 : afterStep names (sortCallbackProcessor names k) c st1 with
        | none => simp [h1, h2] at h
        | some st2 =>
          simp [h1, h2] at h
          subst h
          exact finalStep_mem c st2

/-! ## Termination: the fuel of `sortProcessors` is enough -/

theorem unplaced_le_length (names sorted : List String) : unplaced names sorted ≤ names.length :=
  (Finset.card_le_card Finset.sdiff_subset).trans (List.toFinset_card_le names)

theorem unplaced_mono (names : List String) {s s' : List String} (h : ∀ n, n ∈ s → n ∈ s') :
    unplaced names s' ≤ unplaced names s := by
  apply Finset.card_le_card
  apply Finset.sdiff_subset_sdiff (Finset.Subset.refl _)
  intro n hn
  exact List.mem_toFinset.mpr (h n (List.mem_toFinset.mp hn))

theorem unplaced_lt (names s s' : List String) (h : ∀ n, n ∈ s → n ∈ s') {x : String}
    (hx : x ∈ names) (hxs : x ∉ s) (hxs' : x ∈ s') : unplaced names s' + 1 ≤ unplaced names s := by
  have hss : names.toFinset \ s'.toFinset ⊂ names.toFinset \ s.toFinset := by
    refine Finset.ssubset_iff_subset_ne.mpr ⟨?_, ?_⟩
    · apply Finset.sdiff_subset_sdiff (Finset.Subset.refl _)
      intro n hn
      exact List.mem_toFinset.mpr (h n (List.mem_toFinset.mp hn))
    · intro heq
      have h1 : x ∈ names.toFinset \ s.toFinset := by
        simp [hx, hxs]
      rw [← heq] at h1
      simp [hxs'] at h1
  exact Finset.card_lt_card hss

theorem getRIndex_namesOf {cps : List callbackProcessor} {x : String} {index : Nat}
    (h : getRIndex (namesOf cps) x = some index) :
    ∃ cp, cps[index]? = some cp ∧ cp.name = x := by
  have h2 := (getRIndex_some h).2.1
  unfold namesOf at h2
  rw [List.getElem?_map] at h2
  cases hc : cps[index]? with
  | none => simp [hc] at h2
  | some cp =>
    refine ⟨cp, rfl, ?_⟩
    simpa [hc] using h2

theorem beforeStep_placed {names : List String} {recur : Nat → SortState → Option SortState}
    (hrec : ∀ i s s', namesOf s.cps = names → recur i s = some s' → Grows names s s')
    {st st1 : SortState} {c : callbackProcessor} (hna : namesOf st.cps = names)
    (hb : c.before ≠ "") (h : beforeStep names recur c st = some st1) :
    c.name ∈ st1.sortedNames := by
  unfold beforeStep at h
  rw [if_pos hb] at h
  split at h
  · cases h
    exact mem_insertAt.mpr (Or.inl rfl)
  · split at h
    · exact (hrec _ { st with sortedNames := st.sortedNames ++ [c.name] } _ hna h).subset _
        (by simp)
    · cases h
      simp

theorem sortCallbackProcessor_total (names : List String) :
    ∀ (fuel ci : Nat) (st : SortState) (c : callbackProcessor), namesOf st.cps = names →
      st.cps[ci]? = some c → callMeasure names st c < fuel →
      ∃ st', sortCallbackProcessor names fuel ci st = some st' := by
  intro fuel
  induction fuel with
  | zero => intro ci st c _ _ h; omega
  | succ k ih =>
    intro ci st c hna hc hfuel
    unfold sortCallbackProcessor
    rw [hc]
    simp only
    split
    · exact ⟨st, rfl⟩
    · rename_i hp
      have hn : c.name ∉ st.sortedNames := fun hmem => hp (getRIndex_isSome.mpr hmem)
      have hm : c.name ∈ names := hna ▸ name_mem_namesOf hc
      unfold callMeasure at hfuel
      -- the before block returns
      have hB : ∃ st1, beforeStep names (sortCallbackProcessor names k) c st = some st1 := by
        unfold beforeStep
        split
        · rename_i hb
          split
          · exact ⟨_, rfl⟩
          · split
            · rename_i index hidx
              obtain ⟨cb, hcb, hcbn⟩ := getRIndex_namesOf (hna ▸ hidx)
              have hlt := unplaced_lt names st.sortedNames (st.sortedNames ++ [c.name])
                (fun n hn => List.mem_append_left _ hn) hm hn (by simp)
              have hne : cb.name ≠ "" := hcbn ▸ hb
              refine ih index { st with sortedNames := st.sortedNames ++ [c.name] } cb hna hcb ?_
              unfold callMeasure
              simp only [hb, hne, if_false] at hfuel ⊢
              split <;> omega
            · exact ⟨_, rfl⟩
        · exact ⟨_, rfl⟩
      obtain ⟨st1, h1⟩ := hB
      have g1 := beforeStep_grows (sortCallbackProcessor_grows names k) (Grows.refl names st)
        hna hn hm h1
      have hna1 : namesOf st1.cps = names := by rw [← hna]; exact g1.names_eq
      have hA : ∃ st2, afterStep names (sortCallbackProcessor names k) c st1 = some st2 := by
        unfold afterStep
        split
        · rename_i ha
          split
          · exact ⟨_, rfl⟩
          · split
            · rename_i index hidx
              obtain ⟨cp, hcp, hcpn⟩ := getRIndex_namesOf (hna1 ▸ hidx)
              rw [hcp]
              simp only
              have hne : cp.name ≠ "" := hcpn ▸ ha
              have hlen : index < st1.cps.length := by
                by_contra hge
                rw [List.getElem?_eq_none (by omega)] at hcp
                simp at hcp
              have hkey : 2 * unplaced names st1.sortedNames
                  + (if c.name = "" then 1 else 0) < k := by
                by_cases hbe : c.before = ""
                · have hst : st1 = st := by
                    unfold beforeStep at h1
                    rw [if_neg (by simpa using hbe)] at h1
                    cases h1; rfl
                  subst hst
                  simp only [hbe, if_true] at hfuel
                  omega
                · have hpl := beforeStep_placed (sortCallbackProcessor_grows names k) hna hbe h1
                  have hlt := unplaced_lt names _ _ g1.subset hm hn hpl
                  simp only [hbe, if_false] at hfuel
                  split <;> omega
              by_cases hcb : cp.before = ""
              · rw [if_pos hcb]
                have hnag : namesOf (st1.cps.set index { cp with before := c.name }) = names := by
                  rw [← hna1]
                  exact namesOf_eq_of_same (map_forget_set _ _ _ _ hcp)
                refine ih index { st1 with cps := st1.cps.set index { cp with before := c.name } }
                  { cp with before := c.name } hnag (by simp [hlen]) ?_
                unfold callMeasure
                simp only [hne, if_false]
                by_cases hcn : c.name = ""
                · simp only [hcn, if_true] at hkey ⊢
                  omega
                · simp only [hcn, if_false] at hkey ⊢
                  omega
              · rw [if_neg hcb]
                refine ih index st1 cp hna1 hcp ?_
                unfold callMeasure
                simp only [hne, hcb, if_false]
                omega
            · exact ⟨_, rfl⟩
        · exact ⟨_, rfl⟩
      obtain ⟨st2, h2⟩ := hA
      exact ⟨finalStep c st2, by simp [h1, h2]⟩

/-! ## The main loop and the table -/

theorem sortLoop_grows (names : List String) (fuel : Nat) :
    ∀ (is : List Nat) (st st' : SortState), namesOf st.cps = names →
      sortLoop names fuel is st = some st' → Grows names st st' := by
  intro is
  induction is with
  | nil => intro st st' _ h; simp [sortLoop] at h; subst h; exact Grows.refl _ _
  | cons i rest ih =>
    intro st st' hna h
    unfold sortLoop at h
    cases h1 : sortCallbackProcessor names fuel i st with
    | none => simp [h1] at h
    | some st1 =>
      simp [h1] at h
      have g1 := sortCallbackProcessor_grows names fuel i st st1 hna h1
      exact g1.trans (ih st1 st' (by rw [← hna]; exact g1.names_eq) h)

theorem getElem?_name_of_same {a b : List callbackProcessor}
    (h : b.map forgetBefore = a.map forgetBefore) {i : Nat} {c : callbackProcessor}
    (hc : a[i]? = some c) : ∃ c', b[i]? = some c' ∧ forgetBefore c' = forgetBefore c := by
  have h2 := congrArg (fun l => l[i]?) h
  simp only [List.getElem?_map, hc, Option.map_some'] at h2
  cases hb : b[i]? with
  | none => simp [hb] at h2
  | some c' => exact ⟨c', rfl, by simpa [hb] using h2⟩

theorem sortLoop_placed (names : List String) (fuel : Nat) :
    ∀ (is : List Nat) (st st' : SortState), namesOf st.cps = names →
      sortLoop names fuel is st = some st' →
      ∀ i, i ∈ is → ∀ c, st.cps[i]? = some c → c.name ∈ st'.sortedNames := by
  intro is
  induction is with
  | nil => intro st st' _ _ i hi; simp at hi
  | cons j rest ih =>
    intro st st' hna h i hi c hc
    unfold sortLoop at h
    cases h1 : sortCallbackProcessor names fuel j st with
    | none => simp [h1] at h
    | some st1 =>
      simp [h1] at h
      have g1 := sortCallbackProcessor_grows names fuel j st st1 hna h1
      have hna1 : namesOf st1.cps = names := by rw [← hna]; exact g1.names_eq
      rcases List.mem_cons.mp hi with hij | hir
      · subst hij
        have := sortCallbackProcessor_placed names fuel i st st1 c hna hc h1
        exact (sortLoop_grows names fuel rest st1 st' hna1 h).subset _ this
      · obtain ⟨c', hc', hf⟩ := getElem?_name_of_same g1.same hc
        have hname : c'.name = c.name := (forgetBefore_eq hf).1
        rw [← hname]
        exact ih st1 st' hna1 h i hir c' hc'

theorem sortLoop_total (names : List String) (fuel : Nat) (hfuel : 2 * names.length + 2 < fuel) :
    ∀ (is : List Nat) (st : SortState), namesOf st.cps = names →
      (∀ i, i ∈ is → i < st.cps.length) → ∃ st', sortLoop names fuel is st = some st' := by
  intro is
  induction is with
  | nil => intro st _ _; exact ⟨st, rfl⟩
  | cons j rest ih =>
    intro st hna hlt
    have hj : j < st.cps.length := hlt j (by simp)
    have hm : callMeasure names st (st.cps[j]) < fuel := by
      unfold callMeasure
      have := unplaced_le_length names st.sortedNames
      split <;> split <;> omega
    obtain ⟨st1, h1⟩ := sortCallbackProcessor_total names fuel j st (st.cps[j]) hna
      (by simp [hj]) hm
    have g1 := sortCallbackProcessor_grows names fuel j st st1 hna h1
    obtain ⟨st', h'⟩ := ih st1 (by rw [← hna]; exact g1.names_eq)
      (fun i hi => by rw [length_eq_of_same g1.same]; exact hlt i (List.mem_cons_of_mem _ hi))
    exact ⟨st', by simp [sortLoop, h1, h']⟩

/-- The main loop of `sortProcessors` finishes, and when it does every name of
the list, and nothing else, is in `sortedNames`. -/
theorem sortProcessorsState_spec (cps : List callbackProcessor) :
    ∃ st, sortProcessorsState cps = some st ∧
      Grows (namesOf cps) { cps := cps, sortedNames := [] } st ∧
      ∀ n, n ∈ st.sortedNames ↔ n ∈ namesOf cps := by
  have hlen : (namesOf cps).length = cps.length := by simp [namesOf]
  obtain ⟨st, hst⟩ := sortLoop_total (namesOf cps) (sortFuel cps)
    (by unfold sortFuel; omega) (List.range cps.length) { cps := cps, sortedNames := [] } rfl
    (fun i hi => List.mem_range.mp hi)
  have g := sortLoop_grows (namesOf cps) (sortFuel cps) _ _ _ rfl hst
  refine ⟨st, hst, g, ?_⟩
  intro n
  constructor
  · intro hn
    rcases g.sub n hn with h | h
    · simp at h
    · exact h
  · intro hn
    obtain ⟨c, hc, hcn⟩ := List.mem_map.mp hn
    obtain ⟨i, hi⟩ := List.mem_iff_getElem?.mp hc
    have hlt : i < cps.length := by
      by_contra hge
      rw [List.getElem?_eq_none (by omega)] at hi
      simp at hi
    have := sortLoop_placed (namesOf cps) (sortFuel cps) _ _ _ rfl hst i
      (List.mem_range.mpr hlt) c hi
    rwa [hcn] at this

theorem sortedFuncs_eq_hookTable {cps cps' : List callbackProcessor}
    (hsame : cps'.map forgetBefore = cps.map forgetBefore) :
    ∀ order : List String, (∀ n, n ∈ order → n ∈ namesOf cps) →
      sortedFuncs (namesOf cps) cps' order = some (hookTable cps order) := by
  intro order
  induction order with
  | nil => intro _; rfl
  | cons name rest ih =>
    intro hsub
    obtain ⟨index, hidx⟩ := getRIndex_of_mem (hsub name (by simp))
    obtain ⟨cp, hcp, _⟩ := getRIndex_namesOf hidx
    obtain ⟨cp', hcp', hf⟩ := getElem?_name_of_same hsame hcp
    have hrm : cp'.remove = cp.remove := (forgetBefore_eq hf).2.2.2.1
    have hpr : cp'.processor = cp.processor := (forgetBefore_eq hf).2.2.2.2.2
    have hslot : hookSlot cps name = if cp.remove then none else some cp.processor := by
      simp [hookSlot, latestEntry, hidx, hcp]
    unfold sortedFuncs
    rw [hidx]
    simp only [hcp']
    rw [ih (fun n hn => hsub n (List.mem_cons_of_mem _ hn))]
    unfold hookTable
    rw [List.filterMap_cons, hslot, hrm, hpr]
    cases cp.remove <;> simp

theorem funcs_eq_nil (sortedNames : List String) :
    ∀ cps : List callbackProcessor, (∀ c, c ∈ cps → c.name ∈ sortedNames) →
      funcs sortedNames cps = [] := by
  intro cps
  induction cps with
  | nil => intro _; rfl
  | cons c rest ih =>
    intro h
    have hc : (getRIndex sortedNames c.name).isNone = false := by
      have := getRIndex_isSome.mpr (h c (by simp))
      cases hg : getRIndex sortedNames c.name <;> simp_all
    unfold funcs
    simp only [hc, Bool.false_and]
    exact ih (fun c' hc' => h c' (List.mem_cons_of_mem _ hc'))

/-- The function `sortProcessors` returns, and its table is the projection of the
resolved order through the latest entry of every name. -/
theorem sortProcessors_eq_hookTable (cps : List callbackProcessor) :
    ∃ st, sortProcessorsState cps = some st ∧
      (∀ n, n ∈ st.sortedNames ↔ n ∈ namesOf cps) ∧
      sortProcessors cps = some (hookTable cps st.sortedNames) := by
  obtain ⟨st, hst, g, hmem⟩ := sortProcessorsState_spec cps
  refine ⟨st, hst, hmem, ?_⟩
  unfold sortProcessors
  rw [hst]
  simp only [Option.some_bind]
  rw [sortedFuncs_eq_hookTable g.same st.sortedNames (fun n hn => (hmem n).mp hn)]
  have hf : funcs st.sortedNames st.cps = [] := by
    apply funcs_eq_nil
    intro c hc
    apply (hmem c.name).mpr
    rw [← g.names_eq]
    exact List.mem_map.mpr ⟨c, hc, rfl⟩
  simp [hf]

/-! ## Relative order of placed names -/

theorem filter_split (p : String → Bool) (c : String) (b : List String) :
    ∀ (l a : List String), l.filter p = a ++ c :: b → c ∉ a →
      ∃ l1 l2, l = l1 ++ c :: l2 ∧ l1.filter p = a ∧ l2.filter p = b := by
  intro l
  induction l with
  | nil => intro a h _; simp at h
  | cons x t ih =>
    intro a h hca
    by_cases hx : p x = true
    · rw [List.filter_cons_of_pos hx] at h
      cases a with
      | nil =>
        simp only [List.nil_append, List.cons.injEq] at h
        exact ⟨[], t, by simp [h.1], by simp, h.2⟩
      | cons y a' =>
        simp only [List.cons_append, List.cons.injEq] at h
        obtain ⟨l1, l2, h1, h2, h3⟩ := ih a' h.2 (fun hm => hca (List.mem_cons_of_mem _ hm))
        refine ⟨x :: l1, l2, by simp [h1], ?_, h3⟩
        rw [List.filter_cons_of_pos hx, h2, h.1]
    · rw [List.filter_cons_of_neg hx] at h
      obtain ⟨l1, l2, h1, h2, h3⟩ := ih a h hca
      refine ⟨x :: l1, l2, by simp [h1], ?_, h3⟩
      rw [List.filter_cons_of_neg hx, h2]

/-- A name that occurs once keeps occurring once, and every name placed with it
stays on the same side of it. -/
theorem Grows.split {names : List String} {a b : SortState} (g : Grows names a b)
    {l1 l2 : List String} {c : String} (ha : a.sortedNames = l1 ++ c :: l2)
    (h1 : c ∉ l1) (h2 : c ∉ l2) :
    ∃ m1 m2, b.sortedNames = m1 ++ c :: m2 ∧ c ∉ m1 ∧ c ∉ m2 ∧
      ∀ x, x ∈ a.sortedNames → ((x ∈ m1 ↔ x ∈ l1) ∧ (x ∈ m2 ↔ x ∈ l2)) := by
  have hf := g.filt
  rw [ha] at hf
  obtain ⟨m1, m2, hb, hm1, hm2⟩ := filter_split _ c l2 b.sortedNames l1 hf h1
  refine ⟨m1, m2, hb, ?_, ?_, ?_⟩
  · intro hmem
    apply h1
    rw [← hm1]
    exact List.mem_filter.mpr ⟨hmem, by simp⟩
  · intro hmem
    apply h2
    rw [← hm2]
    exact List.mem_filter.mpr ⟨hmem, by simp⟩
  · intro x hx
    rw [ha] at hx
    constructor
    · rw [← hm1, List.mem_filter]
      simp [hx]
    · rw [← hm2, List.mem_filter]
      simp [hx]

theorem getRIndex_split {s : List String} {X : String} {i : Nat}
    (h : getRIndex s X = some i) :
    s = s.take i ++ X :: s.drop (i + 1) ∧ X ∉ s.drop (i + 1) ∧
      s.take (i + 1) = s.take i ++ [X] ∧ s.drop i = X :: s.drop (i + 1) := by
  obtain ⟨hlt, hget, hlast⟩ := getRIndex_some h
  have hX : s[i] = X := by
    rw [List.getElem?_eq_getElem hlt] at hget
    exact Option.some.inj hget
  have hdrop : s.drop i = X :: s.drop (i + 1) := by
    rw [List.drop_eq_getElem_cons hlt, hX]
  refine ⟨?_, ?_, ?_, hdrop⟩
  · conv_lhs => rw [← List.take_append_drop i s, hdrop]
  · intro hmem
    obtain ⟨j, hj⟩ := List.mem_iff_getElem?.mp hmem
    rw [List.getElem?_drop] at hj
    exact hlast (i + 1 + j) (by omega) hj
  · rw [List.take_succ, hget]
    rfl

theorem sortLoop_append (names : List String) (fuel : Nat) (ys : List Nat) :
    ∀ (xs : List Nat) (st : SortState),
      sortLoop names fuel (xs ++ ys) st =
        (sortLoop names fuel xs st).bind (sortLoop names fuel ys) := by
  intro xs
  induction xs with
  | nil => intro st; rfl
  | cons x rest ih =>
    intro st
    simp only [List.cons_append, sortLoop]
    cases sortCallbackProcessor names fuel x st with
    | none => rfl
    | some st1 => simpa using ih st1

theorem range_split {n k : Nat} (h : k < n) :
    List.range n = List.range k ++ k :: (List.range n).drop (k + 1) := by
  have h1 : (List.range n).take k = List.range k := by
    rw [List.take_range, Nat.min_eq_left (Nat.le_of_lt h)]
  have h2 : (List.range n).drop k = k :: (List.range n).drop (k + 1) := by
    rw [List.drop_eq_getElem_cons (by simpa using h)]
    simp
  conv_lhs => rw [← List.take_append_drop k (List.range n), h1, h2]

/-- The main loop of `sortProcessors`, cut at the call on entry `k`: what is
left after that call still grows the state the call produced. -/
theorem sortProcessorsState_from {cps : List callbackProcessor} {k : Nat} {st st1 : SortState}
    (hk : k < cps.length)
    (hpre : sortLoop (namesOf cps) (sortFuel cps) (List.range k)
      { cps := cps, sortedNames := [] } = some st)
    (hcall : sortCallbackProcessor (namesOf cps) (sortFuel cps) k st = some st1) :
    ∃ final, sortProcessorsState cps = some final ∧ Grows (namesOf cps) st1 final := by
  obtain ⟨final, hfin, _, _⟩ := sortProcessorsState_spec cps
  refine ⟨final, hfin, ?_⟩
  unfold sortProcessorsState at hfin
  rw [range_split hk, sortLoop_append, hpre] at hfin
  simp only [Option.some_bind, sortLoop, hcall] at hfin
  have g0 := sortLoop_grows (namesOf cps) (sortFuel cps) _ _ _ rfl hpre
  have g1 := sortCallbackProcessor_grows (namesOf cps) (sortFuel cps) k st st1 g0.names_eq hcall
  exact sortLoop_grows (namesOf cps) (sortFuel cps) _ st1 final
    (g1.names_eq.trans g0.names_eq) hfin

/-! ## Single calls evaluated -/

theorem finalStep_of_mem {c : callbackProcessor} {st : SortState}
    (h : c.name ∈ st.sortedNames) : finalStep c st = st := by
  unfold finalStep
  rw [if_neg]
  intro hnone
  exact (getRIndex_isNone.mp hnone) h

theorem call_before_placed {names : List String} {st : SortState} {ci i : Nat}
    {c : callbackProcessor} (hc : st.cps[ci]? = some c) (hn : c.name ∉ st.sortedNames)
    (ha : c.after = "") (hb : c.before ≠ "") (hi : getRIndex st.sortedNames c.before = some i)
    (fuel : Nat) :
    sortCallbackProcessor names (fuel + 1) ci st =
      some { st with sortedNames := insertAt st.sortedNames i c.name } := by
  have hp : ¬ (getRIndex st.sortedNames c.name).isSome = true :=
    fun h => hn (getRIndex_isSome.mp h)
  unfold sortCallbackProcessor
  rw [hc]
  simp only [hp, if_false]
  have h1 : beforeStep names (sortCallbackProcessor names fuel) c st =
      some { st with sortedNames := insertAt st.sortedNames i c.name } := by
    unfold beforeStep
    rw [if_pos hb, hi]
  have h2 : afterStep names (sortCallbackProcessor names fuel) c
      { st with sortedNames := insertAt st.sortedNames i c.name } =
      some { st with sortedNames := insertAt st.sortedNames i c.name } := by
    unfold afterStep
    rw [if_neg (by simp [ha])]
  rw [h1, Option.some_bind, h2, Option.some_bind,
    finalStep_of_mem (mem_insertAt.mpr (Or.inl rfl))]
  simp

theorem call_after_placed {names : List String} {st : SortState} {ci i : Nat}
    {c : callbackProcessor} (hc : st.cps[ci]? = some c) (hn : c.name ∉ st.sortedNames)
    (hb : c.before = "") (ha : c.after ≠ "") (hi : getRIndex st.sortedNames c.after = some i)
    (fuel : Nat) :
    sortCallbackProcessor names (fuel + 1) ci st =
      some { st with sortedNames := insertAt st.sortedNames (i + 1) c.name } := by
  have hp : ¬ (getRIndex st.sortedNames c.name).isSome = true :=
    fun h => hn (getRIndex_isSome.mp h)
  unfold sortCallbackProcessor
  rw [hc]
  simp only [hp, if_false]
  have h1 : beforeStep names (sortCallbackProcessor names fuel) c st = some st := by
    unfold beforeStep
    rw [if_neg (by simp [hb])]
  have h2 : afterStep names (sortCallbackProcessor names fuel) c st =
      some { st with sortedNames := insertAt st.sortedNames (i + 1) c.name } := by
    unfold afterStep
    rw [if_pos ha, hi]
  rw [h1, Option.some_bind, h2, Option.some_bind,
    finalStep_of_mem (mem_insertAt.mpr (Or.inl rfl))]
  simp

theorem count_insert_one {l1 l2 : List String} {c : String} (h1 : c ∉ l1) (h2 : c ∉ l2) :
    (l1 ++ c :: l2).count c = 1 := by
  rw [List.count_append, List.count_cons_self, List.count_eq_zero_of_not_mem h1,
    List.count_eq_zero_of_not_mem h2]

theorem hookSlot_eq_some {cps : List callbackProcessor} {n : String} {f : Option Nat} :
    hookSlot cps n = some f ↔
      ∃ index cp, getRIndex (namesOf cps) n = some index ∧ cps[index]? = some cp ∧
        cp.remove = false ∧ cp.processor = f := by
  unfold hookSlot latestEntry
  constructor
  · intro h
    cases hi : getRIndex (namesOf cps) n with
    | none => simp [hi] at h
    | some index =>
      cases hc : cps[index]? with
      | none => simp [hi, hc] at h
      | some cp =>
        simp only [hi, hc, Option.some_bind] at h
        by_cases hr : cp.remove = true
        · simp [hr] at h
        · simp only [hr] at h
          exact ⟨index, cp, rfl, hc, by simpa using hr, by simpa using h⟩
  · rintro ⟨index, cp, hi, hc, hr, hf⟩
    simp [hi, hc, hr, hf]

theorem mem_hookTable {cps : List callbackProcessor} {order : List String} {f : Option Nat} :
    f ∈ hookTable cps order ↔
      ∃ n, n ∈ order ∧ ∃ index cp, getRIndex (namesOf cps) n = some index ∧
        cps[index]? = some cp ∧ cp.remove = false ∧ cp.processor = f := by
  unfold hookTable
  rw [List.mem_filterMap]
  constructor
  · rintro ⟨n, hn, hs⟩
    exact ⟨n, hn, hookSlot_eq_some.mp hs⟩
  · rintro ⟨n, hn, hs⟩
    exact ⟨n, hn, hookSlot_eq_some.mpr hs⟩

theorem getRIndex_append_self (l : List String) (h : String) :
    getRIndex (l ++ [h]) h = some l.length := by
  apply getRIndex_unique
  · simp
  · intro j hj
    rw [List.getElem?_eq_none (by simp; omega)]
    simp

theorem getRIndex_append_ne (l : List String) {h x : String} (hx : x ≠ h) :
    getRIndex (l ++ [h]) x = getRIndex l x := by
  cases hg : getRIndex l x with
  | none =>
    rw [getRIndex_eq_none] at hg ⊢
    simp [hg, hx]
  | some i =>
    obtain ⟨hlt, hget, hlast⟩ := getRIndex_some hg
    apply getRIndex_unique
    · rw [List.getElem?_append_left hlt]
      exact hget
    · intro j hj hs
      by_cases hjl : j < l.length
      · rw [List.getElem?_append_left hjl] at hs
        exact hlast j hj hs
      · have hmem : x ∈ (l ++ [h]).drop l.length :=
          List.mem_iff_getElem?.mpr ⟨j - l.length, by
            rw [List.getElem?_drop]
            rw [show l.length + (j - l.length) = j by omega]
            exact hs⟩
        simp at hmem
        exact hx hmem

/-! ## Claims -/

/-- The after block on a placed target: an unplaced entry `c` with no `before`
whose `after` names an `X` already in `sortedNames` is inserted by `sortCallbackProcessor` exactly once, immediately
after the last occurrence of `X`; and when that happens in the main loop of
`sortProcessors`, the final resolved order still has `c.name` (once) strictly
later than every occurrence of `X`; the same holds after any further complete
calls of the closure from the state the call produced. -/
theorem after_placed_main_loop (names : List String) (st : SortState) (ci : Nat)
    (c : callbackProcessor) (X : String)
    (hna : namesOf st.cps = names) (hc : st.cps[ci]? = some c)
    (hn : c.name ∉ st.sortedNames) (hb : c.before = "") (ha : c.after = X) (hX : X ≠ "")
    (hXin : X ∈ st.sortedNames) :
    (∃ l1 l2, st.sortedNames = l1 ++ X :: l2 ∧ X ∉ l2 ∧
      (∀ fuel, sortCallbackProcessor names (fuel + 1) ci st =
        some { st with sortedNames := l1 ++ X :: c.name :: l2 }) ∧
      (l1 ++ X :: c.name :: l2).count c.name = 1 ∧
      (∀ fuel rest final,
        sortLoop names fuel rest { st with sortedNames := l1 ++ X :: c.name :: l2 } = some final →
        ∃ m1 m2, final.sortedNames = m1 ++ c.name :: m2 ∧ c.name ∉ m1 ∧ c.name ∉ m2 ∧
          X ∈ m1 ∧ X ∉ m2)) ∧
    (∀ cps, namesOf cps = names →
      sortLoop names (sortFuel cps) (List.range ci) { cps := cps, sortedNames := [] } = some st →
      ∃ final m1 m2, sortProcessorsState cps = some final ∧
        final.sortedNames = m1 ++ c.name :: m2 ∧ c.name ∉ m1 ∧ c.name ∉ m2 ∧
        X ∈ m1 ∧ X ∉ m2) := by
  obtain ⟨i, hi⟩ := getRIndex_of_mem hXin
  obtain ⟨hs, hlast, htake, _⟩ := getRIndex_split hi
  have hne : c.name ≠ X := fun h => hn (h ▸ hXin)
  have hn1 : c.name ∉ st.sortedNames.take i ++ [X] := by
    intro h
    rcases List.mem_append.mp h with h | h
    · exact hn (List.mem_of_mem_take h)
    · exact hne (by simpa using h)
  have hn2 : c.name ∉ st.sortedNames.drop (i + 1) := fun h => hn (List.mem_of_mem_drop h)
  have hcall : ∀ fuel, sortCallbackProcessor names (fuel + 1) ci st =
      some { st with sortedNames :=
        (st.sortedNames.take i ++ [X]) ++ c.name :: st.sortedNames.drop (i + 1) } := by
    intro fuel
    rw [call_after_placed hc hn hb (ha ▸ hX) (ha ▸ hi) fuel, insertAt, htake]
  have hshape : st.sortedNames.take i ++ X :: c.name :: st.sortedNames.drop (i + 1) =
      (st.sortedNames.take i ++ [X]) ++ c.name :: st.sortedNames.drop (i + 1) := by simp
  refine ⟨⟨_, _, hs, hlast, ?_, ?_, ?_⟩, ?_⟩
  · intro fuel
    rw [hcall fuel, hshape]
  · rw [hshape]
    exact count_insert_one hn1 hn2
  · intro fuel rest final hrun
    rw [hshape] at hrun
    have g := sortLoop_grows names fuel rest
      { st with sortedNames :=
          (st.sortedNames.take i ++ [X]) ++ c.name :: st.sortedNames.drop (i + 1) }
      final hna hrun
    obtain ⟨m1, m2, hm, hm1, hm2, hside⟩ := g.split rfl hn1 hn2
    refine ⟨m1, m2, hm, hm1, hm2, ((hside X (by simp)).1).mpr (by simp), ?_⟩
    intro hmem
    exact hlast (((hside X (by simp)).2).mp hmem)
  intro cps hcps hpre
  subst hcps
  have hk : ci < cps.length := by
    have g0 := sortLoop_grows (namesOf cps) (sortFuel cps) _ _ _ rfl hpre
    rw [← length_eq_of_same g0.same]
    by_contra hge
    rw [List.getElem?_eq_none (by omega)] at hc
    simp at hc
  obtain ⟨final, hfin, g⟩ := sortProcessorsState_from hk hpre (hcall (2 * cps.length + 2))
  obtain ⟨m1, m2, hm, hm1, hm2, hside⟩ := g.split rfl hn1 hn2
  refine ⟨final, m1, m2, hfin, hm, hm1, hm2, ?_, ?_⟩
  · exact ((hside X (by simp)).1).mpr (by simp)
  · intro hmem
    exact hlast (((hside X (by simp)).2).mp hmem)

/-- The after block on a placed target, at the entry list
`[A, B(after A), C(after A)]`, when the main loop
reaches `B`: the call gives `[A, B]`, the final order is `[A, C, B]`. -/
theorem after_placed_main_loop_example :
    (∃ l1 l2, ["A"] = l1 ++ "A" :: l2 ∧ "A" ∉ l2 ∧
      (∀ fuel, sortCallbackProcessor ["A", "B", "C"] (fuel + 1) 1
          { cps := [reg "A" 1, regAfter "A" "B" 2, regAfter "A" "C" 3], sortedNames := ["A"] } =
        some { cps := [reg "A" 1, regAfter "A" "B" 2, regAfter "A" "C" 3],
               sortedNames := l1 ++ "A" :: "B" :: l2 }) ∧
      (l1 ++ "A" :: "B" :: l2).count "B" = 1 ∧
      (∀ fuel rest final,
        sortLoop ["A", "B", "C"] fuel rest
          { cps := [reg "A" 1, regAfter "A" "B" 2, regAfter "A" "C" 3],
            sortedNames := l1 ++ "A" :: "B" :: l2 } = some final →
        ∃ m1 m2, final.sortedNames = m1 ++ "B" :: m2 ∧ "B" ∉ m1 ∧ "B" ∉ m2 ∧
          "A" ∈ m1 ∧ "A" ∉ m2)) ∧
    (∃ final m1 m2,
        sortProcessorsState [reg "A" 1, regAfter "A" "B" 2, regAfter "A" "C" 3] = some final ∧
        final.sortedNames = m1 ++ "B" :: m2 ∧ "B" ∉ m1 ∧ "B" ∉ m2 ∧ "A" ∈ m1 ∧ "A" ∉ m2) :=
  have h := after_placed_main_loop ["A", "B", "C"]
    { cps := [reg "A" 1, regAfter "A" "B" 2, regAfter "A" "C" 3], sortedNames := ["A"] } 1
    (regAfter "A" "B" 2) "A" (by decide) (by decide) (by decide) (by decide) (by decide)
    (by decide) (by decide)
  ⟨h.1, h.2 [reg "A" 1, regAfter "A" "B" 2, regAfter "A" "C" 3] (by decide) (by decide)⟩

/-- C3: the table returned by `sortProcessors` is the projection of the resolved
order in which every name contributes the function of its LATEST entry (when
that entry is not a removal): every function of the table is the processor of
the latest entry of some name, the latest entry of every name contributes, and a
function pointer held only by an entry that is not the latest of its name never
appears.  In particular after `Register(h, f)` followed by `Replace(h, g)` or by
a second `Register(h, g)` the table contains `g` and not `f`. -/
theorem table_holds_latest_entry (cps : List callbackProcessor) :
    (∃ st table, sortProcessorsState cps = some st ∧ sortProcessors cps = some table ∧
      table = st.sortedNames.filterMap (hookSlot cps) ∧
      (∀ f, f ∈ table → ∃ n index cp, getRIndex (namesOf cps) n = some index ∧
        cps[index]? = some cp ∧ cp.remove = false ∧ cp.processor = f) ∧
      (∀ n index cp, getRIndex (namesOf cps) n = some index → cps[index]? = some cp →
        cp.remove = false → cp.processor ∈ table) ∧
      (∀ j e f index, cps[j]? = some e → e.processor = some f →
        getRIndex (namesOf cps) e.name = some index → j ≠ index →
        (∀ i e', i ≠ j → cps[i]? = some e' → e'.processor ≠ some f) → some f ∉ table)) ∧
    (∀ (pre mid : List callbackProcessor) (b1 b2 : callbackProcessor) (h : String) (f g : Nat),
      cps = pre ++ [b1.Register h f] ++ mid → b2.remove = false → f ≠ g →
      (∀ e, e ∈ pre ++ mid → e.processor ≠ some f) →
      (∃ table, sortProcessors (cps ++ [b2.Replace h g]) = some table ∧
        some g ∈ table ∧ some f ∉ table) ∧
      (∃ table, sortProcessors (cps ++ [b2.Register h g]) = some table ∧
        some g ∈ table ∧ some f ∉ table)) := by
  have hgen : ∀ cps : List callbackProcessor,
      ∃ st table, sortProcessorsState cps = some st ∧ sortProcessors cps = some table ∧
      table = st.sortedNames.filterMap (hookSlot cps) ∧
      (∀ f, f ∈ table → ∃ n index cp, getRIndex (namesOf cps) n = some index ∧
        cps[index]? = some cp ∧ cp.remove = false ∧ cp.processor = f) ∧
      (∀ n index cp, getRIndex (namesOf cps) n = some index → cps[index]? = some cp →
        cp.remove = false → cp.processor ∈ table) ∧
      (∀ j e f index, cps[j]? = some e → e.processor = some f →
        getRIndex (namesOf cps) e.name = some index → j ≠ index →
        (∀ i e', i ≠ j → cps[i]? = some e' → e'.processor ≠ some f) → some f ∉ table) := by
    intro cps
    obtain ⟨st, hst, hmem, htab⟩ := sortProcessors_eq_hookTable cps
    refine ⟨st, _, hst, htab, rfl, ?_, ?_, ?_⟩
    · intro f hf
      obtain ⟨n, _, hn⟩ := mem_hookTable.mp hf
      exact ⟨n, hn⟩
    · intro n index cp hi hc hr
      exact mem_hookTable.mpr ⟨n, (hmem n).mpr (getRIndex_mem hi), index, cp, hi, hc, hr, rfl⟩
    · intro j e f index hj hef hidx hne hfresh hf
      obtain ⟨n, _, i, cp, hi, hc, _, hp⟩ := mem_hookTable.mp hf
      by_cases hij : i = j
      · subst hij
        obtain ⟨cp', hc', hn'⟩ := getRIndex_namesOf hi
        rw [hj] at hc'
        cases hc'
        rw [← hn', hidx] at hi
        exact hne (Option.some.inj hi).symm
      · exact hfresh i cp hij hc hp
  refine ⟨hgen cps, ?_⟩
  intro pre mid b1 b2 h f g hcps hb2 hfg hfresh
  have key : ∀ last : callbackProcessor, last.name = h → last.remove = false →
      last.processor = some g →
      ∃ table, sortProcessors (cps ++ [last]) = some table ∧ some g ∈ table ∧
        some f ∉ table := by
    intro last hl1 hl2 hl3
    obtain ⟨st, table, _, htab, _, hin, hall, _⟩ := hgen (cps ++ [last])
    have hlastidx : getRIndex (namesOf (cps ++ [last])) h = some cps.length := by
      have : namesOf (cps ++ [last]) = namesOf cps ++ [h] := by simp [namesOf, hl1]
      rw [this]
      simpa [namesOf] using getRIndex_append_self (namesOf cps) h
    have hget : (cps ++ [last])[cps.length]? = some last := by simp
    refine ⟨table, htab, ?_, ?_⟩
    · have := hall h cps.length last hlastidx hget hl2
      rwa [hl3] at this
    · intro hf
      obtain ⟨n, index, cp, hi, hc, _, hp⟩ := hin _ hf
      have hcpmem : cp ∈ cps ++ [last] := List.mem_iff_getElem?.mpr ⟨index, hc⟩
      rw [hcps] at hcpmem
      simp only [List.mem_append, List.mem_singleton] at hcpmem
      rcases hcpmem with (((hm | hm) | hm) | hm)
      · exact hfresh cp (List.mem_append_left _ hm) hp
      · -- the registered entry itself: it is not the latest entry of `h`
        have hcpn : cp.name = h := by rw [hm]; rfl
        obtain ⟨cp', hc', hn'⟩ := getRIndex_namesOf hi
        rw [hc] at hc'
        cases hc'
        rw [← hn', hcpn, hlastidx] at hi
        have hidx : index = cps.length := (Option.some.inj hi).symm
        rw [hidx, hget] at hc
        have hlp : last.processor = some f := by rw [Option.some.inj hc]; exact hp
        rw [hl3] at hlp
        exact hfg (Option.some.inj hlp).symm
      · exact hfresh cp (List.mem_append_right _ hm) hp
      · rw [hm, hl3] at hp
        exact hfg (Option.some.inj hp).symm
  exact ⟨key (b2.Replace h g) rfl hb2 rfl, key (b2.Register h g) rfl hb2 rfl⟩

/-- C3, at `Register(h, 1)` followed by `Replace(h, 2)` or by `Register(h, 2)`. -/
theorem table_holds_latest_entry_witness :
    ((∃ table, sortProcessors ([reg "h" 1] ++ [(addProcessor "create").Replace "h" 2])
          = some table ∧ some 2 ∈ table ∧ some 1 ∉ table) ∧
      (∃ table, sortProcessors ([reg "h" 1] ++ [(addProcessor "create").Register "h" 2])
          = some table ∧ some 2 ∈ table ∧ some 1 ∉ table)) ∧
    sortProcessors [reg "h" 1, (addProcessor "create").Replace "h" 2] = some [some 2] :=
  ⟨(table_holds_latest_entry [reg "h" 1]).2 [] [] (addProcessor "create")
      (addProcessor "create") "h" 1 2 rfl rfl (by decide) (by simp), by decide⟩

/-- C4: when the latest entry named `h` is a removal, `h` contributes no slot to
the table returned by `sortProcessors`, so a function pointer held only by
entries named `h` is not in the table; every other name whose latest entry is
not a removal, whatever its constraints refer to, still contributes the function
of that entry. -/
theorem removed_name_leaves_table (cps : List callbackProcessor) (h : String) (index : Nat)
    (cp : callbackProcessor) (hidx : getRIndex (namesOf cps) h = some index)
    (hcp : cps[index]? = some cp) (hrm : cp.remove = true) :
    ∃ st table, sortProcessorsState cps = some st ∧ sortProcessors cps = some table ∧
      hookSlot cps h = none ∧ table = st.sortedNames.filterMap (hookSlot cps) ∧
      (∀ e f, e ∈ cps → e.name = h → e.processor = some f →
        (∀ e', e' ∈ cps → e'.name ≠ h → e'.processor ≠ some f) → some f ∉ table) ∧
      (∀ n i c, n ≠ h → getRIndex (namesOf cps) n = some i → cps[i]? = some c →
        c.remove = false → c.processor ∈ table) := by
  obtain ⟨st, hst, hmem, htab⟩ := sortProcessors_eq_hookTable cps
  refine ⟨st, _, hst, htab, ?_, rfl, ?_, ?_⟩
  · simp [hookSlot, latestEntry, hidx, hcp, hrm]
  · intro e f _ _ _ hfresh hf
    obtain ⟨n, _, i, c, hi, hc, hr, hp⟩ := mem_hookTable.mp hf
    obtain ⟨c', hc', hn'⟩ := getRIndex_namesOf hi
    rw [hc] at hc'
    cases hc'
    by_cases hnh : c.name = h
    · rw [← hn', hnh, hidx] at hi
      have : index = i := Option.some.inj hi
      subst this
      rw [hcp] at hc
      cases hc
      rw [hrm] at hr
      cases hr
    · exact hfresh c (List.mem_iff_getElem?.mpr ⟨i, hc⟩) hnh hp
  · intro n i c _ hi hc hr
    exact mem_hookTable.mpr ⟨n, (hmem n).mpr (getRIndex_mem hi), i, c, hi, hc, hr, rfl⟩

/-- C4, at `Register(h, 1)`, `After(h).Register(k, 2)`, `Remove(h)`: the table
is `[2]`. -/
theorem removed_name_leaves_table_witness :
    (∃ st table,
      sortProcessorsState [reg "h" 1, regAfter "h" "k" 2, (addProcessor "create").Remove "h"]
        = some st ∧
      sortProcessors [reg "h" 1, regAfter "h" "k" 2, (addProcessor "create").Remove "h"]
        = some table ∧
      hookSlot [reg "h" 1, regAfter "h" "k" 2, (addProcessor "create").Remove "h"] "h" = none ∧
      table = st.sortedNames.filterMap
        (hookSlot [reg "h" 1, regAfter "h" "k" 2, (addProcessor "create").Remove "h"]) ∧
      (∀ e f, e ∈ [reg "h" 1, regAfter "h" "k" 2, (addProcessor "create").Remove "h"] →
        e.name = "h" → e.processor = some f →
        (∀ e', e' ∈ [reg "h" 1, regAfter "h" "k" 2, (addProcessor "create").Remove "h"] →
          e'.name ≠ "h" → e'.processor ≠ some f) → some f ∉ table) ∧
      (∀ n i c, n ≠ "h" →
        getRIndex (namesOf [reg "h" 1, regAfter "h" "k" 2, (addProcessor "create").Remove "h"]) n
          = some i →
        [reg "h" 1, regAfter "h" "k" 2, (addProcessor "create").Remove "h"][i]? = some c →
        c.remove = false → c.processor ∈ table)) ∧
    sortProcessors [reg "h" 1, regAfter "h" "k" 2, (addProcessor "create").Remove "h"]
      = some [some 2] :=
  ⟨removed_name_leaves_table
      [reg "h" 1, regAfter "h" "k" 2, (addProcessor "create").Remove "h"] "h" 2
      ((addProcessor "create").Remove "h") (by decide) (by decide) (by decide), by decide⟩

/-- C7 (the code at the failing input): the entry `X` sets both `Before("A")` and
`After("B")`, both already placed; the closure inserts `X` twice, so the
resolved order is `[X, A, B, X]`, not duplicate free, and the table holds four
functions for three distinct names. -/
theorem both_constraints_inserted_twice :
    resolvedOrder bothConstraints = some ["X", "A", "B", "X"] ∧
    ¬ (["X", "A", "B", "X"] : List String).Nodup ∧
    sortProcessors bothConstraints = some [some 3, some 1, some 2, some 3] ∧
    (namesOf bothConstraints).dedup.length = 3 := by
  decide

theorem call_unconstrained (names : List String) (st : SortState) (ci : Nat)
    {c : callbackProcessor} (hc : st.cps[ci]? = some c) (hn : c.name ∉ st.sortedNames)
    (hb : c.before = "") (ha : c.after = "") (fuel : Nat) :
    sortCallbackProcessor names (fuel + 1) ci st =
      some { st with sortedNames := st.sortedNames ++ [c.name] } := by
  have hp : ¬ (getRIndex st.sortedNames c.name).isSome = true :=
    fun h => hn (getRIndex_isSome.mp h)
  unfold sortCallbackProcessor
  rw [hc]
  simp only [hp, if_false]
  have h1 : beforeStep names (sortCallbackProcessor names fuel) c st = some st := by
    unfold beforeStep
    rw [if_neg (by simp [hb])]
  have h2 : afterStep names (sortCallbackProcessor names fuel) c st = some st := by
    unfold afterStep
    rw [if_neg (by simp [ha])]
  have h3 : finalStep c st = { st with sortedNames := st.sortedNames ++ [c.name] } := by
    unfold finalStep
    rw [if_pos (getRIndex_isNone.mpr hn)]
  rw [h1, Option.some_bind, h2, Option.some_bind, h3]
  simp

/-- C10 as stated fails: for `[B(before A), A]` the before block of `B` leaves
`sortedNames = [B, A]`; `B` is not the last element and `A` does not precede
it. -/
theorem before_unplaced_counterexample :
    beforeStep ["B", "A"] (sortCallbackProcessor ["B", "A"] 4) (regBefore "A" "B" 1)
        { cps := [regBefore "A" "B" 1, reg "A" 2], sortedNames := [] } =
      some { cps := [regBefore "A" "B" 1, reg "A" 2], sortedNames := ["B", "A"] } ∧
    (["B", "A"] : List String).getLast? ≠ some "B" ∧
    resolvedOrder [regBefore "A" "B" 1, reg "A" 2] = some ["B", "A"] := by
  decide

/-- C10 (amended): when `c.before = X` is set, `X` is not in `sortedNames` and
the list has an entry named `X`, the before block first appends `c.name` to
`sortedNames` and only then calls the closure on the latest entry named `X`;
when that entry has no constraint of its own, the block ends with `X` as the
last element and `c.name` immediately before it. -/
theorem before_unplaced_appends_first (names : List String) (st : SortState)
    (c cx : callbackProcessor) (X : String) (index : Nat)
    (hb : c.before = X) (hX : X ≠ "") (hXs : X ∉ st.sortedNames)
    (hidx : getRIndex names X = some index) :
    (∀ recur, beforeStep names recur c st =
      recur index { st with sortedNames := st.sortedNames ++ [c.name] }) ∧
    (st.cps[index]? = some cx → cx.name = X → cx.before = "" → cx.after = "" → c.name ≠ X →
      ∀ fuel, beforeStep names (sortCallbackProcessor names (fuel + 1)) c st =
        some { st with sortedNames := st.sortedNames ++ [c.name, X] }) := by
  have h1 : ∀ recur, beforeStep names recur c st =
      recur index { st with sortedNames := st.sortedNames ++ [c.name] } := by
    intro recur
    unfold beforeStep
    rw [if_pos (hb ▸ hX), hb, getRIndex_eq_none.mpr hXs, hidx]
  refine ⟨h1, ?_⟩
  intro hcx hname hcb hca hne fuel
  rw [h1]
  have hn : cx.name ∉ st.sortedNames ++ [c.name] := by
    rw [hname]
    intro hmem
    rcases List.mem_append.mp hmem with hmem | hmem
    · exact hXs hmem
    · have e : X = c.name := by simpa using hmem
      exact hne e.symm
  have := call_unconstrained names { st with sortedNames := st.sortedNames ++ [c.name] }
    index hcx hn hcb hca fuel
  rw [this, hname]
  simp

/-- C10 (amended), at the entries `[B(before A), A]`. -/
theorem before_unplaced_appends_first_witness :
    (∀ recur, beforeStep ["B", "A"] recur (regBefore "A" "B" 1)
        { cps := [regBefore "A" "B" 1, reg "A" 2], sortedNames := [] } =
      recur 1 { cps := [regBefore "A" "B" 1, reg "A" 2], sortedNames := [] ++ ["B"] }) ∧
    (∀ fuel, beforeStep ["B", "A"] (sortCallbackProcessor ["B", "A"] (fuel + 1))
        (regBefore "A" "B" 1) { cps := [regBefore "A" "B" 1, reg "A" 2], sortedNames := [] } =
      some { cps := [regBefore "A" "B" 1, reg "A" 2], sortedNames := [] ++ ["B", "A"] }) :=
  have h := before_unplaced_appends_first ["B", "A"]
    { cps := [regBefore "A" "B" 1, reg "A" 2], sortedNames := [] }
    (regBefore "A" "B" 1) (reg "A" 2) "A" 1 (by decide) (by decide) (by decide) (by decide)
  ⟨h.1, h.2 (by decide) (by decide) (by decide) (by decide) (by decide)⟩

/-! ## Resolving twice -/

theorem graftFree_before {cps : List callbackProcessor} (hg : graftFree cps = true)
    {c cp : callbackProcessor} {index : Nat} (hc : c ∈ cps) (ha : c.after ≠ "")
    (hidx : getRIndex (namesOf cps) c.after = some index) (hcp : cps[index]? = some cp) :
    cp.before ≠ "" := by
  unfold graftFree at hg
  have := List.all_eq_true.mp hg c hc
  simp only [latestEntry, hidx, Option.some_bind, hcp, Bool.or_eq_true, decide_eq_true_eq] at this
  rcases this with h | h
  · exact absurd h ha
  · simpa using h

theorem beforeStep_cps {cps : List callbackProcessor} {names : List String}
    {recur : Nat → SortState → Option SortState}
    (hrec : ∀ i s s', s.cps = cps → recur i s = some s' → s'.cps = cps)
    {st st1 : SortState} {c : callbackProcessor} (hst : st.cps = cps)
    (h : beforeStep names recur c st = some st1) : st1.cps = cps := by
  unfold beforeStep at h
  split at h
  · split at h
    · cases h; exact hst
    · split at h
      · exact hrec _ { st with sortedNames := st.sortedNames ++ [c.name] } _ hst h
      · cases h; exact hst
  · cases h; exact hst

theorem afterStep_cps {cps : List callbackProcessor} (hg : graftFree cps = true)
    {recur : Nat → SortState → Option SortState}
    (hrec : ∀ i s s', s.cps = cps → recur i s = some s' → s'.cps = cps)
    {st st1 : SortState} {c : callbackProcessor} (hst : st.cps = cps) (hc : c ∈ cps)
    (h : afterStep (namesOf cps) recur c st = some st1) : st1.cps = cps := by
  unfold afterStep at h
  split at h
  · rename_i ha
    split at h
    · cases h; exact hst
    · split at h
      · rename_i index hidx
        split at h
        · cases h
        · rename_i cp hcp
          have hne : cp.before ≠ "" := graftFree_before hg hc ha hidx (hst ▸ hcp)
          rw [if_neg hne] at h
          exact hrec _ _ _ hst h
      · cases h; exact hst
  · cases h; exact hst

theorem sortCallbackProcessor_cps {cps : List callbackProcessor} (hg : graftFree cps = true) :
    ∀ (fuel ci : Nat) (st st' : SortState), st.cps = cps →
      sortCallbackProcessor (namesOf cps) fuel ci st = some st' → st'.cps = cps := by
  intro fuel
  induction fuel with
  | zero => intro ci st st' _ h; simp [sortCallbackProcessor] at h
  | succ k ih =>
    intro ci st st' hst h
    unfold sortCallbackProcessor at h
    split at h
    · cases h
    · rename_i c hc
      split at h
      · cases h; exact hst
      · cases h1 : beforeStep (namesOf cps) (sortCallbackProcessor (namesOf cps) k) c st with
        | none => simp [h1] at h
        | some st1 =>
          cases h2 : afterStep (namesOf cps) (sortCallbackProcessor (namesOf cps) k) c st1 with
          | none => simp [h1, h2] at h
          | some st2 =>
            simp [h1, h2] at h
            subst h
            have e1 := beforeStep_cps (ih · · ·) hst h1
            have hmem : c ∈ cps := hst ▸ List.mem_iff_getElem?.mpr ⟨ci, hc⟩
            have e2 := afterStep_cps hg (ih · · ·) e1 hmem h2
            unfold finalStep
            split <;> exact e2

theorem sortLoop_cps {cps : List callbackProcessor} (hg : graftFree cps = true) (fuel : Nat) :
    ∀ (is : List Nat) (st st' : SortState), st.cps = cps →
      sortLoop (namesOf cps) fuel is st = some st' → st'.cps = cps := by
  intro is
  induction is with
  | nil => intro st st' hst h; simp [sortLoop] at h; subst h; exact hst
  | cons i rest ih =>
    intro st st' hst h
    unfold sortLoop at h
    cases h1 : sortCallbackProcessor (namesOf cps) fuel i st with
    | none => simp [h1] at h
    | some st1 =>
      simp [h1] at h
      exact ih st1 st' (sortCallbackProcessor_cps hg fuel i st st1 hst h1) h

theorem beforeStep_backward {names : List String} {recur : Nat → SortState → Option SortState}
    {st st1 : SortState} {c : callbackProcessor}
    (hb : c.before = "" ∨ c.before ∉ names ∨ c.before ∈ st.sortedNames)
    (h : beforeStep names recur c st = some st1) :
    st1.cps = st.cps ∧ (∀ n, n ∈ st.sortedNames → n ∈ st1.sortedNames) ∧
      (∀ n, n ∈ st1.sortedNames → n ∈ st.sortedNames ∨ n = c.name) := by
  unfold beforeStep at h
  split at h
  · rename_i hne
    split at h
    · cases h
      exact ⟨rfl, fun n hn => mem_insertAt.mpr (Or.inr hn),
        fun n hn => (mem_insertAt.mp hn).symm⟩
    · rename_i hnone
      have hns : c.before ∉ st.sortedNames := getRIndex_eq_none.mp hnone
      have hnn : c.before ∉ names := by
        rcases hb with hb | hb | hb
        · exact absurd hb hne
        · exact hb
        · exact absurd hb hns
      rw [getRIndex_eq_none.mpr hnn] at h
      cases h
      exact ⟨rfl, fun n hn => List.mem_append_left _ hn, fun n hn => by simpa using hn⟩
  · cases h
    exact ⟨rfl, fun n hn => hn, fun n hn => Or.inl hn⟩

theorem afterStep_backward {names : List String} {recur : Nat → SortState → Option SortState}
    {st st1 : SortState} {c : callbackProcessor}
    (ha : c.after = "" ∨ c.after ∉ names ∨ c.after ∈ st.sortedNames)
    (h : afterStep names recur c st = some st1) :
    st1.cps = st.cps := by
  unfold afterStep at h
  split at h
  · rename_i hne
    split at h
    · cases h; rfl
    · rename_i hnone
      have hns : c.after ∉ st.sortedNames := getRIndex_eq_none.mp hnone
      have hnn : c.after ∉ names := by
        rcases ha with ha | ha | ha
        · exact absurd ha hne
        · exact ha
        · exact absurd ha hns
      rw [getRIndex_eq_none.mpr hnn] at h
      cases h; rfl
  · cases h; rfl

theorem sortCallbackProcessor_backward {names : List String} {fuel ci : Nat}
    {st st' : SortState} {c : callbackProcessor} (hc : st.cps[ci]? = some c)
    (hb : c.before = "" ∨ c.before ∉ names ∨ c.before ∈ st.sortedNames)
    (ha : c.after = "" ∨ c.after ∉ names ∨ c.after ∈ st.sortedNames)
    (h : sortCallbackProcessor names fuel ci st = some st') : st'.cps = st.cps := by
  cases fuel with
  | zero => simp [sortCallbackProcessor] at h
  | succ k =>
    unfold sortCallbackProcessor at h
    rw [hc] at h
    simp only at h
    split at h
    · cases h; rfl
    · cases h1 : beforeStep names (sortCallbackProcessor names k) c st with
      | none => simp [h1] at h
      | some st1 =>
        cases h2 : afterStep names (sortCallbackProcessor names k) c st1 with
        | none => simp [h1, h2] at h
        | some st2 =>
          simp [h1, h2] at h
          subst h
          obtain ⟨e1, hmono, _⟩ := beforeStep_backward hb h1
          have ha1 : c.after = "" ∨ c.after ∉ names ∨ c.after ∈ st1.sortedNames := by
            rcases ha with ha | ha | ha
            · exact Or.inl ha
            · exact Or.inr (Or.inl ha)
            · exact Or.inr (Or.inr (hmono _ ha))
          have e2 := afterStep_backward ha1 h2
          unfold finalStep
          split
          · exact e2.trans e1
          · exact e2.trans e1

theorem backwardOnly_at {cps : List callbackProcessor} (hbw : backwardOnly cps = true)
    {i : Nat} {c : callbackProcessor} (hc : cps[i]? = some c) :
    (c.before = "" ∨ c.before ∉ namesOf cps ∨ c.before ∈ (namesOf cps).take i) ∧
      (c.after = "" ∨ c.after ∉ namesOf cps ∨ c.after ∈ (namesOf cps).take i) := by
  have hlt : i < cps.length := by
    by_contra hge
    rw [List.getElem?_eq_none (by omega)] at hc
    simp at hc
  unfold backwardOnly at hbw
  have := List.all_eq_true.mp hbw i (List.mem_range.mpr hlt)
  simp only [hc, looksBackward, Bool.and_eq_true, Bool.or_eq_true, decide_eq_true_eq,
    Bool.not_eq_true', decide_eq_false_iff_not] at this
  constructor
  · rcases this.1 with (h | h) | h
    · exact Or.inl h
    · exact Or.inr (Or.inl h)
    · exact Or.inr (Or.inr h)
  · rcases this.2 with (h | h) | h
    · exact Or.inl h
    · exact Or.inr (Or.inl h)
    · exact Or.inr (Or.inr h)

theorem sortLoop_backward {cps : List callbackProcessor} (hbw : backwardOnly cps = true)
    (fuel : Nat) :
    ∀ (n k : Nat) (st st' : SortState), st.cps = cps →
      (∀ x, x ∈ st.sortedNames → x ∈ namesOf cps) →
      (∀ x, x ∈ (namesOf cps).take k → x ∈ st.sortedNames) →
      sortLoop (namesOf cps) fuel (List.range' k n) st = some st' → st'.cps = cps := by
  intro n
  induction n with
  | zero => intro k st st' hst _ _ h; simp [sortLoop] at h; subst h; exact hst
  | succ n ih =>
    intro k st st' hst hsub hpre h
    rw [List.range'_succ] at h
    unfold sortLoop at h
    cases h1 : sortCallbackProcessor (namesOf cps) fuel k st with
    | none => simp [h1] at h
    | some st1 =>
      simp [h1] at h
      have g1 := sortCallbackProcessor_grows (namesOf cps) fuel k st st1 (by rw [hst]) h1
      cases hc : st.cps[k]? with
      | none =>
        cases fuel with
        | zero => simp [sortCallbackProcessor] at h1
        | succ f => simp [sortCallbackProcessor, hc] at h1
      | some c =>
        obtain ⟨hb, ha⟩ := backwardOnly_at hbw (hst ▸ hc)
        have e1 : st1.cps = st.cps :=
          sortCallbackProcessor_backward hc
            (hb.imp_right (Or.imp_right (hpre _))) (ha.imp_right (Or.imp_right (hpre _)))
            h1
        have hpl := sortCallbackProcessor_placed (namesOf cps) fuel k st st1 c (by rw [hst])
          hc h1
        refine ih (k + 1) st1 st' (e1.trans hst) ?_ ?_ h
        · intro x hx
          rcases g1.sub x hx with hx | hx
          · exact hsub x hx
          · exact hx
        · intro x hx
          rw [List.take_succ] at hx
          rcases List.mem_append.mp hx with hx | hx
          · exact g1.subset x (hpre x hx)
          · have hk : (namesOf cps)[k]? = some c.name := by
              unfold namesOf
              rw [List.getElem?_map, ← hst, hc]
              rfl
            rw [hk] at hx
            have : x = c.name := by simpa using hx
            rw [this]
            exact hpl

/-- C8 as stated fails: on `E(after Y)`, `Y(before Z)`, `Z(after E)` the first
run grafts `E.before = Z`; it resolves to `[Y, E, E, Z]`, and the second run, on
the entries as the first left them, to `[E, Y, Z]`, with another table. -/
theorem resolve_twice_counterexample :
    ∃ st, sortProcessorsState cyclicAfter = some st ∧
      resolvedOrder cyclicAfter = some ["Y", "E", "E", "Z"] ∧
      resolvedOrder st.cps = some ["E", "Y", "Z"] ∧
      sortProcessors cyclicAfter = some [some 2, some 1, some 1, some 3] ∧
      sortProcessors st.cps = some [some 1, some 2, some 3] := by
  decide

/-- C8 (amended): on an entry list where the run grafts nothing, because every
entry an `after` constraint points to already has a `before` (`graftFree`, e.g.
no entry sets `After`), or because every constraint names an unknown hook or a
hook registered earlier in the list (`backwardOnly`), the first run leaves the
entries as they were, and resolving a second time yields the same resolved order
and the same table. -/
theorem resolve_twice_same (cps : List callbackProcessor)
    (hg : graftFree cps = true ∨ backwardOnly cps = true) :
    ∃ st table, sortProcessorsState cps = some st ∧ sortProcessors cps = some table ∧
      st.cps = cps ∧ resolvedOrder cps = some st.sortedNames ∧
      resolvedOrder st.cps = some st.sortedNames ∧ sortProcessors st.cps = some table := by
  obtain ⟨st, hst, _, htab⟩ := sortProcessors_eq_hookTable cps
  have hcps : st.cps = cps := by
    rcases hg with hg | hg
    · exact sortLoop_cps hg _ _ _ _ rfl hst
    · unfold sortProcessorsState at hst
      rw [List.range_eq_range'] at hst
      exact sortLoop_backward hg _ _ 0 _ _ rfl (by simp) (by simp) hst
  refine ⟨st, _, hst, htab, hcps, ?_, ?_, ?_⟩
  · simp [resolvedOrder, hst]
  · rw [hcps]; simp [resolvedOrder, hst]
  · rw [hcps]; exact htab

/-- C8 (amended), at `A`, `B(after A)`, `C(before B)`, which looks backward only. -/
theorem resolve_twice_same_witness :
    ∃ st table,
      sortProcessorsState [reg "A" 1, regAfter "A" "B" 2, regBefore "B" "C" 3] = some st ∧
      sortProcessors [reg "A" 1, regAfter "A" "B" 2, regBefore "B" "C" 3] = some table ∧
      st.cps = [reg "A" 1, regAfter "A" "B" 2, regBefore "B" "C" 3] ∧
      resolvedOrder [reg "A" 1, regAfter "A" "B" 2, regBefore "B" "C" 3]
        = some st.sortedNames ∧
      resolvedOrder st.cps = some st.sortedNames ∧ sortProcessors st.cps = some table :=
  resolve_twice_same [reg "A" 1, regAfter "A" "B" 2, regBefore "B" "C" 3]
    (Or.inr (by decide))

/-! ## An entry that is neither called effectively nor a recursion target -/

theorem call_placed {names : List String} {st : SortState} {ci : Nat} {c : callbackProcessor}
    (hc : st.cps[ci]? = some c) (hp : c.name ∈ st.sortedNames) (fuel : Nat) :
    sortCallbackProcessor names (fuel + 1) ci st = some st := by
  unfold sortCallbackProcessor
  rw [hc]
  simp only
  rw [if_pos (getRIndex_isSome.mpr hp)]

theorem AgreeOff.set {j : Nat} {s s' : SortState} (h : AgreeOff j s s') (index : Nat)
    (v : callbackProcessor) :
    AgreeOff j { s with cps := s.cps.set index v } { s' with cps := s'.cps.set index v } where
  sorted := h.sorted
  len := by simp [h.len]
  entry := by
    intro i hi
    show (s'.cps.set index v)[i]? = (s.cps.set index v)[i]?
    rw [List.getElem?_set, List.getElem?_set, h.len, h.entry i hi]

theorem AgreeOff.sortedNames {j : Nat} {s s' : SortState} (h : AgreeOff j s s')
    (f : List String → List String) :
    AgreeOff j { s with sortedNames := f s.sortedNames }
      { s' with sortedNames := f s'.sortedNames } where
  sorted := by show f s'.sortedNames = f s.sortedNames; rw [h.sorted]
  len := h.len
  entry := h.entry

theorem beforeStep_frame {names : List String} {j : Nat}
    {recur recur' : Nat → SortState → Option SortState}
    (hrec : ∀ idx s s' r, idx ≠ j → AgreeOff j s s' → recur idx s = some r →
      ∃ r', recur' idx s' = some r' ∧ AgreeOff j r r')
    (hT : ∀ x idx, getRIndex names x = some idx → idx ≠ j)
    {s s' r : SortState} {c : callbackProcessor} (hs : AgreeOff j s s')
    (h : beforeStep names recur c s = some r) :
    ∃ r', beforeStep names recur' c s' = some r' ∧ AgreeOff j r r' := by
  obtain ⟨cps', sn'⟩ := s'
  have hsn : sn' = s.sortedNames := hs.sorted
  subst hsn
  unfold beforeStep at h ⊢
  split at h
  · rename_i hb
    rw [if_pos hb]
    split at h
    · rename_i index hidx
      cases h
      simp only [hidx]
      exact ⟨_, rfl, hs.sortedNames (fun l => insertAt l index c.name)⟩
    · rename_i hnone
      simp only [hnone]
      split at h
      · rename_i index hidx
        exact hrec index _ _ r (hT _ _ hidx) (hs.sortedNames (fun l => l ++ [c.name])) h
      · rename_i hnn
        cases h
        exact ⟨_, rfl, hs.sortedNames (fun l => l ++ [c.name])⟩
  · rename_i hb
    rw [if_neg hb]
    cases h
    exact ⟨_, rfl, hs⟩

theorem afterStep_frame {names : List String} {j : Nat}
    {recur recur' : Nat → SortState → Option SortState}
    (hrec : ∀ idx s s' r, idx ≠ j → AgreeOff j s s' → recur idx s = some r →
      ∃ r', recur' idx s' = some r' ∧ AgreeOff j r r')
    (hT : ∀ x idx, getRIndex names x = some idx → idx ≠ j)
    {s s' r : SortState} {c : callbackProcessor} (hs : AgreeOff j s s')
    (h : afterStep names recur c s = some r) :
    ∃ r', afterStep names recur' c s' = some r' ∧ AgreeOff j r r' := by
  obtain ⟨cps', sn'⟩ := s'
  have hsn : sn' = s.sortedNames := hs.sorted
  subst hsn
  unfold afterStep at h ⊢
  split at h
  · rename_i ha
    rw [if_pos ha]
    split at h
    · rename_i index hidx
      cases h
      simp only [hidx]
      exact ⟨_, rfl, hs.sortedNames (fun l => insertAt l (index + 1) c.name)⟩
    · rename_i hnone
      simp only [hnone]
      split at h
      · rename_i index hidx
        have hne : index ≠ j := hT _ _ hidx
        have hent : cps'[index]? = s.cps[index]? := hs.entry index hne
        simp only [hidx, hent]
        split at h
        · cases h
        · rename_i cp hcp
          by_cases hcb : cp.before = ""
          · rw [if_pos hcb] at h ⊢
            exact hrec index _ _ r hne (hs.set index _) h
          · rw [if_neg hcb] at h ⊢
            exact hrec index _ _ r hne hs h
      · rename_i hnn
        cases h
        exact ⟨_, rfl, hs.sortedNames (fun l => l ++ [c.name])⟩
  · rename_i ha
    rw [if_neg ha]
    cases h
    exact ⟨_, rfl, hs⟩

theorem finalStep_frame {j : Nat} {s s' : SortState} (c : callbackProcessor)
    (hs : AgreeOff j s s') : AgreeOff j (finalStep c s) (finalStep c s') := by
  obtain ⟨cps', sn'⟩ := s'
  have hsn : sn' = s.sortedNames := hs.sorted
  subst hsn
  unfold finalStep
  split
  · exact hs.sortedNames (fun l => l ++ [c.name])
  · exact hs

theorem sortCallbackProcessor_frame {names : List String} {j : Nat}
    (hT : ∀ x idx, getRIndex names x = some idx → idx ≠ j) :
    ∀ (fuel ci : Nat) (s s' r : SortState), ci ≠ j → AgreeOff j s s' →
      sortCallbackProcessor names fuel ci s = some r →
      ∃ r', sortCallbackProcessor names fuel ci s' = some r' ∧ AgreeOff j r r' := by
  intro fuel
  induction fuel with
  | zero => intro ci s s' r _ _ h; simp [sortCallbackProcessor] at h
  | succ k ih =>
    intro ci s s' r hci hs h
    have hent := hs.entry ci hci
    have hsn := hs.sorted
    unfold sortCallbackProcessor at h ⊢
    rw [hent, hsn]
    split at h
    · cases h
    · rename_i c hc
      split at h
      · rename_i hp
        cases h
        rw [if_pos hp]
        exact ⟨s', rfl, hs⟩
      · rename_i hp
        rw [if_neg hp]
        cases h1 : beforeStep names (sortCallbackProcessor names k) c s with
        | none => simp [h1] at h
        | some s1 =>
          cases h2 : afterStep names (sortCallbackProcessor names k) c s1 with
          | none => simp [h1, h2] at h
          | some s2 =>
            simp [h1, h2] at h
            subst h
            obtain ⟨s1', h1', a1⟩ := beforeStep_frame (ih · · · · · · ·) hT hs h1
            obtain ⟨s2', h2', a2⟩ := afterStep_frame (ih · · · · · · ·) hT a1 h2
            exact ⟨finalStep c s2', by simp [h1', h2'], finalStep_frame c a2⟩

theorem entry_of_names {cps : List callbackProcessor} {names : List String}
    (hna : namesOf cps = names) {j : Nat} {n : String} (hn : names[j]? = some n) :
    ∃ c, cps[j]? = some c ∧ c.name = n := by
  subst hna
  unfold namesOf at hn
  rw [List.getElem?_map] at hn
  cases hc : cps[j]? with
  | none => simp [hc] at hn
  | some c => exact ⟨c, rfl, by simpa [hc] using hn⟩

theorem sortLoop_frame {names : List String} {j : Nat} {n : String}
    (hT : ∀ x idx, getRIndex names x = some idx → idx ≠ j) (hn : names[j]? = some n)
    (fuel : Nat) :
    ∀ (is : List Nat) (s s' r : SortState), AgreeOff j s s' → namesOf s.cps = names →
      namesOf s'.cps = names → (n ∈ s.sortedNames ∨ j ∉ is) →
      sortLoop names (fuel + 1) is s = some r →
      ∃ r', sortLoop names (fuel + 1) is s' = some r' ∧ AgreeOff j r r' := by
  intro is
  induction is with
  | nil =>
    intro s s' r hs _ _ _ h
    simp [sortLoop] at h
    subst h
    exact ⟨s', rfl, hs⟩
  | cons ci rest ih =>
    intro s s' r hs hna hna' hor h
    unfold sortLoop at h ⊢
    by_cases hci : ci = j
    · subst hci
      have hpl : n ∈ s.sortedNames := by
        rcases hor with h1 | h1
        · exact h1
        · exact absurd (List.mem_cons_self _ _) h1
      obtain ⟨c, hc, hcn⟩ := entry_of_names hna hn
      obtain ⟨c', hc', hcn'⟩ := entry_of_names hna' hn
      rw [call_placed hc (hcn ▸ hpl) fuel] at h
      rw [call_placed hc' (by rw [hcn', hs.sorted]; exact hpl) fuel]
      simp only [Option.some_bind] at h ⊢
      exact ih s s' r hs hna hna' (Or.inl hpl) h
    · cases h1 : sortCallbackProcessor names (fuel + 1) ci s with
      | none => simp [h1] at h
      | some s1 =>
        simp only [h1, Option.some_bind] at h
        obtain ⟨s1', h1', a1⟩ := sortCallbackProcessor_frame hT (fuel + 1) ci s s' s1 hci hs h1
        have g1 := sortCallbackProcessor_grows names (fuel + 1) ci s s1 hna h1
        have g1' := sortCallbackProcessor_grows names (fuel + 1) ci s' s1' hna' h1'
        rw [h1']
        simp only [Option.some_bind]
        refine ih s1 s1' r a1 (g1.names_eq.trans hna) (g1'.names_eq.trans hna') ?_ h
        rcases hor with h2 | h2
        · exact Or.inl (g1.subset n h2)
        · exact Or.inr (fun hm => h2 (List.mem_cons_of_mem _ hm))

theorem namesOf_set_same {cps : List callbackProcessor} {j : Nat} {e e' : callbackProcessor}
    (hj : cps[j]? = some e) (hname : e'.name = e.name) :
    namesOf (cps.set j e') = namesOf cps := by
  unfold namesOf
  apply List.ext_getElem?
  intro i
  rw [List.getElem?_map, List.getElem?_map, List.getElem?_set]
  by_cases hij : j = i
  · subst hij
    have hlt : j < cps.length := by
      by_contra hge
      rw [List.getElem?_eq_none (by omega)] at hj
      simp at hj
    simp [hlt, hj, hname]
  · simp [hij]

/-- C9 as stated fails: in `[B(before A), A, A]` the name `A` is pulled in by
`B` through the closure, which places the LATEST entry named `A`; giving that
later entry the constraint `before B` changes the order from `[B, A]` to
`[A, B]`. -/
theorem later_duplicate_counterexample :
    resolvedOrder [regBefore "A" "B" 1, reg "A" 2, reg "A" 3] = some ["B", "A"] ∧
    resolvedOrder [regBefore "A" "B" 1, reg "A" 2, (reg "A" 3).Before "B"] = some ["A", "B"] := by
  decide

/-- The constraints of an entry that is neither the first nor the latest entry
carrying its name are never used: changing its `before` and `after` leaves the
resolved name order unchanged (the first entry is the one the main loop places,
the latest entry the one a recursive placement uses). -/
theorem middle_duplicate_frame (cps : List callbackProcessor) (i j k : Nat)
    (e1 e e2 : callbackProcessor) (b a : String)
    (hij : i < j) (hjk : j < k) (he1 : cps[i]? = some e1) (he : cps[j]? = some e)
    (he2 : cps[k]? = some e2) (hn1 : e1.name = e.name) (hn2 : e2.name = e.name) :
    ∃ order, resolvedOrder cps = some order ∧
      resolvedOrder (cps.set j { e with before := b, after := a }) = some order := by
  obtain ⟨st, hst, _, _⟩ := sortProcessorsState_spec cps
  have hnames : namesOf (cps.set j { e with before := b, after := a }) = namesOf cps :=
    namesOf_set_same he rfl
  have hnj : (namesOf cps)[j]? = some e.name := by
    unfold namesOf; rw [List.getElem?_map, he]; rfl
  have hnk : (namesOf cps)[k]? = some e.name := by
    unfold namesOf; rw [List.getElem?_map, he2, ← hn2]; rfl
  have hT : ∀ x idx, getRIndex (namesOf cps) x = some idx → idx ≠ j := by
    intro x idx hidx hcontra
    subst hcontra
    obtain ⟨_, hget, hlast⟩ := getRIndex_some hidx
    rw [hnj] at hget
    have hx : e.name = x := Option.some.inj hget
    exact hlast k hjk (hx ▸ hnk)
  have hlen : j < cps.length := by
    by_contra hge
    rw [List.getElem?_eq_none (by omega)] at he
    simp at he
  have hA : AgreeOff j { cps := cps, sortedNames := [] }
      { cps := cps.set j { e with before := b, after := a }, sortedNames := [] } :=
    { sorted := rfl
      len := by simp
      entry := fun i hi => by
        show (cps.set j _)[i]? = cps[i]?
        rw [List.getElem?_set_ne (fun h => hi h.symm)] }
  -- the main loop, cut at `j`
  have hst2 := hst
  unfold sortProcessorsState at hst2
  rw [range_split hlen, sortLoop_append] at hst2
  cases hp : sortLoop (namesOf cps) (sortFuel cps) (List.range j)
      { cps := cps, sortedNames := [] } with
  | none => simp [hp] at hst2
  | some sj =>
    rw [hp, Option.some_bind] at hst2
    have hfuel : sortFuel cps = (2 * cps.length + 2) + 1 := rfl
    rw [hfuel] at hp hst2
    obtain ⟨sj', hp', aj⟩ := sortLoop_frame hT hnj (2 * cps.length + 2) (List.range j) _ _ sj hA
      rfl hnames (Or.inr (by simp)) hp
    have gj := sortLoop_grows (namesOf cps) _ _ _ _ rfl hp
    have gj' := sortLoop_grows (namesOf cps) _ _ _ _ hnames hp'
    have hplaced : e.name ∈ sj.sortedNames := by
      have := sortLoop_placed (namesOf cps) _ _ _ _ rfl hp i (List.mem_range.mpr hij) e1 he1
      rwa [hn1] at this
    obtain ⟨st', hst', afin⟩ := sortLoop_frame hT hnj (2 * cps.length + 2) _ sj sj' st aj
      gj.names_eq (gj'.names_eq.trans hnames) (Or.inl hplaced) hst2
    refine ⟨st.sortedNames, by simp [resolvedOrder, hst], ?_⟩
    have hfin : sortProcessorsState (cps.set j { e with before := b, after := a }) = some st' := by
      unfold sortProcessorsState
      have hf' : sortFuel (cps.set j { e with before := b, after := a })
          = (2 * cps.length + 2) + 1 := by simp [sortFuel]
      rw [hnames, hf', List.length_set, range_split hlen, sortLoop_append, hp',
        Option.some_bind, hst']
    simp [resolvedOrder, hfin, afin.sorted]

/-! ## The blocks of the closure, case by case -/

theorem beforeStep_unset (names : List String) (recur : Nat → SortState → Option SortState)
    {c : callbackProcessor} (st : SortState) (hb : c.before = "") :
    beforeStep names recur c st = some st := by
  unfold beforeStep
  rw [if_neg (by simp [hb])]

theorem beforeStep_inserts (names : List String) (recur : Nat → SortState → Option SortState)
    {c : callbackProcessor} {st : SortState} {index : Nat} (hb : c.before ≠ "")
    (h1 : getRIndex st.sortedNames c.before = some index) :
    beforeStep names recur c st =
      some { st with sortedNames := insertAt st.sortedNames index c.name } := by
  unfold beforeStep
  rw [if_pos hb, h1]

theorem beforeStep_recurs {names : List String} (recur : Nat → SortState → Option SortState)
    {c : callbackProcessor} {st : SortState} {index : Nat} (hb : c.before ≠ "")
    (h1 : getRIndex st.sortedNames c.before = none)
    (h2 : getRIndex names c.before = some index) :
    beforeStep names recur c st =
      recur index { st with sortedNames := st.sortedNames ++ [c.name] } := by
  unfold beforeStep
  rw [if_pos hb, h1, h2]

theorem beforeStep_appends {names : List String} (recur : Nat → SortState → Option SortState)
    {c : callbackProcessor} {st : SortState} (hb : c.before ≠ "")
    (h1 : getRIndex st.sortedNames c.before = none) (h2 : getRIndex names c.before = none) :
    beforeStep names recur c st = some { st with sortedNames := st.sortedNames ++ [c.name] } := by
  unfold beforeStep
  rw [if_pos hb, h1, h2]

theorem afterStep_unset (names : List String) (recur : Nat → SortState → Option SortState)
    {c : callbackProcessor} (st : SortState) (ha : c.after = "") :
    afterStep names recur c st = some st := by
  unfold afterStep
  rw [if_neg (by simp [ha])]

theorem afterStep_inserts (names : List String) (recur : Nat → SortState → Option SortState)
    {c : callbackProcessor} {st : SortState} {index : Nat} (ha : c.after ≠ "")
    (h1 : getRIndex st.sortedNames c.after = some index) :
    afterStep names recur c st =
      some { st with sortedNames := insertAt st.sortedNames (index + 1) c.name } := by
  unfold afterStep
  rw [if_pos ha, h1]

theorem afterStep_recurs {names : List String} (recur : Nat → SortState → Option SortState)
    {c cp : callbackProcessor} {st : SortState} {index : Nat} (ha : c.after ≠ "")
    (h1 : getRIndex st.sortedNames c.after = none)
    (h2 : getRIndex names c.after = some index) (h3 : st.cps[index]? = some cp) :
    afterStep names recur c st =
      recur index
        { st with cps := if cp.before = "" then st.cps.set index { cp with before := c.name }
                         else st.cps } := by
  unfold afterStep
  rw [if_pos ha, h1, h2]
  simp only [h3]

theorem afterStep_panics {names : List String} (recur : Nat → SortState → Option SortState)
    {c : callbackProcessor} {st : SortState} {index : Nat} (ha : c.after ≠ "")
    (h1 : getRIndex st.sortedNames c.after = none)
    (h2 : getRIndex names c.after = some index) (h3 : st.cps[index]? = none) :
    afterStep names recur c st = none := by
  unfold afterStep
  rw [if_pos ha, h1, h2]
  simp only [h3]

theorem afterStep_appends {names : List String} (recur : Nat → SortState → Option SortState)
    {c : callbackProcessor} {st : SortState} (ha : c.after ≠ "")
    (h1 : getRIndex st.sortedNames c.after = none) (h2 : getRIndex names c.after = none) :
    afterStep names recur c st = some { st with sortedNames := st.sortedNames ++ [c.name] } := by
  unfold afterStep
  rw [if_pos ha, h1, h2]

theorem sortCallbackProcessor_unplaced (names : List String) (fuel : Nat) {ci : Nat}
    {st : SortState} {c : callbackProcessor} (hc : st.cps[ci]? = some c)
    (hn : c.name ∉ st.sortedNames) :
    sortCallbackProcessor names (fuel + 1) ci st =
      (beforeStep names (sortCallbackProcessor names fuel) c st).bind fun st1 =>
        (afterStep names (sortCallbackProcessor names fuel) c st1).bind fun st2 =>
          some (finalStep c st2) := by
  have hp : ¬ (getRIndex st.sortedNames c.name).isSome = true :=
    fun h => hn (getRIndex_isSome.mp h)
  conv_lhs => unfold sortCallbackProcessor
  rw [hc]
  simp only [hp, if_false]
  rfl

/-! ## More fuel changes nothing -/

theorem beforeStep_mono {names : List String} {recur recur' : Nat → SortState → Option SortState}
    (hrec : ∀ i s r, recur i s = some r → recur' i s = some r)
    {c : callbackProcessor} {st r : SortState} (h : beforeStep names recur c st = some r) :
    beforeStep names recur' c st = some r := by
  by_cases hb : c.before = ""
  · rw [beforeStep_unset names _ st hb] at h ⊢
    exact h
  · cases h1 : getRIndex st.sortedNames c.before with
    | some index =>
      rw [beforeStep_inserts names _ hb h1] at h ⊢
      exact h
    | none =>
      cases h2 : getRIndex names c.before with
      | some index =>
        rw [beforeStep_recurs _ hb h1 h2] at h ⊢
        exact hrec _ _ _ h
      | none =>
        rw [beforeStep_appends _ hb h1 h2] at h ⊢
        exact h

theorem afterStep_mono {names : List String} {recur recur' : Nat → SortState → Option SortState}
    (hrec : ∀ i s r, recur i s = some r → recur' i s = some r)
    {c : callbackProcessor} {st r : SortState} (h : afterStep names recur c st = some r) :
    afterStep names recur' c st = some r := by
  by_cases ha : c.after = ""
  · rw [afterStep_unset names _ st ha] at h ⊢
    exact h
  · cases h1 : getRIndex st.sortedNames c.after with
    | some index =>
      rw [afterStep_inserts names _ ha h1] at h ⊢
      exact h
    | none =>
      cases h2 : getRIndex names c.after with
      | some index =>
        cases h3 : st.cps[index]? with
        | none =>
          rw [afterStep_panics _ ha h1 h2 h3] at h
          cases h
        | some cp =>
          rw [afterStep_recurs _ ha h1 h2 h3] at h ⊢
          exact hrec _ _ _ h
      | none =>
        rw [afterStep_appends _ ha h1 h2] at h ⊢
        exact h

theorem sortCallbackProcessor_mono (names : List String) :
    ∀ (fuel fuel' ci : Nat) (st r : SortState), fuel ≤ fuel' →
      sortCallbackProcessor names fuel ci st = some r →
      sortCallbackProcessor names fuel' ci st = some r := by
  intro fuel
  induction fuel with
  | zero => intro fuel' ci st r _ h; simp [sortCallbackProcessor] at h
  | succ k ih =>
    intro fuel' ci st r hle h
    obtain ⟨k', rfl⟩ : ∃ k', fuel' = k' + 1 := ⟨fuel' - 1, by omega⟩
    have hk : k ≤ k' := by omega
    cases hc : st.cps[ci]? with
    | none => simp [sortCallbackProcessor, hc] at h
    | some c =>
      by_cases hp : c.name ∈ st.sortedNames
      · rw [call_placed hc hp] at h ⊢
        exact h
      · rw [sortCallbackProcessor_unplaced names _ hc hp] at h ⊢
        cases h1 : beforeStep names (sortCallbackProcessor names k) c st with
        | none => simp [h1] at h
        | some s1 =>
          cases h2 : afterStep names (sortCallbackProcessor names k) c s1 with
          | none => simp [h1, h2] at h
          | some s2 =>
            simp [h1, h2] at h
            subst h
            have h1' := beforeStep_mono (fun i s r hr => ih k' i s r hk hr) h1
            have h2' := afterStep_mono (fun i s r hr => ih k' i s r hk hr) h2
            simp [h1', h2']

theorem sortLoop_mono (names : List String) {fuel fuel' : Nat} (hle : fuel ≤ fuel') :
    ∀ (is : List Nat) (st r : SortState), sortLoop names fuel is st = some r →
      sortLoop names fuel' is st = some r := by
  intro is
  induction is with
  | nil => intro st r h; simpa [sortLoop] using h
  | cons i rest ih =>
    intro st r h
    unfold sortLoop at h ⊢
    cases h1 : sortCallbackProcessor names fuel i st with
    | none => simp [h1] at h
    | some s1 =>
      simp only [h1, Option.some_bind] at h
      rw [sortCallbackProcessor_mono names fuel fuel' i st s1 hle h1]
      exact ih s1 r h

/-! ## Appending an unconstrained entry for a name whose latest entry is unconstrained -/

theorem sortCallbackProcessor_mem (names : List String) {fuel ci : Nat} {st st' : SortState}
    {c : callbackProcessor} (hc : st.cps[ci]? = some c)
    (h : sortCallbackProcessor names fuel ci st = some st') : c.name ∈ st'.sortedNames := by
  cases fuel with
  | zero => simp [sortCallbackProcessor] at h
  | succ k =>
    by_cases hp : c.name ∈ st.sortedNames
    · rw [call_placed hc hp] at h
      cases h
      exact hp
    · rw [sortCallbackProcessor_unplaced _ _ hc hp] at h
      cases h1 : beforeStep names (sortCallbackProcessor names k) c st with
      | none => simp [h1] at h
      | some s1 =>
        cases h2 : afterStep names (sortCallbackProcessor names k) c s1 with
        | none => simp [h1, h2] at h
        | some s2 =>
          simp [h1, h2] at h
          subst h
          exact finalStep_mem c s2

theorem shadow_target {names : List String} {h : String} {l m : Nat}
    (hm : names.length = m) (hl : getRIndex names h = some l) (x : String) :
    (getRIndex names x = none ∧ getRIndex (names ++ [h]) x = none) ∨
      (∃ idx idx', getRIndex names x = some idx ∧ getRIndex (names ++ [h]) x = some idx' ∧
        ShadowIdx l m idx idx' ∧ (idx = l → x = h)) := by
  by_cases hx : x = h
  · subst hx
    right
    exact ⟨l, m, hl, hm ▸ getRIndex_append_self names x, Or.inr ⟨rfl, rfl⟩, fun _ => rfl⟩
  · rw [getRIndex_append_ne names hx]
    cases hg : getRIndex names x with
    | none => exact Or.inl ⟨rfl, rfl⟩
    | some idx =>
      right
      obtain ⟨hlt, hget, _⟩ := getRIndex_some hg
      have hne : idx ≠ l := by
        intro he
        subst he
        have := (getRIndex_some hl).2.1
        rw [hget] at this
        exact hx (Option.some.inj this)
      exact ⟨idx, idx, rfl, rfl, Or.inl ⟨rfl, hne, hm ▸ hlt⟩, fun he => absurd he hne⟩

theorem Shadow.grow {h : String} {l m : Nat} {s : SortState} {cps' : List callbackProcessor}
    (hs : Shadow h l m s { cps := cps', sortedNames := s.sortedNames }) (lnew : List String)
    (hsub : ∀ x, x ∈ s.sortedNames → x ∈ lnew) :
    Shadow h l m { s with sortedNames := lnew } { cps := cps', sortedNames := lnew } where
  sorted := rfl
  len := hs.len
  len' := hs.len'
  entry := hs.entry
  old := hs.old
  old' := hs.old'
  new' := hs.new'
  link := fun hn => hs.link (fun hmem => hn (hsub _ hmem))

theorem TopInv.grow_sorted {h : String} {l : Nat} {s : SortState} (ht : TopInv h l s)
    (lnew : List String) (hsub : ∀ x, x ∈ s.sortedNames → x ∈ lnew) :
    TopInv h l { s with sortedNames := lnew } :=
  fun hn => ht (fun hmem => hn (hsub _ hmem))

theorem Shadow.set_other {h : String} {l m : Nat} {s s' : SortState} (hs : Shadow h l m s s')
    {index : Nat} (hne : index ≠ l) (hlt : index < m) (v : callbackProcessor) :
    Shadow h l m { s with cps := s.cps.set index v } { s' with cps := s'.cps.set index v } where
  sorted := hs.sorted
  len := by simp [hs.len]
  len' := by simp [hs.len']
  entry := by
    intro i hi him
    show (s'.cps.set index v)[i]? = (s.cps.set index v)[i]?
    rw [List.getElem?_set, List.getElem?_set, hs.len, hs.len', hs.entry i hi him]
    by_cases hii : index = i
    · simp [hii, him, Nat.lt_succ_of_lt him]
    · simp [hii]
  old := by
    obtain ⟨c, hc, h1, h2⟩ := hs.old
    exact ⟨c, by show (s.cps.set index v)[l]? = _; rw [List.getElem?_set_ne hne]; exact hc, h1, h2⟩
  old' := by
    obtain ⟨c, hc, h1, h2, h3⟩ := hs.old'
    exact ⟨c, by show (s'.cps.set index v)[l]? = _; rw [List.getElem?_set_ne hne]; exact hc,
      h1, h2, h3⟩
  new' := by
    obtain ⟨c, hc, h1, h2⟩ := hs.new'
    exact ⟨c, by
      show (s'.cps.set index v)[m]? = _
      rw [List.getElem?_set_ne (by omega)]; exact hc, h1, h2⟩
  link := by
    intro hn c c' hc hc'
    have hc1 : s.cps[l]? = some c := by
      have : (s.cps.set index v)[l]? = some c := hc
      rwa [List.getElem?_set_ne hne] at this
    have hc2 : s'.cps[m]? = some c' := by
      have : (s'.cps.set index v)[m]? = some c' := hc'
      rwa [List.getElem?_set_ne (by omega)] at this
    exact hs.link hn c c' hc1 hc2

theorem Shadow.set_target {h : String} {l m : Nat} {s s' : SortState} (hs : Shadow h l m s s')
    (hlm : l < m) {c c' : callbackProcessor} (hc : s.cps[l]? = some c)
    (hc' : s'.cps[m]? = some c') (x : String) :
    Shadow h l m { s with cps := s.cps.set l { c with before := x } }
      { s' with cps := s'.cps.set m { c' with before := x } } where
  sorted := hs.sorted
  len := by simp [hs.len]
  len' := by simp [hs.len']
  entry := by
    intro i hi him
    show (s'.cps.set m _)[i]? = (s.cps.set l _)[i]?
    rw [List.getElem?_set_ne (by omega), List.getElem?_set_ne (fun e => hi e.symm)]
    exact hs.entry i hi him
  old := by
    obtain ⟨c0, hc0, h1, h2⟩ := hs.old
    rw [hc] at hc0
    cases hc0
    refine ⟨{ c with before := x }, ?_, h1, h2⟩
    show (s.cps.set l _)[l]? = _
    rw [List.getElem?_set_self (by rw [hs.len]; exact hlm)]
  old' := by
    obtain ⟨c0, hc0, h1, h2, h3⟩ := hs.old'
    exact ⟨c0, by
      show (s'.cps.set m _)[l]? = _
      rw [List.getElem?_set_ne (by omega)]; exact hc0, h1, h2, h3⟩
  new' := by
    obtain ⟨c0, hc0, h1, h2⟩ := hs.new'
    rw [hc'] at hc0
    cases hc0
    refine ⟨{ c' with before := x }, ?_, h1, h2⟩
    show (s'.cps.set m _)[m]? = _
    rw [List.getElem?_set_self (by rw [hs.len']; omega)]
  link := by
    intro _ d d' hd hd'
    have e1 : (s.cps.set l { c with before := x })[l]? = some { c with before := x } := by
      rw [List.getElem?_set_self (by rw [hs.len]; exact hlm)]
    have e2 : (s'.cps.set m { c' with before := x })[m]? = some { c' with before := x } := by
      rw [List.getElem?_set_self (by rw [hs.len']; omega)]
    have hd1 : (s.cps.set l { c with before := x })[l]? = some d := hd
    have hd2 : (s'.cps.set m { c' with before := x })[m]? = some d' := hd'
    rw [e1] at hd1
    rw [e2] at hd2
    cases hd1
    cases hd2
    rfl

theorem beforeStep_shadow {names : List String} {h : String} {l m : Nat}
    (hm : names.length = m) (hl : getRIndex names h = some l)
    {recur recur' : Nat → SortState → Option SortState}
    (hrec : ∀ idx idx' s s' r, ShadowIdx l m idx idx' → Shadow h l m s s' →
      recur idx s = some r →
      ∃ r', recur' idx' s' = some r' ∧ Shadow h l m r r' ∧ (TopInv h l s → TopInv h l r) ∧
        (idx = l → h ∈ r.sortedNames))
    {c c' : callbackProcessor} (hname : c'.name = c.name) (hbef : c'.before = c.before)
    {s s' r : SortState} (hs : Shadow h l m s s')
    (hrun : beforeStep names recur c s = some r) :
    ∃ r', beforeStep (names ++ [h]) recur' c' s' = some r' ∧ Shadow h l m r r' ∧
      (TopInv h l s → TopInv h l r) := by
  obtain ⟨cps', sn'⟩ := s'
  have hsn : sn' = s.sortedNames := hs.sorted
  subst hsn
  by_cases hb : c.before = ""
  · rw [beforeStep_unset names _ s hb] at hrun
    cases hrun
    exact ⟨_, beforeStep_unset _ _ _ (hbef.trans hb), hs, fun ht => ht⟩
  · have hb' : c'.before ≠ "" := by rw [hbef]; exact hb
    cases h1 : getRIndex s.sortedNames c.before with
    | some index =>
      rw [beforeStep_inserts names _ hb h1] at hrun
      cases hrun
      have h1' : getRIndex ({ cps := cps', sortedNames := s.sortedNames } : SortState).sortedNames
          c'.before = some index := by rw [hbef]; exact h1
      refine ⟨_, beforeStep_inserts _ _ hb' h1', ?_, ?_⟩
      · rw [hname]
        exact hs.grow _ (fun x hx => mem_insertAt.mpr (Or.inr hx))
      · intro ht
        exact ht.grow_sorted _ (fun x hx => mem_insertAt.mpr (Or.inr hx))
    | none =>
      have h1' : getRIndex ({ cps := cps', sortedNames := s.sortedNames } : SortState).sortedNames
          c'.before = none := by rw [hbef]; exact h1
      rcases shadow_target hm hl c.before with ⟨h2, h2'⟩ | ⟨idx, idx', h2, h2', hidx, _⟩
      · rw [beforeStep_appends _ hb h1 h2] at hrun
        cases hrun
        refine ⟨_, beforeStep_appends _ hb' h1' (by rw [hbef]; exact h2'), ?_, ?_⟩
        · rw [hname]
          exact hs.grow _ (fun x hx => List.mem_append_left _ hx)
        · intro ht
          exact ht.grow_sorted _ (fun x hx => List.mem_append_left _ hx)
      · rw [beforeStep_recurs _ hb h1 h2] at hrun
        have hsA := hs.grow (s.sortedNames ++ [c.name]) (fun x hx => List.mem_append_left _ hx)
        obtain ⟨r', hr', hsr, htr, _⟩ := hrec idx idx' _ _ r hidx hsA hrun
        refine ⟨r', ?_, hsr, ?_⟩
        · rw [beforeStep_recurs _ hb' h1' (by rw [hbef]; exact h2'), hname]
          exact hr'
        · intro ht
          exact htr (ht.grow_sorted _ (fun x hx => List.mem_append_left _ hx))

theorem afterStep_shadow {names : List String} {h : String} {l m : Nat}
    (hm : names.length = m) (hl : getRIndex names h = some l)
    {recur recur' : Nat → SortState → Option SortState}
    (hrec : ∀ idx idx' s s' r, ShadowIdx l m idx idx' → Shadow h l m s s' →
      recur idx s = some r →
      ∃ r', recur' idx' s' = some r' ∧ Shadow h l m r r' ∧ (TopInv h l s → TopInv h l r) ∧
        (idx = l → h ∈ r.sortedNames))
    {c c' : callbackProcessor} (hname : c'.name = c.name) (haft : c'.after = c.after)
    {s s' r : SortState} (hs : Shadow h l m s s')
    (hrun : afterStep names recur c s = some r) :
    ∃ r', afterStep (names ++ [h]) recur' c' s' = some r' ∧ Shadow h l m r r' ∧
      (TopInv h l s → TopInv h l r) := by
  subst hm
  have hlm : l < names.length := (getRIndex_some hl).1
  obtain ⟨cps', sn'⟩ := s'
  have hsn : sn' = s.sortedNames := hs.sorted
  subst hsn
  by_cases ha : c.after = ""
  · rw [afterStep_unset names _ s ha] at hrun
    cases hrun
    exact ⟨_, afterStep_unset _ _ _ (haft.trans ha), hs, fun ht => ht⟩
  · have ha' : c'.after ≠ "" := by rw [haft]; exact ha
    cases h1 : getRIndex s.sortedNames c.after with
    | some index =>
      rw [afterStep_inserts names _ ha h1] at hrun
      cases hrun
      have h1' : getRIndex ({ cps := cps', sortedNames := s.sortedNames } : SortState).sortedNames
          c'.after = some index := by rw [haft]; exact h1
      refine ⟨_, afterStep_inserts _ _ ha' h1', ?_, ?_⟩
      · rw [hname]
        exact hs.grow _ (fun x hx => mem_insertAt.mpr (Or.inr hx))
      · intro ht
        exact ht.grow_sorted _ (fun x hx => mem_insertAt.mpr (Or.inr hx))
    | none =>
      have h1' : getRIndex ({ cps := cps', sortedNames := s.sortedNames } : SortState).sortedNames
          c'.after = none := by rw [haft]; exact h1
      rcases shadow_target rfl hl c.after with ⟨h2, h2'⟩ | ⟨idx, idx', h2, h2', hidx, hxh⟩
      · rw [afterStep_appends _ ha h1 h2] at hrun
        cases hrun
        refine ⟨_, afterStep_appends _ ha' h1' (by rw [haft]; exact h2'), ?_, ?_⟩
        · rw [hname]
          exact hs.grow _ (fun x hx => List.mem_append_left _ hx)
        · intro ht
          exact ht.grow_sorted _ (fun x hx => List.mem_append_left _ hx)
      · cases h3 : s.cps[idx]? with
        | none =>
          rw [afterStep_panics _ ha h1 h2 h3] at hrun
          cases hrun
        | some cp =>
          rw [afterStep_recurs _ ha h1 h2 h3] at hrun
          rcases hidx with ⟨hii, hne, hlt⟩ | ⟨hil, him⟩
          · -- the same entry on both sides
            subst hii
            have h3' : ({ cps := cps', sortedNames := s.sortedNames } : SortState).cps[idx]? = some cp :=
              (hs.entry idx hne hlt).trans h3
            rw [afterStep_recurs _ ha' h1' (by rw [haft]; exact h2') h3', hname]
            by_cases hcb : cp.before = ""
            · rw [if_pos hcb] at hrun ⊢
              obtain ⟨r', hr', hsr, htr, _⟩ := hrec idx idx _ _ r (Or.inl ⟨rfl, hne, hlt⟩)
                (hs.set_other hne hlt _) hrun
              refine ⟨r', hr', hsr, fun ht => htr ?_⟩
              intro hn d hd
              have hd' : (s.cps.set idx { cp with before := c.name })[l]? = some d := hd
              rw [List.getElem?_set_ne hne] at hd'
              exact ht hn d hd'
            · rw [if_neg hcb] at hrun ⊢
              obtain ⟨r', hr', hsr, htr, _⟩ := hrec idx idx _ _ r (Or.inl ⟨rfl, hne, hlt⟩)
                hs hrun
              exact ⟨r', hr', hsr, htr⟩
          · -- the latest entry named `h` against the appended entry
            subst hil
            subst him
            have hxh' : c.after = h := hxh rfl
            have hnh : h ∉ s.sortedNames := hxh' ▸ getRIndex_eq_none.mp h1
            obtain ⟨cR, hcR, _, _⟩ := hs.new'
            have hcR' : ({ cps := cps', sortedNames := s.sortedNames } : SortState).cps[names.length]?
                = some cR := hcR
            have hlink : cp.before = cR.before := hs.link hnh cp cR h3 hcR
            rw [afterStep_recurs _ ha' h1' (by rw [haft]; exact h2') hcR', hname]
            by_cases hcb : cp.before = ""
            · rw [if_pos hcb] at hrun
              rw [if_pos (hlink ▸ hcb)]
              obtain ⟨r', hr', hsr, _, hpl⟩ := hrec idx names.length _ _ r (Or.inr ⟨rfl, rfl⟩)
                (hs.set_target hlm h3 hcR c.name) hrun
              exact ⟨r', hr', hsr, fun _ hn => absurd (hpl rfl) hn⟩
            · rw [if_neg hcb] at hrun
              rw [if_neg (hlink ▸ hcb)]
              obtain ⟨r', hr', hsr, _, hpl⟩ := hrec idx names.length _ _ r (Or.inr ⟨rfl, rfl⟩)
                hs hrun
              exact ⟨r', hr', hsr, fun _ hn => absurd (hpl rfl) hn⟩

theorem finalStep_shadow {h : String} {l m : Nat} {c c' : callbackProcessor}
    (hname : c'.name = c.name) {s s' : SortState} (hs : Shadow h l m s s') :
    Shadow h l m (finalStep c s) (finalStep c' s') := by
  obtain ⟨cps', sn'⟩ := s'
  have hsn : sn' = s.sortedNames := hs.sorted
  subst hsn
  unfold finalStep
  rw [hname]
  split
  · exact hs.grow _ (fun x hx => List.mem_append_left _ hx)
  · exact hs

theorem finalStep_topInv {h : String} {l : Nat} (c : callbackProcessor) {s : SortState}
    (ht : TopInv h l s) : TopInv h l (finalStep c s) := by
  unfold finalStep
  split
  · exact ht.grow_sorted _ (fun x hx => List.mem_append_left _ hx)
  · exact ht

theorem sortCallbackProcessor_shadow {names : List String} {h : String} {l m : Nat}
    (hm : names.length = m) (hl : getRIndex names h = some l) :
    ∀ (fuel ci ci' : Nat) (s s' r : SortState), ShadowIdx l m ci ci' → Shadow h l m s s' →
      sortCallbackProcessor names fuel ci s = some r →
      ∃ r', sortCallbackProcessor (names ++ [h]) fuel ci' s' = some r' ∧ Shadow h l m r r' ∧
        (TopInv h l s → TopInv h l r) ∧ (ci = l → h ∈ r.sortedNames) := by
  intro fuel
  induction fuel with
  | zero => intro ci ci' s s' r _ _ hrun; simp [sortCallbackProcessor] at hrun
  | succ k ih =>
    intro ci ci' s s' r hidx hs hrun
    cases hc : s.cps[ci]? with
    | none => simp [sortCallbackProcessor, hc] at hrun
    | some c =>
      -- the entry the other run works on
      have hc' : ∃ c', s'.cps[ci']? = some c' ∧ c'.name = c.name ∧
          (c.name ∉ s.sortedNames → c'.before = c.before ∧ c'.after = c.after) ∧
          (ci = l → c.name = h) := by
        rcases hidx with ⟨hii, hne, hlt⟩ | ⟨hil, him⟩
        · subst hii
          exact ⟨c, (hs.entry ci hne hlt).trans hc, rfl, fun _ => ⟨rfl, rfl⟩,
            fun e => absurd e hne⟩
        · subst hil
          subst him
          obtain ⟨c0, hc0, hn0, ha0⟩ := hs.old
          rw [hc] at hc0
          cases hc0
          obtain ⟨cR, hcR, hnR, haR⟩ := hs.new'
          refine ⟨cR, hcR, hnR.trans hn0.symm, ?_, fun _ => hn0⟩
          intro hp
          exact ⟨(hs.link (hn0 ▸ hp) c cR hc hcR).symm, haR.trans ha0.symm⟩
      obtain ⟨c', hc', hname, hfields, hcl⟩ := hc'
      by_cases hp : c.name ∈ s.sortedNames
      · rw [call_placed hc hp] at hrun
        cases hrun
        exact ⟨s', call_placed hc' (by rw [hname, hs.sorted]; exact hp) k, hs, fun ht => ht,
          fun e => hcl e ▸ hp⟩
      · obtain ⟨hbef, haft⟩ := hfields hp
        rw [sortCallbackProcessor_unplaced names k hc hp] at hrun
        cases h1 : beforeStep names (sortCallbackProcessor names k) c s with
        | none => simp [h1] at hrun
        | some s1 =>
          cases h2 : afterStep names (sortCallbackProcessor names k) c s1 with
          | none => simp [h1, h2] at hrun
          | some s2 =>
            simp [h1, h2] at hrun
            subst hrun
            obtain ⟨s1', h1', hs1, ht1⟩ := beforeStep_shadow hm hl (ih · · · · · · · ·)
              hname hbef hs h1
            obtain ⟨s2', h2', hs2, ht2⟩ := afterStep_shadow hm hl (ih · · · · · · · ·)
              hname haft hs1 h2
            refine ⟨finalStep c' s2', ?_, finalStep_shadow hname hs2,
              fun ht => finalStep_topInv c (ht2 (ht1 ht)), fun e => hcl e ▸ finalStep_mem c s2⟩
            rw [sortCallbackProcessor_unplaced _ k hc' (by rw [hname, hs.sorted]; exact hp),
              h1', Option.some_bind, h2', Option.some_bind]

theorem sortLoop_shadow {names : List String} {h : String} {l m : Nat}
    (hm : names.length = m) (hl : getRIndex names h = some l) (fuel : Nat) :
    ∀ (is : List Nat) (s s' r : SortState), (∀ i, i ∈ is → i < m) → Shadow h l m s s' →
      TopInv h l s → sortLoop names (fuel + 1) is s = some r →
      ∃ r', sortLoop (names ++ [h]) (fuel + 1) is s' = some r' ∧ Shadow h l m r r' ∧
        TopInv h l r := by
  intro is
  induction is with
  | nil =>
    intro s s' r _ hs ht hrun
    simp [sortLoop] at hrun
    subst hrun
    exact ⟨s', rfl, hs, ht⟩
  | cons ci rest ih =>
    intro s s' r hlt hs ht hrun
    unfold sortLoop at hrun ⊢
    cases h1 : sortCallbackProcessor names (fuel + 1) ci s with
    | none => simp [h1] at hrun
    | some s1 =>
      simp only [h1, Option.some_bind] at hrun
      have hrest : ∀ i, i ∈ rest → i < m := fun i hi => hlt i (List.mem_cons_of_mem _ hi)
      by_cases hci : ci = l
      · subst hci
        obtain ⟨c, hc, hcn, hca⟩ := hs.old
        obtain ⟨c', hc', hcn', hcb', hca'⟩ := hs.old'
        by_cases hp : h ∈ s.sortedNames
        · rw [call_placed hc (hcn ▸ hp)] at h1
          cases h1
          rw [call_placed hc' (by rw [hcn', hs.sorted]; exact hp), Option.some_bind]
          exact ih s s' r hrest hs ht hrun
        · have hcb : c.before = "" := ht hp c hc
          rw [call_unconstrained names s ci hc (hcn ▸ hp) hcb hca] at h1
          cases h1
          rw [call_unconstrained _ s' ci hc' (by rw [hcn', hs.sorted]; exact hp) hcb' hca',
            Option.some_bind]
          refine ih _ _ r hrest ?_ ?_ hrun
          · obtain ⟨cps', sn'⟩ := s'
            have hsn : sn' = s.sortedNames := hs.sorted
            subst hsn
            rw [hcn, hcn']
            exact hs.grow _ (fun x hx => List.mem_append_left _ hx)
          · exact ht.grow_sorted _ (fun x hx => List.mem_append_left _ hx)
      · obtain ⟨s1', h1', hs1, ht1, _⟩ := sortCallbackProcessor_shadow hm hl (fuel + 1) ci ci
          s s' s1 (Or.inl ⟨rfl, hci, hlt ci (List.mem_cons_self _ _)⟩) hs h1
        rw [h1', Option.some_bind]
        exact ih s1 s1' r hrest hs1 (ht1 ht) hrun

/-- Appending an entry without constraints for a name whose latest entry has no
constraints either leaves the resolved order as it was. -/
theorem append_unconstrained_order (cps : List callbackProcessor) (R L : callbackProcessor)
    (h : String) (l : Nat) (hidx : getRIndex (namesOf cps) h = some l) (hL : cps[l]? = some L)
    (hLb : L.before = "") (hLa : L.after = "") (hRn : R.name = h) (hRb : R.before = "")
    (hRa : R.after = "") :
    ∃ st st', sortProcessorsState cps = some st ∧
      sortProcessorsState (cps ++ [R]) = some st' ∧ st'.sortedNames = st.sortedNames ∧
      (∀ n, n ∈ st.sortedNames ↔ n ∈ namesOf cps) := by
  obtain ⟨st, hst, _, hmem⟩ := sortProcessorsState_spec cps
  have hm : (namesOf cps).length = cps.length := by simp [namesOf]
  have hlm : l < cps.length := hm ▸ (getRIndex_some hidx).1
  have hLn : L.name = h := by
    obtain ⟨cp, hcp, hn⟩ := getRIndex_namesOf hidx
    rw [hL] at hcp
    cases hcp
    exact hn
  have hnames : namesOf (cps ++ [R]) = namesOf cps ++ [h] := by simp [namesOf, hRn]
  have h0 : Shadow h l cps.length { cps := cps, sortedNames := [] }
      { cps := cps ++ [R], sortedNames := [] } :=
    { sorted := rfl
      len := rfl
      len' := by simp
      entry := fun i _ hi => by
        show (cps ++ [R])[i]? = cps[i]?
        rw [List.getElem?_append_left hi]
      old := ⟨L, hL, hLn, hLa⟩
      old' := ⟨L, by
        show (cps ++ [R])[l]? = some L
        rw [List.getElem?_append_left hlm]; exact hL, hLn, hLb, hLa⟩
      new' := ⟨R, by show (cps ++ [R])[cps.length]? = some R; simp, hRn, hRa⟩
      link := fun _ c c' hc hc' => by
        have e1 : cps[l]? = some c := hc
        have e2 : (cps ++ [R])[cps.length]? = some c' := hc'
        rw [hL] at e1
        simp at e2
        cases e1
        rw [← e2, hLb, hRb] }
  have ht0 : TopInv h l { cps := cps, sortedNames := [] } := by
    intro _ c hc
    have e1 : cps[l]? = some c := hc
    rw [hL] at e1
    cases e1
    exact hLb
  have hst2 : sortLoop (namesOf cps) ((2 * cps.length + 4) + 1) (List.range cps.length)
      { cps := cps, sortedNames := [] } = some st :=
    sortLoop_mono (namesOf cps) (by unfold sortFuel; omega) _ _ _ hst
  obtain ⟨r', hr', hsr, _⟩ := sortLoop_shadow hm hidx (2 * cps.length + 4)
    (List.range cps.length) _ _ st (fun i hi => List.mem_range.mp hi) h0 ht0 hst2
  obtain ⟨cR, hcR, hcRn, _⟩ := hsr.new'
  have hpl : cR.name ∈ r'.sortedNames := by
    rw [hcRn, hsr.sorted]
    exact (hmem h).mpr (getRIndex_mem hidx)
  refine ⟨st, r', hst, ?_, hsr.sorted, hmem⟩
  unfold sortProcessorsState
  have hf : sortFuel (cps ++ [R]) = (2 * cps.length + 4) + 1 := by
    simp [sortFuel]; omega
  rw [hnames, hf, List.length_append, List.length_singleton, List.range_succ, sortLoop_append,
    hr', Option.some_bind]
  simp only [sortLoop]
  rw [call_placed hcR hpl, Option.some_bind]

theorem hookSlot_append_ne (cps : List callbackProcessor) (R : callbackProcessor) {n : String}
    (hn : n ≠ R.name) : hookSlot (cps ++ [R]) n = hookSlot cps n := by
  have hnames : namesOf (cps ++ [R]) = namesOf cps ++ [R.name] := by simp [namesOf]
  unfold hookSlot latestEntry
  rw [hnames, getRIndex_append_ne _ hn]
  cases hg : getRIndex (namesOf cps) n with
  | none => rfl
  | some idx =>
    have hlt : idx < cps.length := by
      have := (getRIndex_some hg).1
      simpa [namesOf] using this
    simp only [Option.some_bind]
    rw [List.getElem?_append_left hlt]

theorem hookSlot_append_self (cps : List callbackProcessor) (R : callbackProcessor) :
    hookSlot (cps ++ [R]) R.name = if R.remove then none else some R.processor := by
  have hnames : namesOf (cps ++ [R]) = namesOf cps ++ [R.name] := by simp [namesOf]
  unfold hookSlot latestEntry
  rw [hnames, getRIndex_append_self]
  simp [namesOf]

theorem filterMap_drop_name {f f' : String → Option (Option Nat)} {h : String}
    (hh : f' h = none) (hne : ∀ n, n ≠ h → f' n = f n) :
    ∀ order : List String,
      order.filterMap f' = (order.filter (fun n => decide (n ≠ h))).filterMap f := by
  intro order
  induction order with
  | nil => rfl
  | cons x rest ih =>
    by_cases hx : x = h
    · subst hx
      rw [List.filterMap_cons, hh, List.filter_cons_of_neg (by simp)]
      exact ih
    · rw [List.filterMap_cons, hne x hx, List.filter_cons_of_pos (by simpa using hx),
        List.filterMap_cons, ih]

/-- C5 as stated fails: in `[X(before H), H(before X)]` the name `H` is placed
through the closure called on its latest entry; after `Replace(H, g)` that
latest entry is the appended one, which has no constraint, and the order goes
from `[H, X]` to `[X, H]`.  And after the registrations of `graftedCreates` the
hooks are `[h, c, a, a, b]`, no longer the resolution of the entries as the last
`sort()` left them: `Create().Replace("H", 9)` on the unconstrained `H` turns
them into `[9, a, c, b]`. -/
theorem replace_counterexample :
    resolvedOrder [regBefore "H" "X" 1, regBefore "X" "H" 2] = some ["H", "X"] ∧
    resolvedOrder ([regBefore "H" "X" 1, regBefore "X" "H" 2]
      ++ [(addProcessor "create").Replace "H" 9]) = some ["X", "H"] ∧
    graftedCreates.map (fun c => c.creates)
      = some [some 1, some 4, some 2, some 2, some 3] ∧
    (graftedCreates.bind fun c => c.Create.1.Replace c.Create.2 "H" 9).map (fun c => c.creates)
      = some [some 9, some 2, some 4, some 3] := by
  decide

/-- C6 as stated fails: in `[A, X(before H), H(before A), Y(after H)]` the table
is `[h, y, a, x]`; after `Remove(H)` the name `H` is placed through the appended
entry, at the end, `Y` follows it, and the table is `[a, x, y]`, not
`[y, a, x]`.  And after the registrations of `graftedCreates` the hooks are
`[h, c, a, a, b]`, no longer the resolution of the entries as the last `sort()`
left them: `Create().Remove("H")` on the unconstrained `H` leaves `[a, c, b]`,
not `[c, a, a, b]`. -/
theorem remove_counterexample :
    sortProcessors [reg "A" 1, regBefore "H" "X" 2, regBefore "A" "H" 3, regAfter "H" "Y" 4]
      = some [some 3, some 4, some 1, some 2] ∧
    sortProcessors ([reg "A" 1, regBefore "H" "X" 2, regBefore "A" "H" 3, regAfter "H" "Y" 4]
      ++ [(addProcessor "create").Remove "H"]) = some [some 1, some 2, some 4] ∧
    [some 1, some 2, some 4] ≠ [some 4, some 1, some 2] ∧
    graftedCreates.map (fun c => c.creates)
      = some [some 1, some 4, some 2, some 2, some 3] ∧
    (graftedCreates.bind fun c => c.Create.1.Remove c.Create.2 "H").map (fun c => c.creates)
      = some [some 2, some 4, some 3] := by
  decide

/-! ## Scenario, unknown constraints, termination -/

theorem resolvedOrder_after_before (fa fb fc : Nat) :
    resolvedOrder [reg "A" fa, regAfter "A" "B" fb, regBefore "B" "C" fc]
      = some ["A", "C", "B"] := by
  rfl

/-- C11: the entries of `Register("A", fa)`, `After("A").Register("B", fb)`,
`Before("B").Register("C", fc)` resolve to the name order `[A, C, B]` and
`sortProcessors` returns `[fa, fc, fb]`; the three registrations made one after
the other on `DefaultCallback`, each followed by its `sort()`, leave
`creates = [fa, fc, fb]`. -/
theorem register_after_before_order (fa fb fc : Nat) :
    resolvedOrder [reg "A" fa, regAfter "A" "B" fb, regBefore "B" "C" fc]
      = some ["A", "C", "B"] ∧
    sortProcessors [reg "A" fa, regAfter "A" "B" fb, regBefore "B" "C" fc]
      = some [some fa, some fc, some fb] ∧
    (((DefaultCallback.register "create" "" "" "A" 1).bind fun c =>
        c.register "create" "" "A" "B" 2).bind fun c =>
          c.register "create" "B" "" "C" 3).map (fun c => c.creates)
      = some [some 1, some 3, some 2] := by
  refine ⟨resolvedOrder_after_before fa fb fc, ?_, by decide⟩
  obtain ⟨st, hst, _, htab⟩ := sortProcessors_eq_hookTable
    [reg "A" fa, regAfter "A" "B" fb, regBefore "B" "C" fc]
  have ho := resolvedOrder_after_before fa fb fc
  rw [resolvedOrder, hst] at ho
  have hs : st.sortedNames = ["A", "C", "B"] := by simpa using ho
  have hn : namesOf [reg "A" fa, regAfter "A" "B" fb, regBefore "B" "C" fc]
      = ["A", "B", "C"] := rfl
  have h0 : getRIndex ["A", "B", "C"] "A" = some 0 := by decide
  have h1 : getRIndex ["A", "B", "C"] "B" = some 1 := by decide
  have h2 : getRIndex ["A", "B", "C"] "C" = some 2 := by decide
  rw [htab, hs]
  simp only [hookTable, List.filterMap_cons, List.filterMap_nil, hookSlot, latestEntry, hn, h0,
    h1, h2, Option.some_bind]
  rfl

/-- C12: an unplaced entry whose single constraint (`before` only, or `after`
only) names a hook `X` that occurs nowhere in the entry list is placed without
failure: the call returns with the name appended once at the end of
`sortedNames`, which is also what the call does when the constraint is erased
from the entry. -/
theorem unknown_constraint_appends (names : List String) (st : SortState) (ci : Nat)
    (c : callbackProcessor) (X : String) (hc : st.cps[ci]? = some c)
    (hn : c.name ∉ st.sortedNames) (hsub : ∀ n, n ∈ st.sortedNames → n ∈ names)
    (hX : X ≠ "") (hXn : X ∉ names)
    (hcon : (c.before = X ∧ c.after = "") ∨ (c.before = "" ∧ c.after = X)) (fuel : Nat) :
    sortCallbackProcessor names (fuel + 1) ci st =
      some { st with sortedNames := st.sortedNames ++ [c.name] } ∧
    sortCallbackProcessor names (fuel + 1) ci
        { st with cps := st.cps.set ci { c with before := "", after := "" } } =
      some { cps := st.cps.set ci { c with before := "", after := "" },
             sortedNames := st.sortedNames ++ [c.name] } ∧
    (st.sortedNames ++ [c.name]).count c.name = 1 := by
  have hXs : X ∉ st.sortedNames := fun h => hXn (hsub X h)
  have hlt : ci < st.cps.length := by
    by_contra hge
    rw [List.getElem?_eq_none (by omega)] at hc
    simp at hc
  refine ⟨?_, ?_, ?_⟩
  · rw [sortCallbackProcessor_unplaced names fuel hc hn]
    rcases hcon with ⟨hb, ha⟩ | ⟨hb, ha⟩
    · rw [beforeStep_appends _ (hb ▸ hX) (by rw [hb]; exact getRIndex_eq_none.mpr hXs)
        (by rw [hb]; exact getRIndex_eq_none.mpr hXn), Option.some_bind,
        afterStep_unset names _ _ ha, Option.some_bind, finalStep_of_mem (by simp)]
    · rw [beforeStep_unset names _ _ hb, Option.some_bind,
        afterStep_appends _ (ha ▸ hX) (by rw [ha]; exact getRIndex_eq_none.mpr hXs)
        (by rw [ha]; exact getRIndex_eq_none.mpr hXn), Option.some_bind,
        finalStep_of_mem (by simp)]
  · have hc' : ({ st with cps := st.cps.set ci { c with before := "", after := "" } } :
        SortState).cps[ci]? = some { c with before := "", after := "" } := by simp [hlt]
    have hn' : ({ c with before := "", after := "" } : callbackProcessor).name ∉
        st.sortedNames := hn
    exact call_unconstrained names _ ci hc' hn' rfl rfl fuel
  · rw [List.count_append, List.count_eq_zero_of_not_mem hn]
    simp

/-- C12, at `[A, B(before Q)]` with `A` placed and no hook named `Q`. -/
theorem unknown_constraint_appends_witness :
    sortCallbackProcessor ["A", "B"] (3 + 1) 1
        { cps := [reg "A" 1, regBefore "Q" "B" 2], sortedNames := ["A"] } =
      some { cps := [reg "A" 1, regBefore "Q" "B" 2], sortedNames := ["A"] ++ ["B"] } ∧
    sortCallbackProcessor ["A", "B"] (3 + 1) 1
        { cps := [reg "A" 1, regBefore "Q" "B" 2].set 1
            { regBefore "Q" "B" 2 with before := "", after := "" },
          sortedNames := ["A"] } =
      some { cps := [reg "A" 1, regBefore "Q" "B" 2].set 1
               { regBefore "Q" "B" 2 with before := "", after := "" },
             sortedNames := ["A"] ++ ["B"] } ∧
    (["A"] ++ ["B"]).count "B" = 1 :=
  unknown_constraint_appends ["A", "B"]
    { cps := [reg "A" 1, regBefore "Q" "B" 2], sortedNames := ["A"] } 1
    (regBefore "Q" "B" 2) "Q" (by decide) (by decide) (by decide) (by decide) (by decide)
    (Or.inl (by decide)) 3

theorem unplaced_le_card (names sorted : List String) :
    unplaced names sorted ≤ names.toFinset.card :=
  Finset.card_le_card Finset.sdiff_subset

/-- The body of the closure on an unplaced entry calls the closure only on
arguments of smaller `callMeasure`: if the closure returns (growing the state)
on all of those, both blocks of the body return. -/
theorem closure_body_descends (names : List String) (st : SortState) (ci : Nat)
    (c : callbackProcessor) (recur : Nat → SortState → Option SortState)
    (hna : namesOf st.cps = names) (hc : st.cps[ci]? = some c) (hn : c.name ∉ st.sortedNames)
    (hrec : ∀ i s e, namesOf s.cps = names → s.cps[i]? = some e →
      callMeasure names s e < callMeasure names st c →
      ∃ s', recur i s = some s' ∧ Grows names s s') :
    ∃ st1 st2, beforeStep names recur c st = some st1 ∧
      afterStep names recur c st1 = some st2 := by
  have hm : c.name ∈ names := hna ▸ name_mem_namesOf hc
  -- the before block
  have hB : ∃ st1, beforeStep names recur c st = some st1 ∧ Grows names st st1 ∧
      (c.before ≠ "" → c.name ∈ st1.sortedNames) ∧ (c.before = "" → st1 = st) := by
    by_cases hb : c.before = ""
    · exact ⟨st, beforeStep_unset names recur st hb, Grows.refl _ _, fun h => absurd hb h,
        fun _ => rfl⟩
    · cases h1 : getRIndex st.sortedNames c.before with
      | some index =>
        exact ⟨_, beforeStep_inserts names recur hb h1, (Grows.refl names st).ins hn hm _,
          fun _ => mem_insertAt.mpr (Or.inl rfl), fun h => absurd h hb⟩
      | none =>
        cases h2 : getRIndex names c.before with
        | none =>
          exact ⟨_, beforeStep_appends recur hb h1 h2, (Grows.refl names st).app hn hm,
            fun _ => by simp, fun h => absurd h hb⟩
        | some index =>
          obtain ⟨cb, hcb, hcbn⟩ := getRIndex_namesOf (hna ▸ h2)
          have hne : cb.name ≠ "" := hcbn ▸ hb
          have hlt := unplaced_lt names st.sortedNames (st.sortedNames ++ [c.name])
            (fun n hn => List.mem_append_left _ hn) hm hn (by simp)
          have hmeas : callMeasure names { st with sortedNames := st.sortedNames ++ [c.name] } cb
              < callMeasure names st c := by
            unfold callMeasure
            simp only [hb, hne, if_false]
            split <;> split <;> omega
          obtain ⟨s', hs', g⟩ := hrec index
            { st with sortedNames := st.sortedNames ++ [c.name] } cb hna hcb hmeas
          refine ⟨s', ?_, ((Grows.refl names st).app hn hm).trans g, ?_, fun h => absurd h hb⟩
          · rw [beforeStep_recurs recur hb h1 h2]
            exact hs'
          · intro _
            exact g.subset _ (by simp)
  obtain ⟨st1, h1, g1, hpl, hsame⟩ := hB
  refine ⟨st1, ?_⟩
  have hna1 : namesOf st1.cps = names := by rw [← hna]; exact g1.names_eq
  by_cases ha : c.after = ""
  · exact ⟨st1, h1, afterStep_unset names recur st1 ha⟩
  · cases h3 : getRIndex st1.sortedNames c.after with
    | some index => exact ⟨_, h1, afterStep_inserts names recur ha h3⟩
    | none =>
      cases h4 : getRIndex names c.after with
      | none => exact ⟨_, h1, afterStep_appends recur ha h3 h4⟩
      | some index =>
        obtain ⟨cp, hcp, hcpn⟩ := getRIndex_namesOf (hna1 ▸ h4)
        have hne : cp.name ≠ "" := hcpn ▸ ha
        have hlen : index < st1.cps.length := by
          by_contra hge
          rw [List.getElem?_eq_none (by omega)] at hcp
          simp at hcp
        rw [afterStep_recurs recur ha h3 h4 hcp]
        have hkey : 2 * unplaced names st1.sortedNames + (if c.name = "" then 1 else 0) + 1
            ≤ callMeasure names st c := by
          unfold callMeasure
          by_cases hbe : c.before = ""
          · rw [hsame hbe]
            simp only [hbe, if_true]
            omega
          · have hlt := unplaced_lt names _ _ g1.subset hm hn (hpl hbe)
            simp only [hbe, if_false]
            split <;> omega
        by_cases hcb : cp.before = ""
        · rw [if_pos hcb]
          have hnag : namesOf (st1.cps.set index { cp with before := c.name }) = names := by
            rw [← hna1]
            exact namesOf_eq_of_same (map_forget_set _ _ _ _ hcp)
          have hmeas : callMeasure names
              { st1 with cps := st1.cps.set index { cp with before := c.name } }
              { cp with before := c.name } < callMeasure names st c := by
            refine Nat.lt_of_lt_of_le ?_ hkey
            unfold callMeasure
            simp only [hne, if_false]
            by_cases hcn : c.name = ""
            · simp only [hcn, if_true]
              omega
            · simp only [hcn, if_false]
              omega
          obtain ⟨s', hs', _⟩ := hrec index
            { st1 with cps := st1.cps.set index { cp with before := c.name } }
            { cp with before := c.name } hnag (by simp [hlen]) hmeas
          exact ⟨s', h1, hs'⟩
        · rw [if_neg hcb]
          have hmeas : callMeasure names st1 cp < callMeasure names st c := by
            refine Nat.lt_of_lt_of_le ?_ hkey
            unfold callMeasure
            simp only [hne, hcb, if_false]
            split <;> omega
          obtain ⟨s', hs', _⟩ := hrec index st1 cp hna1 hcp hmeas
          exact ⟨s', h1, hs'⟩

/-- C13: `sortProcessors` terminates on every entry list.  The recursion of the
closure is well founded: its body calls the closure only on arguments of smaller
`callMeasure` (twice the number of distinct names not yet placed, plus one for
an empty `before`, plus one for an empty name), so a call returns as soon as the
allowed nesting depth exceeds that measure, which is at most twice the number of
distinct names of the list plus two. -/
theorem sortProcessors_terminates (cps : List callbackProcessor) :
    (∃ table, sortProcessors cps = some table) ∧
    (∀ (st : SortState) (ci : Nat) (c : callbackProcessor)
        (recur : Nat → SortState → Option SortState),
      namesOf st.cps = namesOf cps → st.cps[ci]? = some c → c.name ∉ st.sortedNames →
      (∀ (i : Nat) (s : SortState) (e : callbackProcessor),
        namesOf s.cps = namesOf cps → s.cps[i]? = some e →
        callMeasure (namesOf cps) s e < callMeasure (namesOf cps) st c →
        ∃ s', recur i s = some s' ∧ Grows (namesOf cps) s s') →
      ∃ st1 st2, beforeStep (namesOf cps) recur c st = some st1 ∧
        afterStep (namesOf cps) recur c st1 = some st2) ∧
    (∀ (st : SortState) (ci : Nat) (c : callbackProcessor) (depth : Nat),
      namesOf st.cps = namesOf cps → st.cps[ci]? = some c →
      callMeasure (namesOf cps) st c < depth →
      ∃ st', sortCallbackProcessor (namesOf cps) depth ci st = some st') ∧
    (∀ st c, callMeasure (namesOf cps) st c ≤ 2 * (namesOf cps).toFinset.card + 2) := by
  refine ⟨?_, ?_, ?_, ?_⟩
  · obtain ⟨st, _, _, htab⟩ := sortProcessors_eq_hookTable cps
    exact ⟨_, htab⟩
  · intro st ci c recur hna hc hn hrec
    exact closure_body_descends (namesOf cps) st ci c recur hna hc hn hrec
  · intro st ci c depth hna hc hlt
    exact sortCallbackProcessor_total (namesOf cps) depth ci st c hna hc hlt
  · intro st c
    unfold callMeasure
    have := unplaced_le_card (namesOf cps) st.sortedNames
    split <;> split <;> omega

/-- C13, at the entries `E(after Y)`, `Y(before Z)`, `Z(after E)`: a nesting depth
of nine is enough for the call on `E`. -/
theorem sortProcessors_terminates_witness :
    (∃ table, sortProcessors cyclicAfter = some table) ∧
    (∃ st', sortCallbackProcessor (namesOf cyclicAfter) 9 0
      { cps := cyclicAfter, sortedNames := [] } = some st') :=
  ⟨(sortProcessors_terminates cyclicAfter).1,
    (sortProcessors_terminates cyclicAfter).2.2.1 { cps := cyclicAfter, sortedNames := [] } 0
      (regAfter "Y" "E" 1) 9 rfl (by decide)
      (Nat.lt_of_le_of_lt
        ((sortProcessors_terminates cyclicAfter).2.2.2 { cps := cyclicAfter, sortedNames := [] }
          (regAfter "Y" "E" 1)) (by decide))⟩

/-! ## Circular constraints, removed names, the fallback list -/

/-- C14 as stated fails: on `A(before B)`, `B(before A)` the call on `A` with
nesting depth two returns, with `sortedNames = [B, A]`, and so does
`sortProcessors`. -/
theorem circular_before_counterexample :
    sortCallbackProcessor ["A", "B"] 2 0
        { cps := [regBefore "B" "A" 1, regBefore "A" "B" 2], sortedNames := [] } =
      some { cps := [regBefore "B" "A" 1, regBefore "A" "B" 2], sortedNames := ["B", "A"] } ∧
    resolvedOrder [regBefore "B" "A" 1, regBefore "A" "B" 2] = some ["B", "A"] ∧
    sortProcessors [regBefore "B" "A" 1, regBefore "A" "B" 2] = some [some 2, some 1] := by
  decide

/-- C14 (amended): on a circular `before` chain, an entry named `a` with
`before = b` and an entry named `b` with `before = a`, the recursive placement
terminates after one nested call: the name `a` is appended before the closure is
called on the entry named `b`, which finds `a` placed and inserts `b` before it;
the resolution completes with the order `[b, a]`. -/
theorem circular_before_terminates (a b : String) (fa fb : Nat) (ha : a ≠ "") (hb : b ≠ "")
    (hab : a ≠ b) :
    sortCallbackProcessor [a, b] 2 0
        { cps := [regBefore b a fa, regBefore a b fb], sortedNames := [] } =
      some { cps := [regBefore b a fa, regBefore a b fb], sortedNames := [b, a] } ∧
    resolvedOrder [regBefore b a fa, regBefore a b fb] = some [b, a] ∧
    sortProcessors [regBefore b a fa, regBefore a b fb] = some [some fb, some fa] := by
  have hcall : sortCallbackProcessor [a, b] 2 0
        { cps := [regBefore b a fa, regBefore a b fb], sortedNames := [] } =
      some { cps := [regBefore b a fa, regBefore a b fb], sortedNames := [b, a] } := by
    have hc0 : ({ cps := [regBefore b a fa, regBefore a b fb], sortedNames := [] } :
        SortState).cps[0]? = some (regBefore b a fa) := rfl
    have hn0 : (regBefore b a fa).name ∉
        ({ cps := [regBefore b a fa, regBefore a b fb], sortedNames := [] } :
          SortState).sortedNames := by simp
    have hb0 : (regBefore b a fa).before ≠ "" := hb
    have h1 : getRIndex ({ cps := [regBefore b a fa, regBefore a b fb], sortedNames := [] } :
        SortState).sortedNames (regBefore b a fa).before = none :=
      getRIndex_eq_none.mpr (by simp)
    have h2 : getRIndex [a, b] (regBefore b a fa).before = some 1 := by
      apply getRIndex_unique
      · rfl
      · intro j hj
        rw [List.getElem?_eq_none (by simp; omega)]
        simp
    -- the nested call, on the entry named `b`
    have hc1 : ({ cps := [regBefore b a fa, regBefore a b fb], sortedNames := [] ++ [a] } :
        SortState).cps[1]? = some (regBefore a b fb) := rfl
    have hn1 : (regBefore a b fb).name ∉
        ({ cps := [regBefore b a fa, regBefore a b fb], sortedNames := [] ++ [a] } :
          SortState).sortedNames := by
      show b ∉ [] ++ [a]
      simpa using fun h => hab h.symm
    have hi1 : getRIndex
        ({ cps := [regBefore b a fa, regBefore a b fb], sortedNames := [] ++ [a] } :
          SortState).sortedNames (regBefore a b fb).before = some 0 := by
      apply getRIndex_unique
      · rfl
      · intro j hj
        rw [List.getElem?_eq_none (by simp; omega)]
        simp
    have hnested := @call_before_placed [a, b] _ _ _ _ hc1 hn1 rfl (show
      (regBefore a b fb).before ≠ "" from ha) hi1 0
    rw [sortCallbackProcessor_unplaced [a, b] 1 hc0 hn0, beforeStep_recurs _ hb0 h1 h2]
    show (sortCallbackProcessor [a, b] (0 + 1) 1
      { cps := [regBefore b a fa, regBefore a b fb], sortedNames := [] ++ [a] }).bind _ = _
    rw [hnested, Option.some_bind, afterStep_unset [a, b] _ _ rfl, Option.some_bind,
      finalStep_of_mem (by simp [insertAt, regBefore, callbackProcessor.Register])]
    rfl
  have hstate : sortProcessorsState [regBefore b a fa, regBefore a b fb] =
      some { cps := [regBefore b a fa, regBefore a b fb], sortedNames := [b, a] } := by
    have hmono := sortCallbackProcessor_mono [a, b] 2 (6 + 1) 0 _ _ (by omega) hcall
    have hc1 : ({ cps := [regBefore b a fa, regBefore a b fb], sortedNames := [b, a] } :
        SortState).cps[1]? = some (regBefore a b fb) := rfl
    have hskip := @call_placed [a, b] _ _ _ hc1 (by
      show b ∈ [b, a]
      simp) 6
    show sortLoop [a, b] (6 + 1) [0, 1] _ = _
    simp only [sortLoop, hmono, Option.some_bind, hskip]
  refine ⟨hcall, by simp [resolvedOrder, hstate], ?_⟩
  obtain ⟨st, hst, _, htab⟩ := sortProcessors_eq_hookTable [regBefore b a fa, regBefore a b fb]
  rw [hstate] at hst
  cases hst
  have hn : namesOf [regBefore b a fa, regBefore a b fb] = [a, b] := rfl
  have h0 : getRIndex [a, b] a = some 0 := by
    apply getRIndex_unique
    · rfl
    · intro j hj hs
      have hj1 : j = 1 := by
        by_contra hne
        rw [List.getElem?_eq_none (by simp; omega)] at hs
        simp at hs
      subst hj1
      simp at hs
      exact hab hs.symm
  have h1 : getRIndex [a, b] b = some 1 := by
    apply getRIndex_unique
    · rfl
    · intro j hj
      rw [List.getElem?_eq_none (by simp; omega)]
      simp
  rw [htab]
  simp only [hookTable, List.filterMap_cons, List.filterMap_nil, hookSlot, latestEntry, hn, h0,
    h1, Option.some_bind]
  rfl

/-- C14 (amended), at the names `A` and `B`. -/
theorem circular_before_terminates_witness :
    sortCallbackProcessor ["A", "B"] 2 0
        { cps := [regBefore "B" "A" 1, regBefore "A" "B" 2], sortedNames := [] } =
      some { cps := [regBefore "B" "A" 1, regBefore "A" "B" 2], sortedNames := ["B", "A"] } ∧
    resolvedOrder [regBefore "B" "A" 1, regBefore "A" "B" 2] = some ["B", "A"] ∧
    sortProcessors [regBefore "B" "A" 1, regBefore "A" "B" 2] = some [some 2, some 1] :=
  circular_before_terminates "A" "B" 1 2 (by decide) (by decide) (by decide)

/-- C16 as stated fails: after `Register("X", f)` and `Remove("X")` the latest
entry named `X` is a removal and `sortedNames` is `[X]`; only the table is
empty. -/
theorem removed_name_counterexample :
    resolvedOrder [reg "X" 1, (addProcessor "create").Remove "X"] = some ["X"] ∧
    (latestEntry [reg "X" 1, (addProcessor "create").Remove "X"] "X").map (fun e => e.remove)
      = some true ∧
    sortProcessors [reg "X" 1, (addProcessor "create").Remove "X"] = some [] := by
  decide

/-- C16 (amended): a name `h` whose latest entry is marked `remove = true` is
still placed in `sortedNames`; it is the projection to the table that drops it:
`h` has no slot, and the table is the projection of `sortedNames` without
`h`. -/
theorem removed_name_stays_in_order (cps : List callbackProcessor) (h : String) (index : Nat)
    (cp : callbackProcessor) (hidx : getRIndex (namesOf cps) h = some index)
    (hcp : cps[index]? = some cp) (hrm : cp.remove = true) :
    ∃ st, sortProcessorsState cps = some st ∧ h ∈ st.sortedNames ∧ hookSlot cps h = none ∧
      sortProcessors cps =
        some ((st.sortedNames.filter (fun n => decide (n ≠ h))).filterMap (hookSlot cps)) := by
  obtain ⟨st, hst, hmem, htab⟩ := sortProcessors_eq_hookTable cps
  have hslot : hookSlot cps h = none := by
    simp [hookSlot, latestEntry, hidx, hcp, hrm]
  refine ⟨st, hst, (hmem h).mpr (getRIndex_mem hidx), hslot, ?_⟩
  rw [htab]
  unfold hookTable
  congr 1
  exact filterMap_drop_name hslot (fun _ _ => rfl) st.sortedNames

/-- C16 (amended), at `Register("X", 1)`, `Register("Y", 2)`, `Remove("X")`. -/
theorem removed_name_stays_in_order_witness :
    ∃ st,
      sortProcessorsState [reg "X" 1, reg "Y" 2, (addProcessor "create").Remove "X"] = some st ∧
      "X" ∈ st.sortedNames ∧
      hookSlot [reg "X" 1, reg "Y" 2, (addProcessor "create").Remove "X"] "X" = none ∧
      sortProcessors [reg "X" 1, reg "Y" 2, (addProcessor "create").Remove "X"] =
        some ((st.sortedNames.filter (fun n => decide (n ≠ "X"))).filterMap
          (hookSlot [reg "X" 1, reg "Y" 2, (addProcessor "create").Remove "X"])) :=
  removed_name_stays_in_order [reg "X" 1, reg "Y" 2, (addProcessor "create").Remove "X"] "X" 2
    ((addProcessor "create").Remove "X") (by decide) (by decide) (by decide)

/-- C18: when the main loop of `sortProcessors` has finished, the names in
`sortedNames` are exactly the names of the entries, whatever the constraints
(the circular list `E(after Y)`, `Y(before Z)`, `Z(after E)` included); so the
fallback list `funcs` of unplaced entries is empty and the returned table is the
list `sortedFuncs` projected from `sortedNames`. -/
theorem main_loop_places_every_name (cps : List callbackProcessor) :
    (∃ st table, sortProcessorsState cps = some st ∧
      (∀ n, n ∈ st.sortedNames ↔ n ∈ namesOf cps) ∧
      funcs st.sortedNames st.cps = [] ∧
      sortedFuncs (namesOf cps) st.cps st.sortedNames = some table ∧
      sortProcessors cps = some table ∧ table = hookTable cps st.sortedNames) ∧
    (∃ st, sortProcessorsState cyclicAfter = some st ∧
      st.sortedNames = ["Y", "E", "E", "Z"] ∧ funcs st.sortedNames st.cps = []) := by
  refine ⟨?_, by decide⟩
  obtain ⟨st, hst, g, hmem⟩ := sortProcessorsState_spec cps
  obtain ⟨st2, hst2, _, htab⟩ := sortProcessors_eq_hookTable cps
  rw [hst] at hst2
  cases hst2
  refine ⟨st, hookTable cps st.sortedNames, hst, hmem, ?_, ?_, htab, rfl⟩
  · apply funcs_eq_nil
    intro c hc
    apply (hmem c.name).mpr
    rw [← g.names_eq]
    exact List.mem_map.mpr ⟨c, hc, rfl⟩
  · exact sortedFuncs_eq_hookTable g.same st.sortedNames (fun n hn => (hmem n).mp hn)

/-! ## What a run writes to the entries -/

theorem GraftOnly.same_list (a : List callbackProcessor) : GraftOnly a a where
  same := rfl
  before := by
    intro i e e' h1 h2
    rw [h1] at h2
    cases h2
    exact Or.inl rfl

theorem GraftOnly.then {a b c : List callbackProcessor} (h1 : GraftOnly a b)
    (h2 : GraftOnly b c) : GraftOnly a c where
  same := h2.same.trans h1.same
  before := by
    intro i e e'' hi hi''
    obtain ⟨e', hi', hf⟩ := getElem?_name_of_same h1.same hi
    have hname : e'.name = e.name := (forgetBefore_eq hf).1
    rcases h2.before i e' e'' hi' hi'' with h | ⟨hb', c, hc, hca, hcne, hcn⟩
    · rcases h1.before i e e' hi hi' with h' | ⟨hb, c, hc, hca, hcne, hcn⟩
      · exact Or.inl (h.trans h')
      · exact Or.inr ⟨hb, c, hc, hca, hcne, h.trans hcn⟩
    · -- the entry `c` of `b` has a counterpart in `a` with the same name and `after`
      obtain ⟨k, hk⟩ := List.mem_iff_getElem?.mp hc
      obtain ⟨c0, hk0, hf0⟩ := getElem?_name_of_same h1.same.symm hk
      have hc0 : c0 ∈ a := List.mem_iff_getElem?.mpr ⟨k, hk0⟩
      have hn0 : c0.name = c.name := (forgetBefore_eq hf0).1
      have ha0 : c0.after = c.after := (forgetBefore_eq hf0).2.1
      have hbe : e.before = "" := by
        rcases h1.before i e e' hi hi' with h' | ⟨hb, _⟩
        · rw [← h', hb']
        · exact hb
      exact Or.inr ⟨hbe, c0, hc0, by rw [ha0, hca, hname], by rw [ha0]; exact hcne,
        by rw [hcn, hn0]⟩

theorem GraftOnly.set_before {l : List callbackProcessor} {index : Nat} {cp c : callbackProcessor}
    (hcp : l[index]? = some cp) (hb : cp.before = "") (hc : c ∈ l) (hca : c.after = cp.name)
    (hne : c.after ≠ "") : GraftOnly l (l.set index { cp with before := c.name }) where
  same := map_forget_set l index cp c.name hcp
  before := by
    intro i e e' hi hi'
    rw [List.getElem?_set] at hi'
    by_cases hii : index = i
    · subst hii
      rw [hcp] at hi
      cases hi
      have hlt : index < l.length := by
        by_contra hge
        rw [List.getElem?_eq_none (by omega)] at hcp
        simp at hcp
      simp only [hlt, if_true] at hi'
      cases hi'
      exact Or.inr ⟨hb, c, hc, hca, hne, rfl⟩
    · simp only [hii, if_false] at hi'
      rw [hi] at hi'
      cases hi'
      exact Or.inl rfl

theorem beforeStep_graftOnly {names : List String}
    {recur : Nat → SortState → Option SortState}
    (hrec : ∀ i s s', namesOf s.cps = names → recur i s = some s' → GraftOnly s.cps s'.cps)
    {st st1 : SortState} {c : callbackProcessor} (hna : namesOf st.cps = names)
    (h : beforeStep names recur c st = some st1) : GraftOnly st.cps st1.cps := by
  by_cases hb : c.before = ""
  · rw [beforeStep_unset names recur st hb] at h
    cases h
    exact GraftOnly.same_list _
  · cases h1 : getRIndex st.sortedNames c.before with
    | some index =>
      rw [beforeStep_inserts names recur hb h1] at h
      cases h
      exact GraftOnly.same_list _
    | none =>
      cases h2 : getRIndex names c.before with
      | none =>
        rw [beforeStep_appends recur hb h1 h2] at h
        cases h
        exact GraftOnly.same_list _
      | some index =>
        rw [beforeStep_recurs recur hb h1 h2] at h
        exact hrec index { st with sortedNames := st.sortedNames ++ [c.name] } st1 hna h

theorem afterStep_graftOnly {names : List String}
    {recur : Nat → SortState → Option SortState}
    (hrec : ∀ i s s', namesOf s.cps = names → recur i s = some s' → GraftOnly s.cps s'.cps)
    {st st1 : SortState} {c : callbackProcessor} (hna : namesOf st.cps = names)
    (hcin : ∃ c', c' ∈ st.cps ∧ c'.name = c.name ∧ c'.after = c.after)
    (h : afterStep names recur c st = some st1) : GraftOnly st.cps st1.cps := by
  by_cases ha : c.after = ""
  · rw [afterStep_unset names recur st ha] at h
    cases h
    exact GraftOnly.same_list _
  · cases h1 : getRIndex st.sortedNames c.after with
    | some index =>
      rw [afterStep_inserts names recur ha h1] at h
      cases h
      exact GraftOnly.same_list _
    | none =>
      cases h2 : getRIndex names c.after with
      | none =>
        rw [afterStep_appends recur ha h1 h2] at h
        cases h
        exact GraftOnly.same_list _
      | some index =>
        obtain ⟨cp, hcp, hcpn⟩ := getRIndex_namesOf (hna ▸ h2)
        rw [afterStep_recurs recur ha h1 h2 hcp] at h
        by_cases hcb : cp.before = ""
        · rw [if_pos hcb] at h
          obtain ⟨c', hc', hn', ha'⟩ := hcin
          have hg : GraftOnly st.cps (st.cps.set index { cp with before := c'.name }) :=
            GraftOnly.set_before hcp hcb hc' (by rw [ha', hcpn]) (by rw [ha']; exact ha)
          rw [hn'] at hg
          refine hg.then (hrec index _ st1 ?_ h)
          rw [← hna]
          exact namesOf_eq_of_same (map_forget_set _ _ _ _ hcp)
        · rw [if_neg hcb] at h
          exact hrec index st st1 hna h

theorem sortCallbackProcessor_graftOnly (names : List String) :
    ∀ (fuel ci : Nat) (st st' : SortState), namesOf st.cps = names →
      sortCallbackProcessor names fuel ci st = some st' → GraftOnly st.cps st'.cps := by
  intro fuel
  induction fuel with
  | zero => intro ci st st' _ h; simp [sortCallbackProcessor] at h
  | succ k ih =>
    intro ci st st' hna h
    cases hc : st.cps[ci]? with
    | none => simp [sortCallbackProcessor, hc] at h
    | some c =>
      by_cases hp : c.name ∈ st.sortedNames
      · rw [call_placed hc hp] at h
        cases h
        exact GraftOnly.same_list _
      · rw [sortCallbackProcessor_unplaced names k hc hp] at h
        cases h1 : beforeStep names (sortCallbackProcessor names k) c st with
        | none => simp [h1] at h
        | some st1 =>
          cases h2 : afterStep names (sortCallbackProcessor names k) c st1 with
          | none => simp [h1, h2] at h
          | some st2 =>
            simp [h1, h2] at h
            subst h
            have g1 := beforeStep_graftOnly (ih · · ·) hna h1
            have hna1 : namesOf st1.cps = names := by
              rw [← hna]; exact namesOf_eq_of_same g1.same
            obtain ⟨c1, hc1, hf1⟩ := getElem?_name_of_same g1.same hc
            have g2 := afterStep_graftOnly (ih · · ·) hna1
              ⟨c1, List.mem_iff_getElem?.mpr ⟨ci, hc1⟩, (forgetBefore_eq hf1).1,
                (forgetBefore_eq hf1).2.1⟩ h2
            have hfin : (finalStep c st2).cps = st2.cps := by
              unfold finalStep
              split <;> rfl
            rw [hfin]
            exact g1.then g2

theorem sortLoop_graftOnly (names : List String) (fuel : Nat) :
    ∀ (is : List Nat) (st st' : SortState), namesOf st.cps = names →
      sortLoop names fuel is st = some st' → GraftOnly st.cps st'.cps := by
  intro is
  induction is with
  | nil => intro st st' _ h; simp [sortLoop] at h; subst h; exact GraftOnly.same_list _
  | cons i rest ih =>
    intro st st' hna h
    unfold sortLoop at h
    cases h1 : sortCallbackProcessor names fuel i st with
    | none => simp [h1] at h
    | some st1 =>
      simp only [h1, Option.some_bind] at h
      have g1 := sortCallbackProcessor_graftOnly names fuel i st st1 hna h1
      exact g1.then (ih st1 st' (by rw [← hna]; exact namesOf_eq_of_same g1.same) h)

/-- C15 as stated fails: on `A(after B)`, `B` the run writes `B.before = "A"`;
after `sortProcessors` the second entry is no longer the one registered. -/
theorem resolution_writes_counterexample :
    sortProcessorsState [regAfter "B" "A" 1, reg "B" 2] =
      some { cps := [regAfter "B" "A" 1, (reg "B" 2).Before "A"], sortedNames := ["B", "A"] } ∧
    (reg "B" 2).Before "A" ≠ reg "B" 2 := by
  decide

/-- C15 (amended): after `sortProcessors` every entry still has the name, after,
replace, remove, typ and processor it had; its `before` is either unchanged, or
it was empty and now holds the name of an entry whose `after` names this entry
(the graft `cp.before = c.name` of the closure). -/
theorem resolution_writes_only_before (cps : List callbackProcessor) :
    ∃ st, sortProcessorsState cps = some st ∧ st.cps.length = cps.length ∧
      ∀ (i : Nat) (e : callbackProcessor), cps[i]? = some e →
        ∃ e', st.cps[i]? = some e' ∧ e'.name = e.name ∧ e'.after = e.after ∧
          e'.replace = e.replace ∧ e'.remove = e.remove ∧ e'.typ = e.typ ∧
          e'.processor = e.processor ∧
          (e'.before = e.before ∨
            (e.before = "" ∧
              ∃ c, c ∈ cps ∧ c.after = e.name ∧ c.after ≠ "" ∧ e'.before = c.name)) := by
  obtain ⟨st, hst, _, _⟩ := sortProcessorsState_spec cps
  have g := sortLoop_graftOnly (namesOf cps) (sortFuel cps) _
    { cps := cps, sortedNames := [] } st rfl hst
  refine ⟨st, hst, length_eq_of_same g.same, ?_⟩
  intro i e hi
  obtain ⟨e', hi', hf⟩ := getElem?_name_of_same g.same hi
  obtain ⟨h1, h2, h3, h4, h5, h6⟩ := forgetBefore_eq hf
  exact ⟨e', hi', h1, h2, h3, h4, h5, h6, g.before i e e' hi hi'⟩

/-! ## The method `sort` -/

theorem writeBack_map_forget (typ : String) :
    ∀ (ps news : List callbackProcessor),
      news.map forgetBefore = (ofTyp typ ps).map forgetBefore →
      (writeBack typ ps news).map forgetBefore = ps.map forgetBefore := by
  intro ps
  induction ps with
  | nil => intro news _; rfl
  | cons p rest ih =>
    intro news h
    by_cases hp : p.typ = typ
    · have hf : ofTyp typ (p :: rest) = p :: ofTyp typ rest := by
        simp [ofTyp, List.filter_cons, hp]
      rw [hf] at h
      cases news with
      | nil => simp at h
      | cons n ns =>
        simp only [List.map_cons, List.cons.injEq] at h
        simp only [writeBack, hp, if_true, List.map_cons, h.1, ih ns h.2]
    · have hf : ofTyp typ (p :: rest) = ofTyp typ rest := by
        simp [ofTyp, List.filter_cons, hp]
      rw [hf] at h
      simp only [writeBack, hp, if_false, List.map_cons, ih news h]

theorem writeBack_ofTyp_ne (typ typ' : String) (hne : typ' ≠ typ) :
    ∀ (ps news : List callbackProcessor),
      news.map forgetBefore = (ofTyp typ ps).map forgetBefore →
      ofTyp typ' (writeBack typ ps news) = ofTyp typ' ps := by
  intro ps
  induction ps with
  | nil => intro news _; rfl
  | cons p rest ih =>
    intro news h
    by_cases hp : p.typ = typ
    · have hf : ofTyp typ (p :: rest) = p :: ofTyp typ rest := by
        simp [ofTyp, List.filter_cons, hp]
      rw [hf] at h
      cases news with
      | nil => simp at h
      | cons n ns =>
        simp only [List.map_cons, List.cons.injEq] at h
        have hn : n.typ = typ := by
          rw [(forgetBefore_eq h.1).2.2.2.2.1, hp]
        have hn' : ¬ n.typ = typ' := fun e => hne (e.symm.trans hn)
        have hp' : ¬ p.typ = typ' := fun e => hne (e.symm.trans hp)
        have := ih ns h.2
        simp only [ofTyp] at this
        have hne' : ¬ typ = typ' := fun e => hne e.symm
        simp [writeBack, hp, ofTyp, List.filter_cons, hn', hp', hne', this]
    · have hf : ofTyp typ (p :: rest) = ofTyp typ rest := by
        simp [ofTyp, List.filter_cons, hp]
      rw [hf] at h
      have := ih news h
      simp only [ofTyp] at this
      simp [writeBack, hp, ofTyp, List.filter_cons, this]

theorem writeBack_self (typ : String) :
    ∀ ps : List callbackProcessor, writeBack typ ps (ofTyp typ ps) = ps := by
  intro ps
  induction ps with
  | nil => rfl
  | cons p rest ih =>
    by_cases hp : p.typ = typ
    · have hf : ofTyp typ (p :: rest) = p :: ofTyp typ rest := by
        simp [ofTyp, List.filter_cons, hp]
      rw [hf]
      simp only [writeBack, hp, if_true, ih]
    · have hf : ofTyp typ (p :: rest) = ofTyp typ rest := by
        simp [ofTyp, List.filter_cons, hp]
      rw [hf]
      simp only [writeBack, hp, if_false, ih]

theorem run_leaves_entries {cps : List callbackProcessor}
    (hg : graftFree cps = true ∨ backwardOnly cps = true) {st : SortState}
    (hst : sortProcessorsState cps = some st) : st.cps = cps := by
  rcases hg with hg | hg
  · exact sortLoop_cps hg _ _ _ _ rfl hst
  · unfold sortProcessorsState at hst
    rw [List.range_eq_range'] at hst
    exact sortLoop_backward hg _ _ 0 _ _ rfl (by simp) (by simp) hst

theorem sortCategory_spec (typ : String) (ps : List callbackProcessor) :
    ∃ table ps', sortCategory typ ps = some (table, ps') ∧
      sortProcessors (ofTyp typ ps) = some table ∧
      ps'.map forgetBefore = ps.map forgetBefore ∧
      (∀ typ', typ' ≠ typ → ofTyp typ' ps' = ofTyp typ' ps) ∧
      ((graftFree (ofTyp typ ps) = true ∨ backwardOnly (ofTyp typ ps) = true) → ps' = ps) := by
  obtain ⟨st, hst, g, _⟩ := sortProcessorsState_spec (ofTyp typ ps)
  obtain ⟨st2, hst2, _, htab⟩ := sortProcessors_eq_hookTable (ofTyp typ ps)
  rw [hst] at hst2
  cases hst2
  have hsame : st.cps.map forgetBefore = (ofTyp typ ps).map forgetBefore := g.same
  refine ⟨_, writeBack typ ps st.cps, ?_, htab, writeBack_map_forget typ ps st.cps hsame,
    fun typ' hne => writeBack_ofTyp_ne typ typ' hne ps st.cps hsame, ?_⟩
  · unfold sortCategory
    have e : (ps.filter fun p => decide (p.typ = typ)) = ofTyp typ ps := rfl
    rw [e, hst, Option.some_bind, htab]
    rfl
  · intro hg
    rw [run_leaves_entries hg hst]
    exact writeBack_self typ ps

theorem sort_spec (c : callback) :
    ∃ c', c.sort = some c' ∧ SortedFrom c c' ∧ SettledIn c c' := by
  obtain ⟨t1, p1, h1, ht1, hf1, hne1, hst1⟩ := sortCategory_spec "create" c.processors
  obtain ⟨t2, p2, h2, ht2, hf2, hne2, hst2⟩ := sortCategory_spec "update" p1
  obtain ⟨t3, p3, h3, ht3, hf3, hne3, hst3⟩ := sortCategory_spec "delete" p2
  obtain ⟨t4, p4, h4, ht4, hf4, hne4, hst4⟩ := sortCategory_spec "query" p3
  obtain ⟨t5, p5, h5, ht5, hf5, hne5, hst5⟩ := sortCategory_spec "row_query" p4
  have epre1 : ofTyp "create" c.processors = ofTyp "create" c.processors := rfl
  have epost1 : ofTyp "create" p5 = ofTyp "create" p1 := by
    rw [hne5 "create" (by decide), hne4 "create" (by decide), hne3 "create" (by decide), hne2 "create" (by decide)]
  have hs1 : sortProcessors (ofTyp "create" c.processors) = some t1 := by
    rw [← epre1]; exact ht1
  have hk1 : (graftFree (ofTyp "create" c.processors) = true ∨
      backwardOnly (ofTyp "create" c.processors) = true) →
      ofTyp "create" p5 = ofTyp "create" c.processors := by
    intro hg
    rw [← epre1] at hg
    rw [epost1, hst1 hg, epre1]
  have epre2 : ofTyp "update" p1 = ofTyp "update" c.processors := by
    rw [hne1 "update" (by decide)]
  have epost2 : ofTyp "update" p5 = ofTyp "update" p2 := by
    rw [hne5 "update" (by decide), hne4 "update" (by decide), hne3 "update" (by decide)]
  have hs2 : sortProcessors (ofTyp "update" c.processors) = some t2 := by
    rw [← epre2]; exact ht2
  have hk2 : (graftFree (ofTyp "update" c.processors) = true ∨
      backwardOnly (ofTyp "update" c.processors) = true) →
      ofTyp "update" p5 = ofTyp "update" c.processors := by
    intro hg
    rw [← epre2] at hg
    rw [epost2, hst2 hg, epre2]
  have epre3 : ofTyp "delete" p2 = ofTyp "delete" c.processors := by
    rw [hne2 "delete" (by decide), hne1 "delete" (by decide)]
  have epost3 : ofTyp "delete" p5 = ofTyp "delete" p3 := by
    rw [hne5 "delete" (by decide), hne4 "delete" (by decide)]
  have hs3 : sortProcessors (ofTyp "delete" c.processors) = some t3 := by
    rw [← epre3]; exact ht3
  have hk3 : (graftFree (ofTyp "delete" c.processors) = true ∨
      backwardOnly (ofTyp "delete" c.processors) = true) →
      ofTyp "delete" p5 = ofTyp "delete" c.processors := by
    intro hg
    rw [← epre3] at hg
    rw [epost3, hst3 hg, epre3]
  have epre4 : ofTyp "query" p3 = ofTyp "query" c.processors := by
    rw [hne3 "query" (by decide), hne2 "query" (by decide), hne1 "query" (by decide)]
  have epost4 : ofTyp "query" p5 = ofTyp "query" p4 := by
    rw [hne5 "query" (by decide)]
  have hs4 : sortProcessors (ofTyp "query" c.processors) = some t4 := by
    rw [← epre4]; exact ht4
  have hk4 : (graftFree (ofTyp "query" c.processors) = true ∨
      backwardOnly (ofTyp "query" c.processors) = true) →
      ofTyp "query" p5 = ofTyp "query" c.processors := by
    intro hg
    rw [← epre4] at hg
    rw [epost4, hst4 hg, epre4]
  have epre5 : ofTyp "row_query" p4 = ofTyp "row_query" c.processors := by
    rw [hne4 "row_query" (by decide), hne3 "row_query" (by decide), hne2 "row_query" (by decide), hne1 "row_query" (by decide)]
  have epost5 : ofTyp "row_query" p5 = ofTyp "row_query" p5 := rfl
  have hs5 : sortProcessors (ofTyp "row_query" c.processors) = some t5 := by
    rw [← epre5]; exact ht5
  have hk5 : (graftFree (ofTyp "row_query" c.processors) = true ∨
      backwardOnly (ofTyp "row_query" c.processors) = true) →
      ofTyp "row_query" p5 = ofTyp "row_query" c.processors := by
    intro hg
    rw [← epre5] at hg
    rw [epost5, hst5 hg, epre5]
  refine ⟨{ creates := t1, updates := t2, deletes := t3, queries := t4, rowQueries := t5,
            processors := p5 }, ?_, ⟨?_, ?_⟩, ?_⟩
  · unfold callback.sort
    rw [h1, Option.some_bind, h2, Option.some_bind, h3, Option.some_bind, h4, Option.some_bind,
      h5, Option.some_bind]
  · intro typ htyp
    simp only [categories, List.mem_cons, List.mem_singleton, List.not_mem_nil, or_false] at htyp
    rcases htyp with rfl | rfl | rfl | rfl | rfl
    · exact hs1
    · exact hs2
    · exact hs3
    · exact hs4
    · exact hs5
  · exact hf5.trans (hf4.trans (hf3.trans (hf2.trans hf1)))
  · intro typ htyp hg
    simp only [categories, List.mem_cons, List.mem_singleton, List.not_mem_nil, or_false] at htyp
    rcases htyp with rfl | rfl | rfl | rfl | rfl
    · exact ⟨hk1 hg, by rw [show ofTyp "create" p5 = _ from hk1 hg]; exact hs1⟩
    · exact ⟨hk2 hg, by rw [show ofTyp "update" p5 = _ from hk2 hg]; exact hs2⟩
    · exact ⟨hk3 hg, by rw [show ofTyp "delete" p5 = _ from hk3 hg]; exact hs3⟩
    · exact ⟨hk4 hg, by rw [show ofTyp "query" p5 = _ from hk4 hg]; exact hs4⟩
    · exact ⟨hk5 hg, by rw [show ofTyp "row_query" p5 = _ from hk5 hg]; exact hs5⟩

theorem ofTyp_set_ne (typ : String) {e e' : callbackProcessor} (he : e.typ ≠ typ)
    (he' : e'.typ = e.typ) :
    ∀ (ps : List callbackProcessor) (cp : Nat), ps[cp]? = some e →
      ofTyp typ (ps.set cp e') = ofTyp typ ps := by
  intro ps
  induction ps with
  | nil => intro cp h; simp at h
  | cons p rest ih =>
    intro cp h
    cases cp with
    | zero =>
      have hp : p = e := by simpa using h
      subst hp
      have h1 : ¬ e'.typ = typ := by rw [he']; exact he
      simp [ofTyp, List.filter_cons, he, h1]
    | succ k =>
      have hk : rest[k]? = some e := by simpa using h
      have := ih k hk
      simp only [ofTyp] at this
      simp [ofTyp, List.filter_cons, this]

theorem hooks_of_not_category (c : callback) {typ : String} (h : typ ∉ categories) :
    c.hooks typ = [] := by
  simp only [categories, List.mem_cons, List.mem_singleton, List.not_mem_nil, or_false,
    not_or] at h
  obtain ⟨h1, h2, h3, h4, h5⟩ := h
  simp [callback.hooks, h1, h2, h3, h4, h5]

theorem registration_spec (c : callback) (cp : Nat) (e : callbackProcessor)
    (f : callbackProcessor → callbackProcessor) (he : c.processors[cp]? = some e)
    (hf : (f e).typ = e.typ) :
    ∃ c', (c.onEntry cp f).sort = some c' ∧ SortedFrom (c.onEntry cp f) c' ∧
      FramedOff e.typ c c' ∧ SettledIn (c.onEntry cp f) c' := by
  obtain ⟨c', hsort, hfrom, hset⟩ := sort_spec (c.onEntry cp f)
  refine ⟨c', hsort, hfrom, ?_, hset⟩
  have hps : (c.onEntry cp f).processors = c.processors.set cp (f e) := by
    unfold callback.onEntry
    rw [he]
  intro typ hne hcons
  by_cases hcat : typ ∈ categories
  · have h1 := hfrom.1 typ hcat
    rw [hps, ofTyp_set_ne typ (fun h => hne h.symm) hf c.processors cp he, hcons] at h1
    exact (Option.some.inj h1).symm
  · rw [hooks_of_not_category c hcat, hooks_of_not_category c' hcat]

/-- C17 as stated fails: after the registrations of `cyclicUpdates` the update
hooks are `[2, 1, 1, 3]`; one more registration, `Create().Register("A", 9)`, in
another category, re-sorts the update entries as the last `sort()` left them and
the update hooks become `[1, 2, 3]`. -/
theorem registration_frame_counterexample :
    cyclicUpdates.map (fun c => c.updates) = some [some 2, some 1, some 1, some 3] ∧
    (cyclicUpdates.bind fun c => c.register "create" "" "" "A" 9).map
      (fun c => (c.creates, c.updates)) = some ([some 9], [some 1, some 2, some 3]) := by
  decide

/-- C17 (amended): a completed registration (`Register`, `Remove` or `Replace`)
through the entry pointer `cp` returns with each of the five hook lists equal to
`sortProcessors` of the entries of its category, in registration order, as they
stand when `sort()` starts.  The hook list of a category other than that of the
entry is the same as before the registration whenever it already was the
resolution of its entries as they stood then; `sort()` leaves a category in
that condition when its entries are `graftFree` or `backwardOnly`. -/
theorem registration_resorts_categories (c : callback) (cp : Nat) (e : callbackProcessor)
    (name : String) (fc : Nat) (he : c.processors[cp]? = some e) :
    (∃ c', c.Register cp name fc = some c' ∧
      SortedFrom (c.onEntry cp fun x => x.Register name fc) c' ∧ FramedOff e.typ c c' ∧
      SettledIn (c.onEntry cp fun x => x.Register name fc) c') ∧
    (∃ c', c.Remove cp name = some c' ∧
      SortedFrom (c.onEntry cp fun x => x.Remove name) c' ∧ FramedOff e.typ c c' ∧
      SettledIn (c.onEntry cp fun x => x.Remove name) c') ∧
    (∃ c', c.Replace cp name fc = some c' ∧
      SortedFrom (c.onEntry cp fun x => x.Replace name fc) c' ∧ FramedOff e.typ c c' ∧
      SettledIn (c.onEntry cp fun x => x.Replace name fc) c') :=
  ⟨registration_spec c cp e (fun x => x.Register name fc) he rfl,
    registration_spec c cp e (fun x => x.Remove name) he rfl,
    registration_spec c cp e (fun x => x.Replace name fc) he rfl⟩

/-- C17 (amended), at `DefaultCallback.Create()` followed by `Register("A", 1)`,
`Remove("A")` or `Replace("A", 1)` on the new entry. -/
theorem registration_resorts_categories_witness :
    (∃ c', (DefaultCallback.Create).1.Register 0 "A" 1 = some c' ∧
      SortedFrom ((DefaultCallback.Create).1.onEntry 0 fun x => x.Register "A" 1) c' ∧
      FramedOff (Gorm.addProcessor "create").typ (DefaultCallback.Create).1 c' ∧
      SettledIn ((DefaultCallback.Create).1.onEntry 0 fun x => x.Register "A" 1) c') ∧
    (∃ c', (DefaultCallback.Create).1.Remove 0 "A" = some c' ∧
      SortedFrom ((DefaultCallback.Create).1.onEntry 0 fun x => x.Remove "A") c' ∧
      FramedOff (Gorm.addProcessor "create").typ (DefaultCallback.Create).1 c' ∧
      SettledIn ((DefaultCallback.Create).1.onEntry 0 fun x => x.Remove "A") c') ∧
    (∃ c', (DefaultCallback.Create).1.Replace 0 "A" 1 = some c' ∧
      SortedFrom ((DefaultCallback.Create).1.onEntry 0 fun x => x.Replace "A" 1) c' ∧
      FramedOff (Gorm.addProcessor "create").typ (DefaultCallback.Create).1 c' ∧
      SettledIn ((DefaultCallback.Create).1.onEntry 0 fun x => x.Replace "A" 1) c') :=
  registration_resorts_categories (DefaultCallback.Create).1 0 (Gorm.addProcessor "create")
    "A" 1 (by decide)

/-- C20: `c.clone()` has the creates, updates, deletes, queries and processors of
`c`, and an empty `rowQueries` whatever `c.rowQueries` holds; after
`RowQuery().Register("r", 7)` on `DefaultCallback` the row-query list is `[7]`
and that of the clone is empty. -/
theorem clone_drops_rowQueries (c : callback) :
    c.clone.creates = c.creates ∧ c.clone.updates = c.updates ∧
    c.clone.deletes = c.deletes ∧ c.clone.queries = c.queries ∧
    c.clone.processors = c.processors ∧ c.clone.rowQueries = [] ∧
    (DefaultCallback.register "row_query" "" "" "r" 7).map
      (fun d => (d.rowQueries, d.clone.rowQueries)) = some ([some 7], []) :=
  ⟨rfl, rfl, rfl, rfl, rfl, rfl, by decide⟩

/-! ## The cache of `toDBName` -/

/-- C19, evaluated at the failing inputs.  With an initialism replacer that
leaves `Foo`, `Bar` and `Baz` alone (they contain no initialism):
after `NamingStrategy{}` has converted `Foo`, the strategy whose replacer turns
`Foo` into `Bar` returns the cached `foo` for `Foo`, and `bar` on a fresh cache;
and that strategy alone, having converted `Foo` (stored under the replaced name
`Bar`), returns `bar` for `Bar`, and `baz` on a fresh cache. -/
theorem smap_cache_leaks (rep : String → String) (h1 : rep "Foo" = "Foo")
    (h2 : rep "Bar" = "Bar") (h3 : rep "Baz" = "Baz") :
    plainStrategy.toDBName rep reset "Foo" = some ("foo", [("Foo", "foo")]) ∧
    replacingStrategy.toDBName rep [("Foo", "foo")] "Foo" = some ("foo", [("Foo", "foo")]) ∧
    replacingStrategy.toDBName rep reset "Foo" = some ("bar", [("Bar", "bar")]) ∧
    replacingStrategy.toDBName rep [("Bar", "bar")] "Bar" = some ("bar", [("Bar", "bar")]) ∧
    replacingStrategy.toDBName rep reset "Bar" = some ("baz", [("Baz", "baz")]) := by
  have e1 : fooBarReplacer "Foo" = "Bar" := by decide
  have e2 : fooBarReplacer "Bar" = "Baz" := by decide
  refine ⟨?_, ?_, ?_, ?_, ?_⟩
  · simp only [NamingStrategy.toDBName, plainStrategy, reset, Smap.Load, List.lookup, h1]
    decide
  · have hl : List.lookup "Foo" [("Foo", "foo")] = some "foo" := by decide
    simp only [NamingStrategy.toDBName, Smap.Load, hl]
    rw [if_neg (by decide)]
  · simp only [NamingStrategy.toDBName, replacingStrategy, reset, Smap.Load, List.lookup, e1, h2]
    decide
  · have hl : List.lookup "Bar" [("Bar", "bar")] = some "bar" := by decide
    simp only [NamingStrategy.toDBName, Smap.Load, hl]
    rw [if_neg (by decide)]
  · simp only [NamingStrategy.toDBName, replacingStrategy, reset, Smap.Load, List.lookup, e2, h3]
    decide

/-- C19, evaluated with the identity in place of the initialism replacer. -/
theorem smap_cache_leaks_witness :
    (fun s : String => s) "Foo" = "Foo" ∧
    plainStrategy.toDBName (fun s => s) reset "Foo" = some ("foo", [("Foo", "foo")]) ∧
    replacingStrategy.toDBName (fun s => s) [("Foo", "foo")] "Foo" =
      some ("foo", [("Foo", "foo")]) ∧
    replacingStrategy.toDBName (fun s => s) reset "Foo" = some ("bar", [("Bar", "bar")]) ∧
    replacingStrategy.toDBName (fun s => s) [("Bar", "bar")] "Bar" =
      some ("bar", [("Bar", "bar")]) ∧
    replacingStrategy.toDBName (fun s => s) reset "Bar" = some ("baz", [("Baz", "baz")]) :=
  ⟨rfl, smap_cache_leaks (fun s => s) rfl rfl rfl⟩

/-! ## The record of calls -/

theorem beforeStepLog_fst (names : List String)
    {recurL : Nat → SortState → Option (SortState × List CallEvent)}
    {recur : Nat → SortState → Option SortState}
    (hrec : ∀ i s, (recurL i s).map Prod.fst = recur i s) (c : callbackProcessor)
    (st : SortState) :
    (beforeStepLog names recurL c st).map Prod.fst = beforeStep names recur c st := by
  unfold beforeStepLog beforeStep
  split
  · split
    · rfl
    · split
      · exact hrec _ _
      · rfl
  · rfl

theorem afterStepLog_fst (names : List String)
    {recurL : Nat → SortState → Option (SortState × List CallEvent)}
    {recur : Nat → SortState → Option SortState}
    (hrec : ∀ i s, (recurL i s).map Prod.fst = recur i s) (c : callbackProcessor)
    (st : SortState) :
    (afterStepLog names recurL c st).map Prod.fst = afterStep names recur c st := by
  unfold afterStepLog afterStep
  split
  · split
    · rfl
    · split
      · split
        · rfl
        · exact hrec _ _
      · rfl
  · rfl

theorem sortCallbackProcessorLog_fst (names : List String) :
    ∀ (fuel : Nat) (nested : Bool) (ci : Nat) (st : SortState),
      (sortCallbackProcessorLog names fuel nested ci st).map Prod.fst =
        sortCallbackProcessor names fuel ci st := by
  intro fuel
  induction fuel with
  | zero => intro nested ci st; rfl
  | succ k ih =>
    intro nested ci st
    unfold sortCallbackProcessorLog sortCallbackProcessor
    cases hc : st.cps[ci]? with
    | none => rfl
    | some c =>
      simp only
      split
      · rfl
      · have h1 := beforeStepLog_fst names (ih true) c st
        cases hb : beforeStepLog names (sortCallbackProcessorLog names k true) c st with
        | none =>
          rw [hb] at h1
          rw [← h1]
          rfl
        | some r1 =>
          rw [hb] at h1
          rw [← h1]
          simp only [Option.map_some', Option.some_bind]
          have h2 := afterStepLog_fst names (ih true) c r1.1
          cases ha : afterStepLog names (sortCallbackProcessorLog names k true) c r1.1 with
          | none =>
            rw [ha] at h2
            rw [← h2]
            rfl
          | some r2 =>
            rw [ha] at h2
            rw [← h2]
            rfl

theorem sortLoopLog_fst (names : List String) (fuel : Nat) :
    ∀ (is : List Nat) (st : SortState),
      (sortLoopLog names fuel is st).map Prod.fst = sortLoop names fuel is st := by
  intro is
  induction is with
  | nil => intro st; rfl
  | cons ci rest ih =>
    intro st
    unfold sortLoopLog sortLoop
    have h1 := sortCallbackProcessorLog_fst names fuel false ci st
    cases hc : sortCallbackProcessorLog names fuel false ci st with
    | none =>
      rw [hc] at h1
      rw [← h1]
      rfl
    | some r1 =>
      rw [hc] at h1
      rw [← h1]
      simp only [Option.map_some', Option.some_bind]
      rw [← ih r1.1]
      cases sortLoopLog names fuel rest r1.1 <;> rfl

theorem sortProcessorsLog_fst (cps : List callbackProcessor) :
    (sortProcessorsLog cps).map Prod.fst = sortProcessorsState cps :=
  sortLoopLog_fst _ _ _ _

/-! ## Every call of a resolution; runs that differ in an entry never consulted -/

theorem Grows.placedBefore {names : List String} {a b : SortState} {n X : String}
    (g : Grows names a b) (hp : PlacedBefore n X a.sortedNames) :
    PlacedBefore n X b.sortedNames := by
  obtain ⟨m1, m2, hm, h1, h2, hX⟩ := hp
  obtain ⟨k1, k2, hk, hk1, hk2, hside⟩ := g.split hm h1 h2
  exact ⟨k1, k2, hk, hk1, hk2, ((hside X (by rw [hm]; simp [hX])).2).mpr hX⟩

theorem PlacedBefore.insert {n X x : String} {l : List String} (hp : PlacedBefore n X l)
    (hx : x ≠ n) (i : Nat) : PlacedBefore n X (insertAt l i x) := by
  obtain ⟨m1, m2, hm, h1, h2, hX⟩ := hp
  unfold insertAt
  have hsplit : l.take i ++ l.drop i = m1 ++ n :: m2 := by rw [List.take_append_drop, hm]
  rcases List.append_eq_append_iff.mp hsplit with ⟨a', ha1, ha2⟩ | ⟨c', hc1, hc2⟩
  · refine ⟨l.take i ++ x :: a', m2, ?_, ?_, h2, hX⟩
    · rw [ha2]; simp
    · intro hmem
      rw [ha1] at h1
      rcases List.mem_append.mp hmem with h | h
      · exact h1 (List.mem_append_left _ h)
      · rcases List.mem_cons.mp h with h | h
        · exact hx h.symm
        · exact h1 (List.mem_append_right _ h)
  · cases c' with
    | nil =>
      simp only [List.append_nil, List.nil_append] at hc1 hc2
      refine ⟨m1 ++ [x], m2, ?_, ?_, h2, hX⟩
      · rw [hc1, ← hc2]; simp
      · intro hmem
        rcases List.mem_append.mp hmem with h | h
        · exact h1 h
        · have hxn : x = n := (List.mem_singleton.mp h).symm
          exact hx hxn
    | cons y c'' =>
      simp only [List.cons_append, List.cons.injEq] at hc2
      obtain ⟨hy, hm2⟩ := hc2
      subst hy
      refine ⟨m1, c'' ++ x :: l.drop i, ?_, h1, ?_, ?_⟩
      · rw [hc1]; simp
      · intro hmem
        rw [hm2] at h2
        rcases List.mem_append.mp hmem with h | h
        · exact h2 (List.mem_append_left _ h)
        · rcases List.mem_cons.mp h with h | h
          · exact hx h.symm
          · exact h2 (List.mem_append_right _ h)
      · rw [hm2] at hX
        rcases List.mem_append.mp hX with h | h
        · exact List.mem_append_left _ h
        · exact List.mem_append_right _ (List.mem_cons_of_mem _ h)

theorem PlacedBefore.append {n X x : String} {l : List String} (hp : PlacedBefore n X l)
    (hx : x ≠ n) : PlacedBefore n X (l ++ [x]) := by
  have := hp.insert hx l.length
  simpa [insertAt] using this

theorem PlacedBefore.mem {n X : String} {l : List String} (hp : PlacedBefore n X l) : n ∈ l := by
  obtain ⟨m1, m2, hm, _⟩ := hp
  rw [hm]; simp

theorem finalStep_placedBefore {n X : String} (c : callbackProcessor) {s : SortState}
    (hp : PlacedBefore n X s.sortedNames) : PlacedBefore n X (finalStep c s).sortedNames := by
  unfold finalStep
  split
  · rename_i hnone
    have hc : c.name ∉ s.sortedNames := getRIndex_isNone.mp hnone
    exact hp.append (fun h => hc (h ▸ hp.mem))
  · exact hp

theorem afterStep_placedBefore {names : List String} {k : Nat} {c : callbackProcessor}
    {s s2 : SortState} {n X : String} (hna : namesOf s.cps = names) (hne : c.name ≠ n)
    (hp : PlacedBefore n X s.sortedNames)
    (h : afterStep names (sortCallbackProcessor names k) c s = some s2) :
    PlacedBefore n X s2.sortedNames := by
  by_cases ha : c.after = ""
  · rw [afterStep_unset names _ s ha] at h
    cases h
    exact hp
  · cases h1 : getRIndex s.sortedNames c.after with
    | some index =>
      rw [afterStep_inserts names _ ha h1] at h
      cases h
      exact hp.insert hne _
    | none =>
      cases h2 : getRIndex names c.after with
      | none =>
        rw [afterStep_appends _ ha h1 h2] at h
        cases h
        exact hp.append hne
      | some index =>
        cases h3 : s.cps[index]? with
        | none => rw [afterStep_panics _ ha h1 h2 h3] at h; cases h
        | some cp =>
          rw [afterStep_recurs _ ha h1 h2 h3] at h
          have hna' : namesOf (if cp.before = "" then s.cps.set index { cp with before := c.name }
              else s.cps) = names := by
            split
            · rw [← hna]; exact namesOf_set_same h3 rfl
            · exact hna
          have g := sortCallbackProcessor_grows names k index _ s2 hna' h
          exact g.placedBefore hp

theorem beforeStepLog_keep {names : List String}
    {recurL : Nat → SortState → Option (SortState × List CallEvent)}
    (hrec : ∀ (i : Nat) (s r : SortState) (lg : List CallEvent), namesOf s.cps = names →
      recurL i s = some (r, lg) →
      ∀ ev, ev ∈ lg → (∀ n, n ∈ s.sortedNames → n ∈ ev.st.sortedNames) ∧
        ∀ (c : callbackProcessor) (X : String), BeforeCall ev c X →
          PlacedBefore c.name X r.sortedNames)
    {c : callbackProcessor} {st r : SortState} {lg : List CallEvent}
    (hna : namesOf st.cps = names) (h : beforeStepLog names recurL c st = some (r, lg)) :
    ∀ ev, ev ∈ lg → (∀ n, n ∈ st.sortedNames ++ [c.name] → n ∈ ev.st.sortedNames) ∧
      ∀ (c' : callbackProcessor) (X : String), BeforeCall ev c' X →
        PlacedBefore c'.name X r.sortedNames := by
  unfold beforeStepLog at h
  split at h
  · split at h
    · cases h
      intro ev hev
      simp at hev
    · split at h
      · exact hrec _ { st with sortedNames := st.sortedNames ++ [c.name] } _ _ hna h
      · cases h
        intro ev hev
        simp at hev
  · cases h
    intro ev hev
    simp at hev

theorem afterStepLog_keep {names : List String}
    {recurL : Nat → SortState → Option (SortState × List CallEvent)}
    (hrec : ∀ (i : Nat) (s r : SortState) (lg : List CallEvent), namesOf s.cps = names →
      recurL i s = some (r, lg) →
      ∀ ev, ev ∈ lg → (∀ n, n ∈ s.sortedNames → n ∈ ev.st.sortedNames) ∧
        ∀ (c : callbackProcessor) (X : String), BeforeCall ev c X →
          PlacedBefore c.name X r.sortedNames)
    {c : callbackProcessor} {st r : SortState} {lg : List CallEvent}
    (hna : namesOf st.cps = names) (h : afterStepLog names recurL c st = some (r, lg)) :
    ∀ ev, ev ∈ lg → (∀ n, n ∈ st.sortedNames → n ∈ ev.st.sortedNames) ∧
      ∀ (c' : callbackProcessor) (X : String), BeforeCall ev c' X →
        PlacedBefore c'.name X r.sortedNames := by
  unfold afterStepLog at h
  split at h
  · split at h
    · cases h
      intro ev hev
      simp at hev
    · split at h
      · split at h
        · cases h
        · rename_i index _ _ cp hcp
          have hna' : namesOf (if cp.before = "" then
              st.cps.set index { cp with before := c.name } else st.cps) = names := by
            split
            · rw [← hna]; exact namesOf_set_same hcp rfl
            · exact hna
          have key := fun hh => hrec _ _ r lg hh h
          exact key hna'
      · cases h
        intro ev hev
        simp at hev
  · cases h
    intro ev hev
    simp at hev

theorem call_before_placedBefore {names : List String} {st : SortState} {ci : Nat}
    {c : callbackProcessor} {X : String} (hc : st.cps[ci]? = some c)
    (hn : c.name ∉ st.sortedNames) (ha : c.after = "") (hb : c.before = X) (hX : X ≠ "")
    (hXin : X ∈ st.sortedNames) (fuel : Nat) :
    ∃ r, sortCallbackProcessor names (fuel + 1) ci st = some r ∧
      PlacedBefore c.name X r.sortedNames := by
  obtain ⟨i, hi⟩ := getRIndex_of_mem hXin
  obtain ⟨_, _, _, hdrop⟩ := getRIndex_split hi
  refine ⟨_, call_before_placed hc hn ha (hb ▸ hX) (hb ▸ hi) fuel, ?_⟩
  refine ⟨st.sortedNames.take i, X :: st.sortedNames.drop (i + 1), ?_, ?_, ?_, by simp⟩
  · show insertAt st.sortedNames i c.name = _
    rw [insertAt, hdrop]
  · exact fun h => hn (List.mem_of_mem_take h)
  · intro h
    rcases List.mem_cons.mp h with h | h
    · exact hn (h ▸ hXin)
    · exact hn (List.mem_of_mem_drop h)

theorem sortCallbackProcessorLog_keep (names : List String) :
    ∀ (fuel : Nat) (nested : Bool) (ci : Nat) (st r : SortState) (lg : List CallEvent),
      namesOf st.cps = names →
      sortCallbackProcessorLog names fuel nested ci st = some (r, lg) →
      ∀ ev, ev ∈ lg → (∀ n, n ∈ st.sortedNames → n ∈ ev.st.sortedNames) ∧
        ∀ (c : callbackProcessor) (X : String), BeforeCall ev c X →
          PlacedBefore c.name X r.sortedNames := by
  intro fuel
  induction fuel with
  | zero => intro nested ci st r lg _ h; simp [sortCallbackProcessorLog] at h
  | succ k ih =>
    intro nested ci st r lg hna h
    have hera := sortCallbackProcessorLog_fst names (k + 1) nested ci st
    rw [h] at hera
    simp only [Option.map_some'] at hera
    unfold sortCallbackProcessorLog at h
    cases hc : st.cps[ci]? with
    | none => simp [hc] at h
    | some c =>
      simp only [hc] at h
      by_cases hp : c.name ∈ st.sortedNames
      · rw [if_pos (getRIndex_isSome.mpr hp)] at h
        cases h
        intro ev hev
        have hev0 : ev = { nested := nested, ci := ci, st := st } := by simpa using hev
        subst hev0
        refine ⟨fun n hn => hn, ?_⟩
        intro c' X hbc
        obtain ⟨hc', hn', _⟩ := hbc
        have hcc : c' = c := by
          have : some c' = some c := hc'.symm.trans hc
          exact Option.some.inj this
        exact absurd (hcc ▸ hp) hn'
      · rw [if_neg (by rw [getRIndex_isSome]; exact hp)] at h
        cases hb : beforeStepLog names (sortCallbackProcessorLog names k true) c st with
        | none => simp [hb] at h
        | some r1 =>
          obtain ⟨s1, lg1⟩ := r1
          rw [hb, Option.some_bind] at h
          cases ha : afterStepLog names (sortCallbackProcessorLog names k true) c s1 with
          | none => simp [ha] at h
          | some r2 =>
            obtain ⟨s2, lg2⟩ := r2
            rw [ha, Option.some_bind] at h
            cases h
            have h1u : beforeStep names (sortCallbackProcessor names k) c st = some s1 := by
              rw [← beforeStepLog_fst names (sortCallbackProcessorLog_fst names k true) c st, hb]
              rfl
            have h2u : afterStep names (sortCallbackProcessor names k) c s1 = some s2 := by
              rw [← afterStepLog_fst names (sortCallbackProcessorLog_fst names k true) c s1, ha]
              rfl
            have hm : c.name ∈ names := by
              rw [← hna]
              exact List.mem_map.mpr ⟨c, List.mem_iff_getElem?.mpr ⟨ci, hc⟩, rfl⟩
            have g1 : Grows names st s1 :=
              beforeStep_grows (fun i s s' hs hr => sortCallbackProcessor_grows names k i s s' hs hr)
                (Grows.refl names st) hna hp hm h1u
            have hna1 : namesOf s1.cps = names := g1.names_eq.trans hna
            have k1 := beforeStepLog_keep (ih true) hna hb
            have k2 := afterStepLog_keep (ih true) hna1 ha
            intro ev hev
            rcases List.mem_cons.mp hev with hev0 | hev'
            · subst hev0
              refine ⟨fun n hn => hn, ?_⟩
              intro c' X hbc
              obtain ⟨hc', hn', ha', hb', hX, hXin⟩ := hbc
              have hcc : c' = c := by
                have : some c' = some c := hc'.symm.trans hc
                exact Option.some.inj this
              subst hcc
              obtain ⟨r', hr', hpb⟩ := @call_before_placedBefore names _ _ _ _ hc hn' ha' hb' hX
                hXin k
              rw [hr'] at hera
              have : finalStep c' s2 = r' := Option.some.inj hera
              rw [this]
              exact hpb
            · rcases List.mem_append.mp hev' with hev1 | hev2
              · obtain ⟨hsub, hkeep⟩ := k1 ev hev1
                refine ⟨fun n hn => hsub n (List.mem_append_left _ hn), ?_⟩
                intro c' X hbc
                have hcin : c.name ∈ ev.st.sortedNames := hsub c.name (by simp)
                have hne : c.name ≠ c'.name := fun e => hbc.2.1 (e ▸ hcin)
                exact finalStep_placedBefore c
                  (afterStep_placedBefore hna1 hne (hkeep c' X hbc) h2u)
              · obtain ⟨hsub, hkeep⟩ := k2 ev hev2
                refine ⟨fun n hn => hsub n (g1.subset n hn), ?_⟩
                intro c' X hbc
                exact finalStep_placedBefore c (hkeep c' X hbc)

theorem sortLoopLog_keep (names : List String) (fuel : Nat) :
    ∀ (is : List Nat) (st r : SortState) (lg : List CallEvent), namesOf st.cps = names →
      sortLoopLog names fuel is st = some (r, lg) →
      ∀ ev, ev ∈ lg → ∀ (c : callbackProcessor) (X : String), BeforeCall ev c X →
        PlacedBefore c.name X r.sortedNames := by
  intro is
  induction is with
  | nil =>
    intro st r lg _ h
    simp only [sortLoopLog, Option.some.injEq, Prod.mk.injEq] at h
    obtain ⟨_, h2⟩ := h
    subst h2
    intro ev hev
    simp at hev
  | cons ci rest ih =>
    intro st r lg hna h
    unfold sortLoopLog at h
    cases h1 : sortCallbackProcessorLog names fuel false ci st with
    | none => simp [h1] at h
    | some r1 =>
      rw [h1, Option.some_bind] at h
      cases h2 : sortLoopLog names fuel rest r1.1 with
      | none => simp [h2] at h
      | some r2 =>
        rw [h2] at h
        cases h
        have h1u : sortCallbackProcessor names fuel ci st = some r1.1 := by
          rw [← sortCallbackProcessorLog_fst names fuel false ci st, h1]; rfl
        have h2u : sortLoop names fuel rest r1.1 = some r2.1 := by
          rw [← sortLoopLog_fst names fuel rest r1.1, h2]; rfl
        have g1 := sortCallbackProcessor_grows names fuel ci st r1.1 hna h1u
        have hna1 : namesOf r1.1.cps = names := g1.names_eq.trans hna
        have g2 := sortLoop_grows names fuel rest r1.1 r2.1 hna1 h2u
        intro ev hev c X hbc
        rcases List.mem_append.mp hev with hev1 | hev2
        · exact g2.placedBefore
            ((sortCallbackProcessorLog_keep names fuel false ci st r1.1 r1.2 hna h1 ev hev1).2
              c X hbc)
        · exact ih r1.1 r2.1 r2.2 hna1 h2 ev hev2 c X hbc

theorem sortProcessorsLog_returns (cps : List callbackProcessor) :
    ∃ final lg, sortProcessorsLog cps = some (final, lg) ∧
      sortProcessorsState cps = some final := by
  obtain ⟨st, hst, _, _⟩ := sortProcessorsState_spec cps
  have h := sortProcessorsLog_fst cps
  rw [hst] at h
  cases hl : sortProcessorsLog cps with
  | none => simp [hl] at h
  | some r =>
    rw [hl] at h
    simp only [Option.map_some', Option.some.injEq] at h
    exact ⟨r.1, r.2, rfl, by rw [h]; exact hst⟩

theorem Agree.map_sorted {j : Nat} {s s' : SortState} (h : Agree j s s')
    (f : List String → List String) :
    Agree j { s with sortedNames := f s.sortedNames }
      { s' with sortedNames := f s'.sortedNames } where
  sorted := by show f s'.sortedNames = f s.sortedNames; rw [h.sorted]
  entry := h.entry

theorem Agree.set_entry {j : Nat} {s s' : SortState} (h : Agree j s s') {index : Nat}
    {cp : callbackProcessor} (hne : index ≠ j) (hcp : s.cps[index]? = some cp)
    (v : callbackProcessor) :
    Agree j { s with cps := s.cps.set index v } { s' with cps := s'.cps.set index v } where
  sorted := h.sorted
  entry := by
    intro i hi
    show (s'.cps.set index v)[i]? = (s.cps.set index v)[i]?
    have hcp' : s'.cps[index]? = some cp := (h.entry index hne).trans hcp
    have hl : index < s.cps.length := by
      by_contra hge
      rw [List.getElem?_eq_none (by omega)] at hcp
      simp at hcp
    have hl' : index < s'.cps.length := by
      by_contra hge
      rw [List.getElem?_eq_none (by omega)] at hcp'
      simp at hcp'
    by_cases hii : index = i
    · subst hii
      rw [List.getElem?_set_self hl, List.getElem?_set_self hl']
    · rw [List.getElem?_set_ne hii, List.getElem?_set_ne hii]
      exact h.entry i hi

theorem sortCallbackProcessorLog_head (names : List String) :
    ∀ (fuel : Nat) (nested : Bool) (ci : Nat) (s r : SortState) (lg : List CallEvent),
      sortCallbackProcessorLog names fuel nested ci s = some (r, lg) →
      ({ nested := nested, ci := ci, st := s } : CallEvent) ∈ lg := by
  intro fuel nested ci s r lg h
  cases fuel with
  | zero => simp [sortCallbackProcessorLog] at h
  | succ k =>
    unfold sortCallbackProcessorLog at h
    cases hc : s.cps[ci]? with
    | none => simp [hc] at h
    | some c =>
      simp only [hc] at h
      split at h
      · cases h
        simp
      · cases hb : beforeStepLog names (sortCallbackProcessorLog names k true) c s with
        | none => simp [hb] at h
        | some r1 =>
          rw [hb, Option.some_bind] at h
          cases ha : afterStepLog names (sortCallbackProcessorLog names k true) c r1.1 with
          | none => simp [ha] at h
          | some r2 =>
            rw [ha, Option.some_bind] at h
            cases h
            simp

theorem pulls_false_placed {ev : CallEvent} {h : String} {c : callbackProcessor}
    (hp : ev.pulls h = false) (hn : ev.nested = true) (hc : ev.st.cps[ev.ci]? = some c)
    (hname : c.name = h) : h ∈ ev.st.sortedNames := by
  unfold CallEvent.pulls at hp
  rw [hn, hc] at hp
  simp [hname] at hp
  exact hp

theorem beforeStepLog_sim {names names' : List String} {h : String} {j : Nat}
    (D : Detour names names' h j)
    {recurL : Nat → SortState → Option (SortState × List CallEvent)}
    {recur' : Nat → SortState → Option SortState}
    (hhead : ∀ idx s r lg, recurL idx s = some (r, lg) →
      ({ nested := true, ci := idx, st := s } : CallEvent) ∈ lg)
    (hrec : ∀ (ci ci' : Nat) (s s' r : SortState) (lg : List CallEvent),
      recurL ci s = some (r, lg) → (∀ ev, ev ∈ lg → ev.pulls h = false) → Agree j s s' →
      namesOf s.cps = names → namesOf s'.cps = names' → Twin h j ci ci' s →
      ∃ r', recur' ci' s' = some r' ∧ Agree j r r')
    {c : callbackProcessor} {s s' r : SortState} {lg : List CallEvent}
    (hlog : beforeStepLog names recurL c s = some (r, lg))
    (hnp : ∀ ev, ev ∈ lg → ev.pulls h = false) (hs : Agree j s s')
    (hna : namesOf s.cps = names) (hna' : namesOf s'.cps = names') :
    ∃ r', beforeStep names' recur' c s' = some r' ∧ Agree j r r' := by
  unfold beforeStepLog at hlog
  by_cases hb : c.before = ""
  · rw [if_neg (by simp [hb])] at hlog
    cases hlog
    exact ⟨s', beforeStep_unset names' recur' s' hb, hs⟩
  · rw [if_pos hb] at hlog
    cases h1 : getRIndex s.sortedNames c.before with
    | some index =>
      simp only [h1] at hlog
      cases hlog
      refine ⟨_, beforeStep_inserts names' recur' hb (by rw [hs.sorted]; exact h1), ?_⟩
      have := hs.map_sorted (fun l => insertAt l index c.name)
      exact this
    | none =>
      simp only [h1] at hlog
      have h1' : getRIndex s'.sortedNames c.before = none := by rw [hs.sorted]; exact h1
      cases h2 : getRIndex names c.before with
      | none =>
        simp only [h2] at hlog
        cases hlog
        have hxh : c.before ≠ h := by
          intro e
          rw [e] at h2
          exact (getRIndex_eq_none.mp h2) D.known
        refine ⟨_, beforeStep_appends recur' hb h1' (by rw [D.other _ hxh]; exact h2), ?_⟩
        exact hs.map_sorted (fun l => l ++ [c.name])
      | some idx =>
        simp only [h2] at hlog
        have hs1 := hs.map_sorted (fun l => l ++ [c.name])
        by_cases hxh : c.before = h
        · have hev := hnp _ (hhead _ _ _ _ hlog)
          rw [hxh] at h2
          obtain ⟨e, he, hen⟩ := entry_of_names hna (getRIndex_some h2).2.1
          have hpl : h ∈ s.sortedNames ++ [c.name] :=
            pulls_false_placed hev rfl he hen
          rw [beforeStep_recurs recur' hb h1' (by rw [hxh]; exact D.self)]
          exact hrec idx j _ _ r lg hlog hnp hs1 hna hna' (Or.inr ⟨hpl, ⟨e, he, hen⟩, rfl⟩)
        · rw [beforeStep_recurs recur' hb h1' (by rw [D.other _ hxh]; exact h2)]
          exact hrec idx idx _ _ r lg hlog hnp hs1 hna hna' (Or.inl ⟨rfl, D.apart _ _ hxh h2⟩)

theorem afterStepLog_sim {names names' : List String} {h : String} {j : Nat}
    (D : Detour names names' h j)
    {recurL : Nat → SortState → Option (SortState × List CallEvent)}
    {recur' : Nat → SortState → Option SortState}
    (hhead : ∀ idx s r lg, recurL idx s = some (r, lg) →
      ({ nested := true, ci := idx, st := s } : CallEvent) ∈ lg)
    (hrec : ∀ (ci ci' : Nat) (s s' r : SortState) (lg : List CallEvent),
      recurL ci s = some (r, lg) → (∀ ev, ev ∈ lg → ev.pulls h = false) → Agree j s s' →
      namesOf s.cps = names → namesOf s'.cps = names' → Twin h j ci ci' s →
      ∃ r', recur' ci' s' = some r' ∧ Agree j r r')
    {c : callbackProcessor} {s s' r : SortState} {lg : List CallEvent}
    (hlog : afterStepLog names recurL c s = some (r, lg))
    (hnp : ∀ ev, ev ∈ lg → ev.pulls h = false) (hs : Agree j s s')
    (hna : namesOf s.cps = names) (hna' : namesOf s'.cps = names') :
    ∃ r', afterStep names' recur' c s' = some r' ∧ Agree j r r' := by
  unfold afterStepLog at hlog
  by_cases ha : c.after = ""
  · rw [if_neg (by simp [ha])] at hlog
    cases hlog
    exact ⟨s', afterStep_unset names' recur' s' ha, hs⟩
  · rw [if_pos ha] at hlog
    cases h1 : getRIndex s.sortedNames c.after with
    | some index =>
      simp only [h1] at hlog
      cases hlog
      refine ⟨_, afterStep_inserts names' recur' ha (by rw [hs.sorted]; exact h1), ?_⟩
      exact hs.map_sorted (fun l => insertAt l (index + 1) c.name)
    | none =>
      simp only [h1] at hlog
      have h1' : getRIndex s'.sortedNames c.after = none := by rw [hs.sorted]; exact h1
      cases h2 : getRIndex names c.after with
      | none =>
        simp only [h2] at hlog
        cases hlog
        have hxh : c.after ≠ h := by
          intro e
          rw [e] at h2
          exact (getRIndex_eq_none.mp h2) D.known
        refine ⟨_, afterStep_appends recur' ha h1' (by rw [D.other _ hxh]; exact h2), ?_⟩
        exact hs.map_sorted (fun l => l ++ [c.name])
      | some idx =>
        simp only [h2] at hlog
        cases h3 : s.cps[idx]? with
        | none => simp [h3] at hlog
        | some cp =>
          simp only [h3] at hlog
          have hxh : c.after ≠ h := by
            intro e
            have hev := hnp _ (hhead _ _ _ _ hlog)
            have hcpn : cp.name = h := by
              obtain ⟨e', he', hen'⟩ := entry_of_names hna (getRIndex_some h2).2.1
              rw [h3] at he'
              cases he'
              rw [hen', e]
            have hpl : h ∈ s.sortedNames := by
              by_cases hcb : cp.before = ""
              · simp only [hcb, if_true] at hev
                refine pulls_false_placed (c := { cp with before := c.name }) hev rfl ?_ hcpn
                show (s.cps.set idx _)[idx]? = _
                have hl : idx < s.cps.length := by
                  by_contra hge
                  rw [List.getElem?_eq_none (by omega)] at h3
                  simp at h3
                rw [List.getElem?_set_self hl]
              · simp only [hcb, if_false] at hev
                exact pulls_false_placed hev rfl h3 hcpn
            rw [e] at h1
            exact (getRIndex_eq_none.mp h1) hpl
          have hne : idx ≠ j := D.apart _ _ hxh h2
          have h3' : s'.cps[idx]? = some cp := (hs.entry idx hne).trans h3
          rw [afterStep_recurs recur' ha h1' (by rw [D.other _ hxh]; exact h2) h3']
          by_cases hcb : cp.before = ""
          · simp only [hcb, if_true] at hlog ⊢
            refine hrec idx idx _ _ r lg hlog hnp (hs.set_entry hne h3 _) ?_ ?_ (Or.inl ⟨rfl, hne⟩)
            · show namesOf (s.cps.set idx _) = names
              rw [← hna]; exact namesOf_set_same h3 rfl
            · show namesOf (s'.cps.set idx _) = names'
              rw [← hna']; exact namesOf_set_same h3' rfl
          · simp only [hcb, if_false] at hlog ⊢
            exact hrec idx idx _ _ r lg hlog hnp hs hna hna' (Or.inl ⟨rfl, hne⟩)

theorem finalStep_agree {j : Nat} {s s' : SortState} (c : callbackProcessor)
    (hs : Agree j s s') : Agree j (finalStep c s) (finalStep c s') := by
  obtain ⟨cps', sn'⟩ := s'
  have hsn : sn' = s.sortedNames := hs.sorted
  subst hsn
  unfold finalStep
  split
  · exact hs.map_sorted (fun l => l ++ [c.name])
  · exact hs

theorem sortCallbackProcessorLog_sim {names names' : List String} {h : String} {j : Nat}
    (D : Detour names names' h j) :
    ∀ (fuel : Nat) (nested : Bool) (ci ci' : Nat) (s s' r : SortState) (lg : List CallEvent),
      sortCallbackProcessorLog names fuel nested ci s = some (r, lg) →
      (∀ ev, ev ∈ lg → ev.pulls h = false) → Agree j s s' →
      namesOf s.cps = names → namesOf s'.cps = names' → Twin h j ci ci' s →
      ∃ r', sortCallbackProcessor names' fuel ci' s' = some r' ∧ Agree j r r' := by
  intro fuel
  induction fuel with
  | zero => intro nested ci ci' s s' r lg hlog; simp [sortCallbackProcessorLog] at hlog
  | succ k ih =>
    intro nested ci ci' s s' r lg hlog hnp hs hna hna' htw
    unfold sortCallbackProcessorLog at hlog
    rcases htw with ⟨rfl, hne⟩ | ⟨hpl, ⟨e, he, hen⟩, rfl⟩
    · have hent := hs.entry ci' hne
      cases hc : s.cps[ci']? with
      | none => simp [hc] at hlog
      | some c =>
        simp only [hc] at hlog
        have hc' : s'.cps[ci']? = some c := hent.trans hc
        by_cases hp : c.name ∈ s.sortedNames
        · rw [if_pos (getRIndex_isSome.mpr hp)] at hlog
          cases hlog
          exact ⟨s', call_placed hc' (by rw [hs.sorted]; exact hp) k, hs⟩
        · rw [if_neg (by rw [getRIndex_isSome]; exact hp)] at hlog
          have hp' : c.name ∉ s'.sortedNames := by rw [hs.sorted]; exact hp
          cases hb : beforeStepLog names (sortCallbackProcessorLog names k true) c s with
          | none => simp [hb] at hlog
          | some r1 =>
            obtain ⟨s1, lg1⟩ := r1
            rw [hb, Option.some_bind] at hlog
            cases ha : afterStepLog names (sortCallbackProcessorLog names k true) c s1 with
            | none => simp [ha] at hlog
            | some r2 =>
              obtain ⟨s2, lg2⟩ := r2
              rw [ha, Option.some_bind] at hlog
              cases hlog
              have hnp1 : ∀ ev, ev ∈ lg1 → ev.pulls h = false := fun ev hev =>
                hnp ev (List.mem_cons_of_mem _ (List.mem_append_left _ hev))
              have hnp2 : ∀ ev, ev ∈ lg2 → ev.pulls h = false := fun ev hev =>
                hnp ev (List.mem_cons_of_mem _ (List.mem_append_right _ hev))
              have hrec : ∀ (ci ci' : Nat) (s s' r : SortState) (lg : List CallEvent),
                  sortCallbackProcessorLog names k true ci s = some (r, lg) →
                  (∀ ev, ev ∈ lg → ev.pulls h = false) → Agree j s s' →
                  namesOf s.cps = names → namesOf s'.cps = names' → Twin h j ci ci' s →
                  ∃ r', sortCallbackProcessor names' k ci' s' = some r' ∧ Agree j r r' :=
                fun ci ci' s s' r lg => ih true ci ci' s s' r lg
              have hhead := sortCallbackProcessorLog_head names k true
              obtain ⟨s1', hb', a1⟩ := beforeStepLog_sim D hhead hrec hb hnp1 hs hna hna'
              have h1u : beforeStep names (sortCallbackProcessor names k) c s = some s1 := by
                rw [← beforeStepLog_fst names (sortCallbackProcessorLog_fst names k true) c s, hb]
                rfl
              have g1 : Grows names s s1 :=
                beforeStep_grows
                  (fun i s s' hs hr => sortCallbackProcessor_grows names k i s s' hs hr)
                  (Grows.refl names s) hna hp (hna ▸ name_mem_namesOf hc) h1u
              have g1' : Grows names' s' s1' :=
                beforeStep_grows
                  (fun i s s' hs hr => sortCallbackProcessor_grows names' k i s s' hs hr)
                  (Grows.refl names' s') hna' hp' (hna' ▸ name_mem_namesOf hc') hb'
              obtain ⟨s2', ha', a2⟩ := afterStepLog_sim D hhead hrec ha hnp2 a1
                (g1.names_eq.trans hna) (g1'.names_eq.trans hna')
              refine ⟨finalStep c s2', ?_, finalStep_agree c a2⟩
              rw [sortCallbackProcessor_unplaced names' k hc' hp', hb', Option.some_bind, ha',
                Option.some_bind]
    · rw [he] at hlog
      simp only at hlog
      rw [if_pos (getRIndex_isSome.mpr (hen ▸ hpl))] at hlog
      cases hlog
      obtain ⟨e', he', hen'⟩ := entry_of_names hna' (getRIndex_some D.self).2.1
      exact ⟨s', call_placed he' (by rw [hen', hs.sorted]; exact hpl) k, hs⟩

theorem sortLoopLog_sim {names names' : List String} {h : String} {j : Nat}
    (D : Detour names names' h j) (fuel : Nat) :
    ∀ (is : List Nat) (s s' r : SortState) (lg : List CallEvent),
      sortLoopLog names fuel is s = some (r, lg) →
      (∀ ev, ev ∈ lg → ev.pulls h = false) → Agree j s s' →
      namesOf s.cps = names → namesOf s'.cps = names' →
      ((h ∈ s.sortedNames ∧ names[j]? = some h) ∨ j ∉ is) →
      ∃ r', sortLoop names' fuel is s' = some r' ∧ Agree j r r' := by
  intro is
  induction is with
  | nil =>
    intro s s' r lg hlog _ hs _ _ _
    simp only [sortLoopLog, Option.some.injEq, Prod.mk.injEq] at hlog
    obtain ⟨h1, _⟩ := hlog
    subst h1
    exact ⟨s', rfl, hs⟩
  | cons ci rest ih =>
    intro s s' r lg hlog hnp hs hna hna' hor
    unfold sortLoopLog at hlog
    cases h1 : sortCallbackProcessorLog names fuel false ci s with
    | none => simp [h1] at hlog
    | some r1 =>
      obtain ⟨s1, lg1⟩ := r1
      rw [h1, Option.some_bind] at hlog
      cases h2 : sortLoopLog names fuel rest s1 with
      | none => simp [h2] at hlog
      | some r2 =>
        obtain ⟨s2, lg2⟩ := r2
        rw [h2] at hlog
        cases hlog
        have hcall : ∃ r', sortCallbackProcessor names' fuel ci s' = some r' ∧ Agree j s1 r' := by
          by_cases hci : ci = j
          · rcases hor with ⟨hpl, hnj⟩ | hnot
            · obtain ⟨e, he, hen⟩ := entry_of_names hna hnj
              have htw : Twin h j ci j s := Or.inr ⟨hpl, ⟨e, hci ▸ he, hen⟩, rfl⟩
              have key := sortCallbackProcessorLog_sim D fuel false ci j s s' s1 lg1 h1
                (fun ev hev => hnp ev (List.mem_append_left _ hev)) hs hna hna' htw
              rw [hci]
              exact key
            · exact absurd (hci ▸ List.mem_cons_self _ _) hnot
          · exact sortCallbackProcessorLog_sim D fuel false ci ci s s' s1 lg1 h1
              (fun ev hev => hnp ev (List.mem_append_left _ hev)) hs hna hna' (Or.inl ⟨rfl, hci⟩)
        obtain ⟨s1', h1', a1⟩ := hcall
        have h1u : sortCallbackProcessor names fuel ci s = some s1 := by
          rw [← sortCallbackProcessorLog_fst names fuel false ci s, h1]; rfl
        have g1 := sortCallbackProcessor_grows names fuel ci s s1 hna h1u
        have g1' := sortCallbackProcessor_grows names' fuel ci s' s1' hna' h1'
        obtain ⟨r', hr', ar⟩ := ih s1 s1' s2 lg2 h2
          (fun ev hev => hnp ev (List.mem_append_right _ hev)) a1 (g1.names_eq.trans hna)
          (g1'.names_eq.trans hna')
          (by
            rcases hor with ⟨hpl, hnj⟩ | hnot
            · exact Or.inl ⟨g1.subset h hpl, hnj⟩
            · exact Or.inr (fun hm => hnot (List.mem_cons_of_mem _ hm)))
        exact ⟨r', by simp [sortLoop, h1', hr'], ar⟩

theorem sortLoopLog_append (names : List String) (fuel : Nat) (ys : List Nat) :
    ∀ (xs : List Nat) (st : SortState),
      sortLoopLog names fuel (xs ++ ys) st =
        (sortLoopLog names fuel xs st).bind fun r1 =>
          (sortLoopLog names fuel ys r1.1).map fun r2 => (r2.1, r1.2 ++ r2.2) := by
  intro xs
  induction xs with
  | nil =>
    intro st
    simp only [List.nil_append, sortLoopLog, Option.some_bind]
    cases sortLoopLog names fuel ys st <;> rfl
  | cons x rest ih =>
    intro st
    have e1 : sortLoopLog names fuel (x :: rest ++ ys) st =
        (sortCallbackProcessorLog names fuel false x st).bind fun r1 =>
          (sortLoopLog names fuel (rest ++ ys) r1.1).map fun r2 => (r2.1, r1.2 ++ r2.2) := rfl
    have e2 : sortLoopLog names fuel (x :: rest) st =
        (sortCallbackProcessorLog names fuel false x st).bind fun r1 =>
          (sortLoopLog names fuel rest r1.1).map fun r2 => (r2.1, r1.2 ++ r2.2) := rfl
    rw [e1, e2]
    cases h1 : sortCallbackProcessorLog names fuel false x st with
    | none => rfl
    | some r1 =>
      simp only [Option.some_bind]
      rw [ih r1.1]
      cases h2 : sortLoopLog names fuel rest r1.1 with
      | none => rfl
      | some r2 =>
        simp only [Option.some_bind, Option.map_some']
        cases h3 : sortLoopLog names fuel ys r2.1 with
        | none => rfl
        | some r3 => simp [List.append_assoc]

theorem neverPulled_calls {cps : List callbackProcessor} {h : String} {final : SortState}
    {lg : List CallEvent} (hlog : sortProcessorsLog cps = some (final, lg))
    (hnp : neverPulled cps h = true) : ∀ ev, ev ∈ lg → ev.pulls h = false := by
  intro ev hev
  unfold neverPulled callsOf at hnp
  rw [hlog] at hnp
  have := List.all_eq_true.mp hnp ev hev
  simpa using this

theorem append_unpulled_order (cps : List callbackProcessor) (R : callbackProcessor)
    (h : String) (hmem : h ∈ namesOf cps) (hRn : R.name = h)
    (hnp : neverPulled cps h = true) :
    ∃ st st', sortProcessorsState cps = some st ∧
      sortProcessorsState (cps ++ [R]) = some st' ∧ st'.sortedNames = st.sortedNames ∧
      (∀ n, n ∈ st.sortedNames ↔ n ∈ namesOf cps) := by
  obtain ⟨st, hst, g, hall⟩ := sortProcessorsState_spec cps
  obtain ⟨final, lg, hlog, hfin⟩ := sortProcessorsLog_returns cps
  rw [hst] at hfin
  cases hfin
  have hlen : (namesOf cps).length = cps.length := by simp [namesOf]
  have hnames' : namesOf (cps ++ [R]) = namesOf cps ++ [h] := by simp [namesOf, hRn]
  have D : Detour (namesOf cps) (namesOf cps ++ [h]) h cps.length :=
    { other := fun x hx => getRIndex_append_ne (namesOf cps) hx
      apart := fun x idx _ hidx => by
        have := (getRIndex_some hidx).1
        omega
      self := by rw [getRIndex_append_self, hlen]
      known := hmem }
  have hA : Agree cps.length { cps := cps, sortedNames := [] }
      { cps := cps ++ [R], sortedNames := [] } :=
    { sorted := rfl
      entry := fun i hi => by
        show (cps ++ [R])[i]? = cps[i]?
        by_cases hlt : i < cps.length
        · exact List.getElem?_append_left hlt
        · rw [List.getElem?_eq_none (by simp; omega), List.getElem?_eq_none (by omega)] }
  unfold sortProcessorsLog at hlog
  obtain ⟨r', hr', ar⟩ := sortLoopLog_sim D (sortFuel cps) _ _ _ _ _ hlog
    (neverPulled_calls (by unfold sortProcessorsLog; exact hlog) hnp) hA rfl hnames'
    (Or.inr (by simp))
  have hr2 := sortLoop_mono (namesOf cps ++ [h]) (show sortFuel cps ≤ sortFuel (cps ++ [R]) by
    simp [sortFuel]) _ _ _ hr'
  have g' := sortLoop_grows (namesOf cps ++ [h]) _ _ _ _ hnames' hr2
  have hna' : namesOf r'.cps = namesOf cps ++ [h] := g'.names_eq.trans hnames'
  obtain ⟨e', he', hen'⟩ := entry_of_names hna' (getRIndex_some D.self).2.1
  have hpl : e'.name ∈ r'.sortedNames := by
    rw [hen', ar.sorted]
    exact (hall h).mpr hmem
  refine ⟨st, r', hst, ?_, ar.sorted, hall⟩
  unfold sortProcessorsState
  rw [hnames', List.length_append, List.length_singleton, List.range_succ, sortLoop_append, hr2,
    Option.some_bind]
  have hf : sortFuel (cps ++ [R]) = (2 * cps.length + 4) + 1 := by simp [sortFuel]; omega
  rw [hf]
  simp only [sortLoop]
  rw [call_placed he' hpl]
  rfl

theorem latest_duplicate_frame (cps : List callbackProcessor) (i j : Nat)
    (e1 e : callbackProcessor) (b a : String) (hij : i < j) (he1 : cps[i]? = some e1)
    (he : cps[j]? = some e) (hn1 : e1.name = e.name)
    (hlatest : getRIndex (namesOf cps) e.name = some j)
    (hnp : neverPulled cps e.name = true) :
    ∃ order, resolvedOrder cps = some order ∧
      resolvedOrder (cps.set j { e with before := b, after := a }) = some order := by
  obtain ⟨st, lg, hlog, hst⟩ := sortProcessorsLog_returns cps
  have hnpl := neverPulled_calls hlog hnp
  have hnames : namesOf (cps.set j { e with before := b, after := a }) = namesOf cps :=
    namesOf_set_same he rfl
  have hnj : (namesOf cps)[j]? = some e.name := (getRIndex_some hlatest).2.1
  have hlen : j < cps.length := by
    by_contra hge
    rw [List.getElem?_eq_none (by omega)] at he
    simp at he
  have D : Detour (namesOf cps) (namesOf cps) e.name j :=
    { other := fun _ _ => rfl
      apart := fun x idx hx hidx hcontra => by
        subst hcontra
        have := (getRIndex_some hidx).2.1
        rw [hnj] at this
        exact hx (Option.some.inj this).symm
      self := hlatest
      known := getRIndex_mem hlatest }
  have hA : Agree j { cps := cps, sortedNames := [] }
      { cps := cps.set j { e with before := b, after := a }, sortedNames := [] } :=
    { sorted := rfl
      entry := fun i hi => by
        show (cps.set j _)[i]? = cps[i]?
        rw [List.getElem?_set_ne (fun h => hi h.symm)] }
  unfold sortProcessorsLog at hlog
  rw [range_split hlen, sortLoopLog_append] at hlog
  cases hp1 : sortLoopLog (namesOf cps) (sortFuel cps) (List.range j)
      { cps := cps, sortedNames := [] } with
  | none => simp [hp1] at hlog
  | some r1 =>
    obtain ⟨sj, lg1⟩ := r1
    rw [hp1, Option.some_bind] at hlog
    cases hp2 : sortLoopLog (namesOf cps) (sortFuel cps)
        (j :: (List.range cps.length).drop (j + 1)) sj with
    | none => simp [hp2] at hlog
    | some r2 =>
      obtain ⟨s2, lg2⟩ := r2
      rw [hp2] at hlog
      cases hlog
      obtain ⟨sj', hpre', aj⟩ := sortLoopLog_sim D (sortFuel cps) _ _ _ _ _ hp1
        (fun ev hev => hnpl ev (List.mem_append_left _ hev)) hA rfl hnames (Or.inr (by simp))
      have hp1u : sortLoop (namesOf cps) (sortFuel cps) (List.range j)
          { cps := cps, sortedNames := [] } = some sj := by
        rw [← sortLoopLog_fst, hp1]; rfl
      have gj := sortLoop_grows (namesOf cps) _ _ _ _ rfl hp1u
      have gj' := sortLoop_grows (namesOf cps) _ _ _ _ hnames hpre'
      have hplaced : e.name ∈ sj.sortedNames := by
        have := sortLoop_placed (namesOf cps) _ _ _ _ rfl hp1u i (List.mem_range.mpr hij) e1 he1
        rwa [hn1] at this
      obtain ⟨st', hrest', afin⟩ := sortLoopLog_sim D (sortFuel cps) _ _ _ _ _ hp2
        (fun ev hev => hnpl ev (List.mem_append_right _ hev)) aj gj.names_eq
        (gj'.names_eq.trans hnames) (Or.inl ⟨hplaced, hnj⟩)
      refine ⟨s2.sortedNames, by simp [resolvedOrder, hst], ?_⟩
      have hfin : sortProcessorsState (cps.set j { e with before := b, after := a })
          = some st' := by
        unfold sortProcessorsState
        have hf' : sortFuel (cps.set j { e with before := b, after := a }) = sortFuel cps := by
          simp [sortFuel]
        rw [hnames, hf', List.length_set, range_split hlen, sortLoop_append, hpre',
          Option.some_bind, hrest']
      simp [resolvedOrder, hfin, afin.sorted]

/-! ## Claims settled over the calls of a resolution -/

theorem addProcessor_onEntry (c : callback) (typ : String)
    (f : callbackProcessor → callbackProcessor) :
    ((c.addProcessor typ).1.onEntry (c.addProcessor typ).2 f).processors =
      c.processors ++ [f (Gorm.addProcessor typ)] := by
  unfold callback.addProcessor callback.onEntry
  simp

theorem ofTyp_append_typ (typ : String) (ps : List callbackProcessor) {e : callbackProcessor}
    (he : e.typ = typ) : ofTyp typ (ps ++ [e]) = ofTyp typ ps ++ [e] := by
  simp [ofTyp, List.filter_append, he]

theorem append_kept_order (cps : List callbackProcessor) (R : callbackProcessor) (h : String)
    (hreg : h ∈ namesOf cps) (hRn : R.name = h) (hRb : R.before = "") (hRa : R.after = "")
    (hcond : (∃ L, latestEntry cps h = some L ∧ L.before = "" ∧ L.after = "") ∨
      neverPulled cps h = true) :
    ∃ st st', sortProcessorsState cps = some st ∧
      sortProcessorsState (cps ++ [R]) = some st' ∧ st'.sortedNames = st.sortedNames ∧
      (∀ n, n ∈ st.sortedNames ↔ n ∈ namesOf cps) := by
  rcases hcond with ⟨L, hL, hLb, hLa⟩ | hnp
  · unfold latestEntry at hL
    cases hidx : getRIndex (namesOf cps) h with
    | none => simp [hidx] at hL
    | some l =>
      rw [hidx, Option.some_bind] at hL
      exact append_unconstrained_order cps R L h l hidx hL hLb hLa hRn hRb hRa
  · exact append_unpulled_order cps R h hreg hRn hnp

theorem registration_appends (c : callback) (typ : String) (htyp : typ ∈ categories)
    (f : callbackProcessor → callbackProcessor) (hf : (f (Gorm.addProcessor typ)).typ = typ) :
    ∃ c', ((c.addProcessor typ).1.onEntry (c.addProcessor typ).2 f).sort = some c' ∧
      sortProcessors (ofTyp typ c.processors ++ [f (Gorm.addProcessor typ)]) =
        some (c'.hooks typ) := by
  obtain ⟨c', hsort, hfrom, _⟩ := sort_spec ((c.addProcessor typ).1.onEntry (c.addProcessor typ).2 f)
  refine ⟨c', hsort, ?_⟩
  have := hfrom.1 typ htyp
  rw [addProcessor_onEntry, ofTyp_append_typ typ _ hf] at this
  exact this

/-- C1: an unplaced entry `c` with no `after` whose `before` names an `X` already
in `sortedNames` is inserted by `sortCallbackProcessor` exactly once, immediately
before the last occurrence of `X`, whatever the resolver state, and stays so
through any further complete calls of the closure.  For every call of the
closure made while `sortProcessors` runs, by the main loop or nested in another
call, that starts under these conditions, the final resolved order has `c.name`
once, strictly earlier than an occurrence of `X`.  The entries `[A, B(before A)]`
resolve to `[B, A]`. -/
theorem before_placed_target (names : List String) (st : SortState) (ci : Nat)
    (c : callbackProcessor) (X : String)
    (hna : namesOf st.cps = names) (hc : st.cps[ci]? = some c)
    (hn : c.name ∉ st.sortedNames) (ha : c.after = "") (hb : c.before = X) (hX : X ≠ "")
    (hXin : X ∈ st.sortedNames) :
    (∃ l1 l2, st.sortedNames = l1 ++ X :: l2 ∧ X ∉ l2 ∧
      (∀ fuel, sortCallbackProcessor names (fuel + 1) ci st =
        some { st with sortedNames := l1 ++ c.name :: X :: l2 }) ∧
      (l1 ++ c.name :: X :: l2).count c.name = 1 ∧
      (∀ fuel rest final,
        sortLoop names fuel rest { st with sortedNames := l1 ++ c.name :: X :: l2 } = some final →
        ∃ m1 m2, final.sortedNames = m1 ++ c.name :: m2 ∧ c.name ∉ m1 ∧ c.name ∉ m2 ∧ X ∈ m2)) ∧
    (∀ cps, namesOf cps = names →
      sortLoop names (sortFuel cps) (List.range ci) { cps := cps, sortedNames := [] } = some st →
      ∃ final m1 m2, sortProcessorsState cps = some final ∧
        final.sortedNames = m1 ++ c.name :: m2 ∧ c.name ∉ m1 ∧ c.name ∉ m2 ∧ X ∈ m2) ∧
    (∀ cps : List callbackProcessor, ∃ final,
      sortProcessorsLog cps = some (final, callsOf cps) ∧
      sortProcessorsState cps = some final ∧
      ∀ ev, ev ∈ callsOf cps → ∀ (c' : callbackProcessor) (X' : String), BeforeCall ev c' X' →
        PlacedBefore c'.name X' final.sortedNames) ∧
    resolvedOrder [reg "A" 1, regBefore "A" "B" 2] = some ["B", "A"] := by
  obtain ⟨i, hi⟩ := getRIndex_of_mem hXin
  obtain ⟨hs, hlast, _, hdrop⟩ := getRIndex_split hi
  have hne : c.name ≠ X := fun h => hn (h ▸ hXin)
  have hn1 : c.name ∉ st.sortedNames.take i := fun h => hn (List.mem_of_mem_take h)
  have hn2 : c.name ∉ X :: st.sortedNames.drop (i + 1) := by
    intro h
    rcases List.mem_cons.mp h with h | h
    · exact hne h
    · exact hn (List.mem_of_mem_drop h)
  have hcall : ∀ fuel, sortCallbackProcessor names (fuel + 1) ci st =
      some { st with sortedNames :=
        st.sortedNames.take i ++ c.name :: X :: st.sortedNames.drop (i + 1) } := by
    intro fuel
    rw [call_before_placed hc hn ha (hb ▸ hX) (hb ▸ hi) fuel, insertAt, hdrop]
  refine ⟨⟨_, _, hs, hlast, hcall, count_insert_one hn1 hn2, ?_⟩, ?_, ?_, by decide⟩
  · intro fuel rest final hrun
    have g := sortLoop_grows names fuel rest
      { st with sortedNames :=
          st.sortedNames.take i ++ c.name :: X :: st.sortedNames.drop (i + 1) }
      final hna hrun
    obtain ⟨m1, m2, hm, hm1, hm2, hside⟩ := g.split rfl hn1 hn2
    exact ⟨m1, m2, hm, hm1, hm2, ((hside X (by simp)).2).mpr (by simp)⟩
  · intro cps hcps hpre
    subst hcps
    have hk : ci < cps.length := by
      have g0 := sortLoop_grows (namesOf cps) (sortFuel cps) _ _ _ rfl hpre
      rw [← length_eq_of_same g0.same]
      by_contra hge
      rw [List.getElem?_eq_none (by omega)] at hc
      simp at hc
    obtain ⟨final, hfin, g⟩ := sortProcessorsState_from hk hpre (hcall (2 * cps.length + 2))
    obtain ⟨m1, m2, hm, hm1, hm2, hside⟩ := g.split rfl hn1 hn2
    refine ⟨final, m1, m2, hfin, hm, hm1, hm2, ?_⟩
    exact ((hside X (by simp)).2).mpr (by simp)
  · intro cps
    obtain ⟨final, lg, hlog, hfin⟩ := sortProcessorsLog_returns cps
    have hcalls : callsOf cps = lg := by
      unfold callsOf
      rw [hlog]
    rw [hcalls]
    refine ⟨final, hlog, hfin, ?_⟩
    unfold sortProcessorsLog at hlog
    exact sortLoopLog_keep (namesOf cps) (sortFuel cps) _ _ _ _ rfl hlog

/-- C1, at the entry list `[A, B(before A)]`, when the main loop reaches `B`, and
at `[X, D(before C, after X), C(before X)]`, where the call on `C` is nested in
the call on `D`, with `sortedNames = [X, D]`: the final order `[C, X, D, D]` has
`C` once, earlier than `X`. -/
theorem before_placed_target_witness :
    (∃ l1 l2, ["A"] = l1 ++ "A" :: l2 ∧ "A" ∉ l2 ∧
      (∀ fuel, sortCallbackProcessor ["A", "B"] (fuel + 1) 1
          { cps := [reg "A" 1, regBefore "A" "B" 2], sortedNames := ["A"] } =
        some { cps := [reg "A" 1, regBefore "A" "B" 2], sortedNames := l1 ++ "B" :: "A" :: l2 }) ∧
      (l1 ++ "B" :: "A" :: l2).count "B" = 1 ∧
      (∀ fuel rest final,
        sortLoop ["A", "B"] fuel rest
          { cps := [reg "A" 1, regBefore "A" "B" 2], sortedNames := l1 ++ "B" :: "A" :: l2 }
          = some final →
        ∃ m1 m2, final.sortedNames = m1 ++ "B" :: m2 ∧ "B" ∉ m1 ∧ "B" ∉ m2 ∧ "A" ∈ m2)) ∧
    (∃ final m1 m2, sortProcessorsState [reg "A" 1, regBefore "A" "B" 2] = some final ∧
        final.sortedNames = m1 ++ "B" :: m2 ∧ "B" ∉ m1 ∧ "B" ∉ m2 ∧ "A" ∈ m2) ∧
    (∃ final,
      sortProcessorsState [reg "X" 1, (regBefore "C" "D" 2).After "X", regBefore "X" "C" 3]
        = some final ∧
      ({ nested := true, ci := 2,
         st := { cps := [reg "X" 1, (regBefore "C" "D" 2).After "X", regBefore "X" "C" 3],
                 sortedNames := ["X", "D"] } } : CallEvent) ∈
        callsOf [reg "X" 1, (regBefore "C" "D" 2).After "X", regBefore "X" "C" 3] ∧
      PlacedBefore "C" "X" final.sortedNames) ∧
    resolvedOrder [reg "A" 1, regBefore "A" "B" 2] = some ["B", "A"] :=
  have h := before_placed_target ["A", "B"]
    { cps := [reg "A" 1, regBefore "A" "B" 2], sortedNames := ["A"] } 1
    (regBefore "A" "B" 2) "A" (by decide) (by decide) (by decide) (by decide) (by decide)
    (by decide) (by decide)
  ⟨h.1, h.2.1 [reg "A" 1, regBefore "A" "B" 2] (by decide) (by decide),
    (h.2.2.1 [reg "X" 1, (regBefore "C" "D" 2).After "X", regBefore "X" "C" 3]).elim
      fun final hf => ⟨final, hf.2.1, by decide,
        hf.2.2
          { nested := true, ci := 2,
            st := { cps := [reg "X" 1, (regBefore "C" "D" 2).After "X", regBefore "X" "C" 3],
                    sortedNames := ["X", "D"] } }
          (by decide) (regBefore "X" "C" 3) "X"
          ⟨by decide, by decide, by decide, by decide, by decide, by decide⟩⟩,
    h.2.2.2⟩

/-- C2, evaluated at the failing input `Create().After("B").Register("A", 1)`,
`Create().After("Q").Register("B", 2)`, no hook being named `Q`.  The main loop
calls the closure on `A`, which writes `B.before = "A"` and calls itself on `B`;
that call appends `B` and calls the closure on `A` with `sortedNames = [B]`: the
entry `A` is unplaced, has no `before`, and its `after` names the placed `B`, and
the call inserts `A` right after `B`.  Back in the call on `B`, the after block
finds no `Q` and appends `B` once more: the final order is `[B, A, B]`, the
table `[2, 1, 2]`, also as `creates` after the two registrations on
`DefaultCallback`, and `A` is followed by an occurrence of `B`. -/
theorem after_target_placed_again :
    callsOf [regAfter "B" "A" 1, regAfter "Q" "B" 2] =
      [{ nested := false, ci := 0,
         st := { cps := [regAfter "B" "A" 1, regAfter "Q" "B" 2], sortedNames := [] } },
       { nested := true, ci := 1,
         st := { cps := [regAfter "B" "A" 1, (regAfter "Q" "B" 2).Before "A"],
                 sortedNames := [] } },
       { nested := true, ci := 0,
         st := { cps := [regAfter "B" "A" 1, (regAfter "Q" "B" 2).Before "A"],
                 sortedNames := ["B"] } },
       { nested := false, ci := 1,
         st := { cps := [regAfter "B" "A" 1, (regAfter "Q" "B" 2).Before "A"],
                 sortedNames := ["B", "A", "B"] } }] ∧
    sortCallbackProcessor ["A", "B"] 1 0
        { cps := [regAfter "B" "A" 1, (regAfter "Q" "B" 2).Before "A"], sortedNames := ["B"] } =
      some { cps := [regAfter "B" "A" 1, (regAfter "Q" "B" 2).Before "A"],
             sortedNames := ["B", "A"] } ∧
    resolvedOrder [regAfter "B" "A" 1, regAfter "Q" "B" 2] = some ["B", "A", "B"] ∧
    sortProcessors [regAfter "B" "A" 1, regAfter "Q" "B" 2] = some [some 2, some 1, some 2] ∧
    ((DefaultCallback.register "create" "" "B" "A" 1).bind fun c =>
        c.register "create" "" "Q" "B" 2).map (fun c => c.creates)
      = some [some 2, some 1, some 2] := by
  decide

/-- C9 (amended): changing the `before` and `after` of a later entry carrying an
already registered name leaves the resolved name order unchanged when that entry
is not the latest entry of the name, or when no call of the resolution pulls the
name in (the main loop places it, at its first entry): the first entry is the
one the main loop places, the latest entry the one a recursive placement
uses. -/
theorem later_duplicate_constraints_ignored (cps : List callbackProcessor) (i j : Nat)
    (e1 e : callbackProcessor) (b a : String) (hij : i < j) (he1 : cps[i]? = some e1)
    (he : cps[j]? = some e) (hn1 : e1.name = e.name)
    (hcond : (∃ k e2, j < k ∧ cps[k]? = some e2 ∧ e2.name = e.name) ∨
      neverPulled cps e.name = true) :
    ∃ order, resolvedOrder cps = some order ∧
      resolvedOrder (cps.set j { e with before := b, after := a }) = some order := by
  have hmem : e.name ∈ namesOf cps := name_mem_namesOf he
  have hnj : (namesOf cps)[j]? = some e.name := by
    unfold namesOf; rw [List.getElem?_map, he]; rfl
  obtain ⟨l, hl⟩ := getRIndex_of_mem hmem
  obtain ⟨_, hget, hlast⟩ := getRIndex_some hl
  by_cases hlj : l = j
  · subst hlj
    rcases hcond with ⟨k, e2, hjk, hk, hkn⟩ | hnp
    · exfalso
      apply hlast k hjk
      unfold namesOf
      rw [List.getElem?_map, hk, ← hkn]
      rfl
    · exact latest_duplicate_frame cps i l e1 e b a hij he1 he hn1 hl hnp
  · have hjl : j < l := by
      by_contra hge
      have hlt : l < j := by omega
      exact hlast j hlt hnj
    obtain ⟨e2, he2, hn2⟩ := entry_of_names rfl hget
    exact middle_duplicate_frame cps i j l e1 e e2 b a hij hjl he1 he he2 hn1 hn2

/-- C9 (amended), at the two registrations `[A, A]` and at `[A, B, A]` with the
second `A` given the constraints `before B`, `after Q`, and at
`[B(before A), A, A, A]` with the middle `A`. -/
theorem later_duplicate_constraints_ignored_witness :
    (∃ order, resolvedOrder [reg "A" 1, reg "A" 2] = some order ∧
      resolvedOrder ([reg "A" 1, reg "A" 2].set 1
        { reg "A" 2 with before := "B", after := "Q" }) = some order) ∧
    (∃ order, resolvedOrder [reg "A" 1, reg "B" 2, reg "A" 3] = some order ∧
      resolvedOrder ([reg "A" 1, reg "B" 2, reg "A" 3].set 2
        { reg "A" 3 with before := "B", after := "Q" }) = some order) ∧
    (∃ order, resolvedOrder [regBefore "A" "B" 1, reg "A" 2, reg "A" 3, reg "A" 4] = some order ∧
      resolvedOrder ([regBefore "A" "B" 1, reg "A" 2, reg "A" 3, reg "A" 4].set 2
        { reg "A" 3 with before := "B", after := "Q" }) = some order) :=
  ⟨later_duplicate_constraints_ignored [reg "A" 1, reg "A" 2] 0 1 (reg "A" 1)
      (reg "A" 2) "B" "Q" (by decide) (by decide) (by decide) (by decide)
      (Or.inr (by decide)),
    later_duplicate_constraints_ignored [reg "A" 1, reg "B" 2, reg "A" 3] 0 2 (reg "A" 1)
      (reg "A" 3) "B" "Q" (by decide) (by decide) (by decide) (by decide)
      (Or.inr (by decide)),
    later_duplicate_constraints_ignored [regBefore "A" "B" 1, reg "A" 2, reg "A" 3, reg "A" 4]
      1 2 (reg "A" 2) (reg "A" 3) "B" "Q" (by decide) (by decide) (by decide) (by decide)
      (Or.inl ⟨3, reg "A" 4, by decide, by decide, by decide⟩)⟩

/-- C5 (amended): in a category in which `h` is registered, when the latest
entry named `h` carries no before/after constraint, or no call of the resolution
of the category's entries pulls `h` in, `Create().Replace(h, g)` (an entry
without constraints) returns, and the resolution of the entries with the new
entry has the name order of the resolution of the entries as they stood: the
hook list after the call is that order with the slot of `h` bound to `g` and
every other slot as it was.  The hook list before the call is that same order
over the old slots whenever it was the resolution of the entries as they
stood. -/
theorem replace_keeps_order (c : callback) (typ h : String) (g : Nat)
    (htyp : typ ∈ categories) (hreg : h ∈ namesOf (ofTyp typ c.processors))
    (hcond : (∃ L, latestEntry (ofTyp typ c.processors) h = some L ∧ L.before = "" ∧
        L.after = "") ∨ neverPulled (ofTyp typ c.processors) h = true) :
    ∃ c' order,
      (c.addProcessor typ).1.Replace (c.addProcessor typ).2 h g = some c' ∧
      resolvedOrder (ofTyp typ c.processors) = some order ∧
      resolvedOrder (ofTyp typ c.processors ++ [(Gorm.addProcessor typ).Replace h g])
        = some order ∧
      sortProcessors (ofTyp typ c.processors)
        = some (order.filterMap (hookSlot (ofTyp typ c.processors))) ∧
      c'.hooks typ = order.filterMap
        (hookSlot (ofTyp typ c.processors ++ [(Gorm.addProcessor typ).Replace h g])) ∧
      hookSlot (ofTyp typ c.processors ++ [(Gorm.addProcessor typ).Replace h g]) h
        = some (some g) ∧
      (∀ n, n ≠ h →
        hookSlot (ofTyp typ c.processors ++ [(Gorm.addProcessor typ).Replace h g]) n
          = hookSlot (ofTyp typ c.processors) n) ∧
      (sortProcessors (ofTyp typ c.processors) = some (c.hooks typ) →
        c.hooks typ = order.filterMap (hookSlot (ofTyp typ c.processors))) := by
  obtain ⟨st, st', hst, hst', hsorted, _⟩ := append_kept_order (ofTyp typ c.processors)
    ((Gorm.addProcessor typ).Replace h g) h hreg rfl rfl rfl hcond
  obtain ⟨st1, hst1, _, htab⟩ := sortProcessors_eq_hookTable (ofTyp typ c.processors)
  obtain ⟨st2, hst2, _, htab'⟩ := sortProcessors_eq_hookTable
    (ofTyp typ c.processors ++ [(Gorm.addProcessor typ).Replace h g])
  rw [hst] at hst1
  cases hst1
  rw [hst'] at hst2
  cases hst2
  obtain ⟨c', hsort, hhooks⟩ := registration_appends c typ htyp (fun e => e.Replace h g) rfl
  refine ⟨c', st.sortedNames, hsort, by simp [resolvedOrder, hst],
    by simp [resolvedOrder, hst', hsorted], htab, ?_, ?_, ?_, ?_⟩
  · have := hhooks.symm.trans htab'
    rw [hsorted] at this
    exact Option.some.inj this
  · exact hookSlot_append_self (ofTyp typ c.processors) ((Gorm.addProcessor typ).Replace h g)
  · intro n hn
    exact hookSlot_append_ne (ofTyp typ c.processors) _ hn
  · intro hset
    exact Option.some.inj (hset.symm.trans htab)

/-- C5 (amended), at the registry `[A, H(after A)]` of the category `create` with
hooks `[1, 2]`, followed by `Create().Replace("H", 9)`: no call pulls `H` in. -/
theorem replace_keeps_order_witness :
    ∃ c' order,
      ({ creates := [some 1, some 2], updates := [], deletes := [], queries := [],
         rowQueries := [], processors := [reg "A" 1, regAfter "A" "H" 2] } : callback).Create.1.Replace
        2 "H" 9 = some c' ∧
      resolvedOrder [reg "A" 1, regAfter "A" "H" 2] = some order ∧
      c'.hooks "create" = order.filterMap
        (hookSlot ([reg "A" 1, regAfter "A" "H" 2] ++ [(Gorm.addProcessor "create").Replace "H" 9])) ∧
      [some 1, some 2] = order.filterMap (hookSlot [reg "A" 1, regAfter "A" "H" 2]) :=
  (replace_keeps_order
    { creates := [some 1, some 2], updates := [], deletes := [], queries := [],
      rowQueries := [], processors := [reg "A" 1, regAfter "A" "H" 2] } "create" "H" 9
    (by decide) (by decide) (Or.inr (by decide))).elim fun c' hc' => hc'.elim fun order ho =>
      ⟨c', order, ho.1, ho.2.1, ho.2.2.2.2.1, ho.2.2.2.2.2.2.2 (by decide)⟩

/-- C6 (amended): in a category in which `h` is registered, when the latest
entry named `h` carries no before/after constraint, or no call of the resolution
of the category's entries pulls `h` in, `Create().Remove(h)` returns, and the
resolution of the entries with the removal entry has the name order of the
resolution of the entries as they stood: the hook list after the call is that
order over the old slots with `h` left out.  The hook list before the call is
that same order over the old slots whenever it was the resolution of the entries
as they stood. -/
theorem remove_keeps_order (c : callback) (typ h : String)
    (htyp : typ ∈ categories) (hreg : h ∈ namesOf (ofTyp typ c.processors))
    (hcond : (∃ L, latestEntry (ofTyp typ c.processors) h = some L ∧ L.before = "" ∧
        L.after = "") ∨ neverPulled (ofTyp typ c.processors) h = true) :
    ∃ c' order,
      (c.addProcessor typ).1.Remove (c.addProcessor typ).2 h = some c' ∧
      resolvedOrder (ofTyp typ c.processors) = some order ∧
      resolvedOrder (ofTyp typ c.processors ++ [(Gorm.addProcessor typ).Remove h]) = some order ∧
      sortProcessors (ofTyp typ c.processors)
        = some (order.filterMap (hookSlot (ofTyp typ c.processors))) ∧
      c'.hooks typ = (order.filter (fun n => decide (n ≠ h))).filterMap
        (hookSlot (ofTyp typ c.processors)) ∧
      (sortProcessors (ofTyp typ c.processors) = some (c.hooks typ) →
        c.hooks typ = order.filterMap (hookSlot (ofTyp typ c.processors))) := by
  obtain ⟨st, st', hst, hst', hsorted, _⟩ := append_kept_order (ofTyp typ c.processors)
    ((Gorm.addProcessor typ).Remove h) h hreg rfl rfl rfl hcond
  obtain ⟨st1, hst1, _, htab⟩ := sortProcessors_eq_hookTable (ofTyp typ c.processors)
  obtain ⟨st2, hst2, _, htab'⟩ := sortProcessors_eq_hookTable
    (ofTyp typ c.processors ++ [(Gorm.addProcessor typ).Remove h])
  rw [hst] at hst1
  cases hst1
  rw [hst'] at hst2
  cases hst2
  obtain ⟨c', hsort, hhooks⟩ := registration_appends c typ htyp (fun e => e.Remove h) rfl
  refine ⟨c', st.sortedNames, hsort, by simp [resolvedOrder, hst],
    by simp [resolvedOrder, hst', hsorted], htab, ?_, ?_⟩
  · have := hhooks.symm.trans htab'
    rw [hsorted] at this
    rw [Option.some.inj this]
    unfold hookTable
    apply filterMap_drop_name
    · exact hookSlot_append_self (ofTyp typ c.processors) ((Gorm.addProcessor typ).Remove h)
    · intro n hn
      exact hookSlot_append_ne (ofTyp typ c.processors) _ hn
  · intro hset
    exact Option.some.inj (hset.symm.trans htab)

/-- C6 (amended), at the registry `[A, H(after A)]` of the category `create` with
hooks `[1, 2]`, followed by `Create().Remove("H")`: the hooks become `[1]`. -/
theorem remove_keeps_order_witness :
    ∃ c' order,
      ({ creates := [some 1, some 2], updates := [], deletes := [], queries := [],
         rowQueries := [], processors := [reg "A" 1, regAfter "A" "H" 2] } : callback).Create.1.Remove
        2 "H" = some c' ∧
      resolvedOrder [reg "A" 1, regAfter "A" "H" 2] = some order ∧
      c'.hooks "create" = (order.filter (fun n => decide (n ≠ "H"))).filterMap
        (hookSlot [reg "A" 1, regAfter "A" "H" 2]) ∧
      [some 1, some 2] = order.filterMap (hookSlot [reg "A" 1, regAfter "A" "H" 2]) :=
  (remove_keeps_order
    { creates := [some 1, some 2], updates := [], deletes := [], queries := [],
      rowQueries := [], processors := [reg "A" 1, regAfter "A" "H" 2] } "create" "H"
    (by decide) (by decide) (Or.inr (by decide))).elim fun c' hc' => hc'.elim fun order ho =>
      ⟨c', order, ho.1, ho.2.1, ho.2.2.2.2.1, ho.2.2.2.2.2 (by decide)⟩

end Gorm
